import Mathlib

/-!
# A shallow embedding of the terminal text editor (`dummy-editor.c`)

The editor keeps one global `struct editorConfig E`.  Here every C function
becomes a Lean function that takes the part of the state it reads and
returns the part it writes.

Conventions of the embedding.

* A byte (`char`) is a `Nat`; a value of type `int` that is stored into a
  `char` is reduced modulo 256.
* A C `int` is an `Int`.  The arithmetic of the editor never comes near the
  32-bit range for documents that fit in memory, so no wrap-around is
  modelled.  The counter `dirty` is only ever zeroed and incremented by the
  program and is a `Nat`.
* A row `erow` stores `chars` and `render` as lists of bytes; `size` and
  `rsize` are the lengths of those lists, and the terminating NUL that the
  C code keeps at `chars[size]` and `render[rsize]` is not stored.
* `E.row` is the list of rows and `E.numrows` its length.
* `statusmsg`, `statusmsg_time` and `orig_termios` are not modelled, nor
  are the bytes that `editorRefreshScreen` writes to the terminal.
-/

namespace TextEditor

/-! ## defines -/

/-- The `EDITOR_TAB_STOP` constant. -/
def EDITOR_TAB_STOP : Nat := 8

/-- The `EDITOR_QUIT_TIMES` constant. -/
def EDITOR_QUIT_TIMES : Int := 3

/-- The `CTRL_KEY(k)` macro: `(k) & 0x1f`. -/
def CTRL_KEY (k : Char) : Int := ((k.toNat &&& 0x1f : Nat) : Int)

/-- Key code `BACKSPACE = 127` of `enum editorKey`. -/
def BACKSPACE : Int := 127
/-- Key code `ARROW_LEFT = 1000`. -/
def ARROW_LEFT : Int := 1000
/-- Key code `ARROW_RIGHT`. -/
def ARROW_RIGHT : Int := 1001
/-- Key code `ARROW_UP`. -/
def ARROW_UP : Int := 1002
/-- Key code `ARROW_DOWN`. -/
def ARROW_DOWN : Int := 1003
/-- Key code `DEL_KEY`. -/
def DEL_KEY : Int := 1004
/-- Key code `HOME_KEY`. -/
def HOME_KEY : Int := 1005
/-- Key code `END_KEY`. -/
def END_KEY : Int := 1006
/-- Key code `PAGE_UP`. -/
def PAGE_UP : Int := 1007
/-- Key code `PAGE_DOWN`. -/
def PAGE_DOWN : Int := 1008

/-- The byte `'\t'`. -/
def TAB : Nat := 9
/-- The byte `' '`. -/
def SPACE : Nat := 32
/-- The byte `'\n'`. -/
def LF : Nat := 10
/-- The byte `'\r'`. -/
def CR : Nat := 13
/-- The byte `'\x1b'`. -/
def ESC : Nat := 27

/-! ## data -/

/-- The `erow` struct: content bytes and render bytes. -/
structure erow where
  chars : List Nat
  render : List Nat
deriving DecidableEq

/-- The field `size` of a row. -/
def erow.size (row : erow) : Int := (row.chars.length : Int)

/-- The field `rsize` of a row. -/
def erow.rsize (row : erow) : Int := (row.render.length : Int)

/-- The `editorConfig` struct (the global `E`). -/
structure editorConfig where
  cx : Int
  cy : Int
  rx : Int
  rowoff : Int
  coloff : Int
  screenrows : Int
  screencols : Int
  row : List erow
  dirty : Nat
  filename : Option (List Nat)
deriving DecidableEq

/-- The field `numrows` of the editor state. -/
def editorConfig.numrows (E : editorConfig) : Int := (E.row.length : Int)

/-- The row `E.row[i]`.  The C code only evaluates it for `0 <= i < numrows`;
outside that range (undefined behaviour in C) the model yields an empty row. -/
def editorConfig.rowAt (E : editorConfig) (i : Int) : erow :=
  E.row.getD i.toNat { chars := [], render := [] }

/-! ## row operations -/

/-- The body of the `for` loop shared by `editorRowCxToRx` and
`editorRowRxToCx`: `if (c == '\t') rx += (TAB_STOP - 1) - (rx % TAB_STOP); rx++`. -/
def advanceRx (c : Nat) (rx : Int) : Int :=
  (if c = TAB then rx + (((EDITOR_TAB_STOP : Int) - 1) - rx % (EDITOR_TAB_STOP : Int)) else rx) + 1

/-- The value of `rx` in `editorRowCxToRx` after `n` iterations of its loop
(`j = 0 .. n-1`).  Reading `chars[size]` yields the terminating NUL. -/
def editorRowCxToRx.loop (chars : List Nat) : Nat → Int
  | 0 => 0
  | n + 1 => advanceRx (chars.getD n 0) (editorRowCxToRx.loop chars n)

/-- The function `editorRowCxToRx(row, cx)`: the loop runs for `j < cx`. -/
def editorRowCxToRx (row : erow) (cx : Int) : Int :=
  editorRowCxToRx.loop row.chars cx.toNat

/-- The loop of `editorRowRxToCx` over the content bytes still to visit, with
the current values of `cx` and `cur_rx`. -/
def editorRowRxToCx.loop (rx : Int) : List Nat → Int → Int → Int
  | [], cx, _ => cx
  | c :: cs, cx, cur_rx =>
    if advanceRx c cur_rx > rx then cx
    else editorRowRxToCx.loop rx cs (cx + 1) (advanceRx c cur_rx)

/-- The function `editorRowRxToCx(row, rx)`. -/
def editorRowRxToCx (row : erow) (rx : Int) : Int :=
  editorRowRxToCx.loop rx row.chars 0 0

/-- The inner loop `while (idx % TAB_STOP != 0) render[idx++] = ' '` of
`editorUpdateRow`, run for at most `fuel` iterations on the render bytes
written so far. -/
def editorUpdateRow.pad : Nat → List Nat → List Nat
  | 0, r => r
  | fuel + 1, r =>
    if r.length % EDITOR_TAB_STOP ≠ 0 then editorUpdateRow.pad fuel (r ++ [SPACE]) else r

/-- The second `for` loop of `editorUpdateRow`: the content bytes still to
visit and the render bytes written so far (`idx` is their number). -/
def editorUpdateRow.loop : List Nat → List Nat → List Nat
  | [], r => r
  | c :: cs, r =>
    if c = TAB then editorUpdateRow.loop cs (editorUpdateRow.pad EDITOR_TAB_STOP (r ++ [SPACE]))
    else editorUpdateRow.loop cs (r ++ [c])

/-- The number of tabs counted by the first loop of `editorUpdateRow`. -/
def editorUpdateRow.tabs (chars : List Nat) : Nat :=
  chars.foldl (fun tabs c => if c = TAB then tabs + 1 else tabs) 0

/-- The function `editorUpdateRow(row)`: rebuilds `render` from `chars`. -/
def editorUpdateRow (row : erow) : erow :=
  { row with render := editorUpdateRow.loop row.chars [] }

/-- The function `editorInsertRow(at, s, len)`; `s` holds the `len` bytes. -/
def editorInsertRow (E : editorConfig) (pos : Int) (s : List Nat) : editorConfig :=
  if pos < 0 ∨ pos > E.numrows then E
  else
    { E with
      row := E.row.take pos.toNat ++ [editorUpdateRow { chars := s, render := [] }]
              ++ E.row.drop pos.toNat
      dirty := E.dirty + 1 }

/-- The function `editorDelRow(at)`. -/
def editorDelRow (E : editorConfig) (pos : Int) : editorConfig :=
  if pos < 0 ∨ pos ≥ E.numrows then E
  else
    { E with
      row := E.row.take pos.toNat ++ E.row.drop (pos.toNat + 1)
      dirty := E.dirty + 1 }

/-- The function `editorRowInsertChar(row, at, c)`; it writes `*row` and
`E.dirty`, which are passed in and returned. -/
def editorRowInsertChar (row : erow) (pos : Int) (c : Int) (dirty : Nat) : erow × Nat :=
  let p := if pos < 0 ∨ pos > row.size then row.size else pos
  (editorUpdateRow
    { row with chars := row.chars.take p.toNat ++ [(c % 256).toNat] ++ row.chars.drop p.toNat },
   dirty + 1)

/-- The function `editorRowAppendString(row, s, len)`; `s` holds the `len` bytes. -/
def editorRowAppendString (row : erow) (s : List Nat) (dirty : Nat) : erow × Nat :=
  (editorUpdateRow { row with chars := row.chars ++ s }, dirty + 1)

/-- The function `editorRowDelChar(row, at)`. -/
def editorRowDelChar (row : erow) (pos : Int) (dirty : Nat) : erow × Nat :=
  if pos < 0 ∨ pos ≥ row.size then (row, dirty)
  else
    (editorUpdateRow
      { row with chars := row.chars.take pos.toNat ++ row.chars.drop (pos.toNat + 1) },
     dirty + 1)

/-! ## editor operations -/

/-- The function `editorInsertChar(c)`. -/
def editorInsertChar (E : editorConfig) (c : Int) : editorConfig :=
  let E1 := if E.cy = E.numrows then editorInsertRow E E.numrows [] else E
  let r := editorRowInsertChar (E1.rowAt E1.cy) E1.cx c E1.dirty
  { E1 with row := E1.row.set E1.cy.toNat r.1, dirty := r.2, cx := E1.cx + 1 }

/-- The function `editorInsertNewline()`.  In the `else` branch the new row
receives the bytes `&row->chars[E.cx]` of length `row->size - E.cx`, then the
current row is truncated to `E.cx` bytes and re-rendered. -/
def editorInsertNewline (E : editorConfig) : editorConfig :=
  let E2 :=
    if E.cx = 0 then editorInsertRow E E.cy []
    else
      let row := E.rowAt E.cy
      let E1 := editorInsertRow E (E.cy + 1) (row.chars.drop E.cx.toNat)
      let row1 := E1.rowAt E1.cy
      { E1 with
        row := E1.row.set E1.cy.toNat (editorUpdateRow { row1 with chars := row1.chars.take E1.cx.toNat }) }
  { E2 with cy := E2.cy + 1, cx := 0 }

/-- The function `editorDelChar()`. -/
def editorDelChar (E : editorConfig) : editorConfig :=
  if E.cy = E.numrows then E
  else if E.cx = 0 ∧ E.cy = 0 then E
  else
    let row := E.rowAt E.cy
    if E.cx > 0 then
      let r := editorRowDelChar row (E.cx - 1) E.dirty
      { E with row := E.row.set E.cy.toNat r.1, dirty := r.2, cx := E.cx - 1 }
    else
      let E1 := { E with cx := (E.rowAt (E.cy - 1)).size }
      let r := editorRowAppendString (E1.rowAt (E1.cy - 1)) row.chars E1.dirty
      let E2 := { E1 with row := E1.row.set (E1.cy - 1).toNat r.1, dirty := r.2 }
      let E3 := editorDelRow E2 E2.cy
      { E3 with cy := E3.cy - 1 }

/-! ## file i/o -/

/-- The function `editorRowsToString(&buflen)`: the bytes written into `buf`
by the second loop, and the value `totlen` stored into `*buflen` by the first. -/
def editorRowsToString (E : editorConfig) : List Nat × Int :=
  (E.row.foldl (fun buf r => buf ++ r.chars ++ [LF]) [],
   E.row.foldl (fun totlen r => totlen + (r.size + 1)) 0)

/-- The successive results of `getline` on a stream: every line ends with its
`'\n'`, except a last line that the end of file cuts short.  The second
argument holds the bytes of the line being read. -/
def getlines : List Nat → List Nat → List (List Nat)
  | [], line => if line = [] then [] else [line]
  | b :: bs, line =>
    if b = LF then (line ++ [LF]) :: getlines bs [] else getlines bs (line ++ [b])

/-- The loop `while (linelen > 0 && (line[linelen-1] == '\n' ||
line[linelen-1] == '\r')) linelen--` of `editorOpen`. -/
def stripEol (line : List Nat) : List Nat :=
  line.rdropWhile (fun b => b = LF ∨ b = CR)

/-- The `while` loop of `editorOpen` over the lines delivered by `getline`. -/
def editorOpen.loop (E : editorConfig) (lines : List (List Nat)) : editorConfig :=
  lines.foldl (fun E line => editorInsertRow E E.numrows (stripEol line)) E

/-- The function `editorOpen(filename)` when `fopen` succeeds on a file holding
`contents` (when it fails the program dies, see `main`). -/
def editorOpen (E : editorConfig) (filename : List Nat) (contents : List Nat) : editorConfig :=
  let E1 := { E with filename := some filename }
  let E2 := editorOpen.loop E1 (getlines contents [])
  { E2 with dirty := 0 }

/-! ## output -/

/-- The function `editorScroll()`. -/
def editorScroll (E : editorConfig) : editorConfig :=
  let E1 := { E with rx := 0 }
  let E2 := if E1.cy < E1.numrows then { E1 with rx := editorRowCxToRx (E1.rowAt E1.cy) E1.cx } else E1
  let E3 := if E2.cy < E2.rowoff then { E2 with rowoff := E2.cy } else E2
  let E4 := if E3.cy ≥ E3.rowoff + E3.screenrows then { E3 with rowoff := E3.cy - E3.screenrows + 1 } else E3
  let E5 := if E4.rx < E4.coloff then { E4 with coloff := E4.rx } else E4
  if E5.rx ≥ E5.coloff + E5.screencols then { E5 with coloff := E5.rx - E5.screencols + 1 } else E5

/-- The function `editorRefreshScreen()`, restricted to its effect on the
editor state: it calls `editorScroll` and then only writes to the terminal. -/
def editorRefreshScreen (E : editorConfig) : editorConfig :=
  editorScroll E

/-! ## the environment -/

/-- What the operating system answers to one save attempt: whether `open`
and `ftruncate` succeed, and the value returned by `write`. -/
structure SaveOutcome where
  openOk : Bool
  truncateOk : Bool
  written : Int
deriving DecidableEq

/-- The environment of the process: the keys that `editorReadKey` will
deliver, the answers of the operating system to the successive save attempts
(once the list is used up, `open` fails), and the bytes of the file at the
bound path (no bytes when the file does not exist). -/
structure World where
  keys : List Int
  os : List SaveOutcome
  disk : List Nat
deriving DecidableEq

/-- The library predicate `iscntrl` in the "C" locale. -/
def iscntrl (c : Int) : Bool :=
  (0 ≤ c ∧ c < 32) ∨ c = 127

/-- The library function `strstr` on two byte arrays read as C strings (each
ends at its first NUL): the offset of the first occurrence of `needle` in
`haystack`.  The second argument of the loop is the offset reached. -/
def strstr.loop (needle : List Nat) : List Nat → Nat → Option Nat
  | [], off => if needle = [] then some off else none
  | h :: hs, off =>
    if needle.isPrefixOf (h :: hs) then some off else strstr.loop needle hs (off + 1)

/-- The library function `strstr(haystack, needle)`. -/
def strstr (haystack needle : List Nat) : Option Nat :=
  strstr.loop (needle.takeWhile (fun b => b ≠ 0)) (haystack.takeWhile (fun b => b ≠ 0)) 0

/-! ## input -/

/-- The loop of `editorPrompt(prompt)` with the bytes of `buf` typed so far and
the keys still to be read.  The result is the state (each iteration refreshes
the screen), the returned string (`none` for `NULL`) and the keys left; the
whole result is `none` when the keys run out before the prompt ends, that is
when the process stays blocked in `editorReadKey`. -/
def editorPrompt.loop : editorConfig → List Nat → List Int → Option (editorConfig × Option (List Nat) × List Int)
  | _, _, [] => none
  | E, buf, c :: keys =>
    let E1 := editorRefreshScreen E
    if c = DEL_KEY ∨ c = CTRL_KEY 'h' ∨ c = BACKSPACE then
      editorPrompt.loop E1 buf.dropLast keys
    else if c = (ESC : Int) then some (E1, none, keys)
    else if c = (CR : Int) then
      if buf ≠ [] then some (E1, some buf, keys) else editorPrompt.loop E1 buf keys
    else if !iscntrl c ∧ c < 128 then
      editorPrompt.loop E1 (buf ++ [(c % 256).toNat]) keys
    else editorPrompt.loop E1 buf keys

/-- The function `editorPrompt(prompt)`: the buffer starts empty. -/
def editorPrompt (E : editorConfig) (keys : List Int) : Option (editorConfig × Option (List Nat) × List Int) :=
  editorPrompt.loop E [] keys

/-- The function `editorMoveCursor(key)`; a `NULL` row is `none`. -/
def editorMoveCursor (E : editorConfig) (key : Int) : editorConfig :=
  let row : Option erow := if E.cy ≥ E.numrows then none else some (E.rowAt E.cy)
  let E1 :=
    if key = ARROW_LEFT then
      if E.cx ≠ 0 then { E with cx := E.cx - 1 }
      else if E.cy > 0 then { E with cy := E.cy - 1, cx := (E.rowAt (E.cy - 1)).size }
      else E
    else if key = ARROW_RIGHT then
      match row with
      | some r =>
        if E.cx < r.size then { E with cx := E.cx + 1 }
        else if E.cx = r.size then { E with cy := E.cy + 1, cx := 0 }
        else E
      | none => E
    else if key = ARROW_UP then
      if E.cy ≠ 0 then { E with cy := E.cy - 1 } else E
    else if key = ARROW_DOWN then
      if E.cy < E.numrows then { E with cy := E.cy + 1 } else E
    else E
  let row1 : Option erow := if E1.cy ≥ E1.numrows then none else some (E1.rowAt E1.cy)
  let rowlen : Int := match row1 with
    | some r => r.size
    | none => 0
  if E1.cx > rowlen then { E1 with cx := rowlen } else E1

/-! ## find -/

/-- The `for` loop of `editorFind` over the rows still to visit, `i` being the
index of the first of them. -/
def editorFind.loop (E : editorConfig) (query : List Nat) : List erow → Int → editorConfig
  | [], _ => E
  | row :: rows, i =>
    match strstr row.render query with
    | some off =>
      { E with cy := i, cx := editorRowRxToCx row (off : Int), rowoff := E.numrows }
    | none => editorFind.loop E query rows (i + 1)

/-- The function `editorFind()`, given the keys still to be read; `none` when
the process stays blocked in the prompt. -/
def editorFind (E : editorConfig) (keys : List Int) : Option (editorConfig × List Int) :=
  match editorPrompt E keys with
  | none => none
  | some (E1, none, rest) => some (E1, rest)
  | some (E1, some query, rest) => some (editorFind.loop E1 query E1.row 0, rest)

/-! ## save -/

/-- The bytes of a file after `ftruncate(fd, len)`: cut, or extended with NULs. -/
def ftruncate (file : List Nat) (len : Nat) : List Nat :=
  file.take len ++ List.replicate (len - file.length) 0

/-- The part of `editorSave` that follows the binding of the filename:
serialise, `open`, `ftruncate`, `write`. -/
def editorSave.write (E : editorConfig) (W : World) : editorConfig × World :=
  let buf := (editorRowsToString E).1
  let len := (editorRowsToString E).2
  match W.os with
  | [] => (E, W)
  | o :: os =>
    if o.openOk then
      if o.truncateOk then
        let file := ftruncate W.disk len.toNat
        let n := o.written.toNat
        let W1 := { W with os := os, disk := buf.take n ++ file.drop n }
        if o.written = len then ({ E with dirty := 0 }, W1) else (E, W1)
      else (E, { W with os := os })
    else (E, { W with os := os })

/-- The function `editorSave()`; `none` when the process stays blocked in the
prompt for a filename. -/
def editorSave (E : editorConfig) (W : World) : Option (editorConfig × World) :=
  match E.filename with
  | some _ => some (editorSave.write E W)
  | none =>
    match editorPrompt E W.keys with
    | none => none
    | some (E1, none, rest) => some (E1, { W with keys := rest })
    | some (E1, some name, rest) =>
      some (editorSave.write { E1 with filename := some name } { W with keys := rest })

/-! ## key dispatch and main loop -/

/-- The process between two iterations of the main loop: running with the
editor state, the static `quit_times` and the environment; ended by `exit(0)`
or by `die` (`exit(1)`); or blocked for ever in `editorReadKey`. -/
inductive Proc where
  | running (E : editorConfig) (quit_times : Int) (W : World)
  | exited (E : editorConfig) (W : World)
  | died
  | blocked
deriving DecidableEq

/-- The loop `while (times--) editorMoveCursor(key)`. -/
def editorMoveCursor.times : Nat → editorConfig → Int → editorConfig
  | 0, E, _ => E
  | n + 1, E, key => editorMoveCursor.times n (editorMoveCursor E key) key

/-- The function `editorProcessKeypress()`: it reads one key from the
environment and dispatches on it. -/
def editorProcessKeypress (E : editorConfig) (quit_times : Int) (W : World) : Proc :=
  match W.keys with
  | [] => Proc.blocked
  | c :: keys =>
    let W1 := { W with keys := keys }
    if c = (CR : Int) then
      Proc.running (editorInsertNewline E) EDITOR_QUIT_TIMES W1
    else if c = CTRL_KEY 'q' then
      if E.dirty ≠ 0 ∧ quit_times > 0 then Proc.running E (quit_times - 1) W1
      else Proc.exited E W1
    else if c = CTRL_KEY 's' then
      match editorSave E W1 with
      | none => Proc.blocked
      | some (E1, W2) => Proc.running E1 EDITOR_QUIT_TIMES W2
    else if c = HOME_KEY then
      Proc.running { E with cx := 0 } EDITOR_QUIT_TIMES W1
    else if c = END_KEY then
      Proc.running (if E.cy < E.numrows then { E with cx := (E.rowAt E.cy).size } else E)
        EDITOR_QUIT_TIMES W1
    else if c = CTRL_KEY 'f' then
      match editorFind E W1.keys with
      | none => Proc.blocked
      | some (E1, rest) => Proc.running E1 EDITOR_QUIT_TIMES { W1 with keys := rest }
    else if c = BACKSPACE ∨ c = DEL_KEY ∨ c = CTRL_KEY 'h' then
      let E1 := if c = DEL_KEY then editorMoveCursor E ARROW_RIGHT else E
      Proc.running (editorDelChar E1) EDITOR_QUIT_TIMES W1
    else if c = PAGE_UP ∨ c = PAGE_DOWN then
      let E1 :=
        if c = PAGE_UP then { E with cy := E.rowoff }
        else if c = PAGE_DOWN then
          let E0 := { E with cy := E.rowoff + E.screenrows - 1 }
          if E0.cy > E0.numrows then { E0 with cy := E0.numrows } else E0
        else E
      Proc.running
        (editorMoveCursor.times E1.screenrows.toNat E1 (if c = PAGE_UP then ARROW_UP else ARROW_DOWN))
        EDITOR_QUIT_TIMES W1
    else if c = ARROW_UP ∨ c = ARROW_DOWN ∨ c = ARROW_LEFT ∨ c = ARROW_RIGHT then
      Proc.running (editorMoveCursor E c) EDITOR_QUIT_TIMES W1
    else if c = CTRL_KEY 'l' ∨ c = (ESC : Int) then
      Proc.running E EDITOR_QUIT_TIMES W1
    else
      Proc.running (editorInsertChar E c) EDITOR_QUIT_TIMES W1

/-! ## init -/

/-- The function `initEditor()`, given the size `rows`, `cols` that
`getWindowSize` reports. -/
def initEditor (rows cols : Int) : editorConfig :=
  { cx := 0, cy := 0, rx := 0, rowoff := 0, coloff := 0,
    screenrows := rows - 2, screencols := cols,
    row := [], dirty := 0, filename := none }

/-- One iteration of the loop of `main`: `editorRefreshScreen()` followed by
`editorProcessKeypress()`. -/
def mainStep : Proc → Proc
  | Proc.running E quit_times W => editorProcessKeypress (editorRefreshScreen E) quit_times W
  | p => p

/-- The process after `n` iterations of the loop of `main`. -/
def mainLoop : Nat → Proc → Proc
  | 0, p => p
  | n + 1, p => mainLoop n (mainStep p)

/-- The function `main` up to its loop.  The argument is `none` without a file
name (`argc < 2`), else the name with the bytes of the file, or with `none`
when `fopen` fails and the program dies. -/
def mainStart (rows cols : Int) (arg : Option (List Nat × Option (List Nat))) (W : World) : Proc :=
  let E := initEditor rows cols
  match arg with
  | none => Proc.running E EDITOR_QUIT_TIMES W
  | some (_, none) => Proc.died
  | some (name, some contents) => Proc.running (editorOpen E name contents) EDITOR_QUIT_TIMES W

/-- The editor state of a process that has one. -/
def Proc.config : Proc → Option editorConfig
  | Proc.running E _ _ => some E
  | Proc.exited E _ => some E
  | _ => none

/-! ## predicates of the specification -/

/-- The cursor invariant: `0 <= cy <= numrows` and `0 <= cx <= len`, where
`len` is the size of row `cy`, or 0 on the virtual row past the end. -/
def CursorInv (E : editorConfig) : Prop :=
  0 ≤ E.cy ∧ E.cy ≤ E.numrows ∧ 0 ≤ E.cx ∧
    E.cx ≤ (if E.cy < E.numrows then (E.rowAt E.cy).size else 0)

instance (E : editorConfig) : Decidable (CursorInv E) := by
  unfold CursorInv; infer_instance

/-- A row whose render bytes are the ones `editorUpdateRow` derives from its
content. -/
def RenderOk (row : erow) : Prop :=
  row.render = editorUpdateRow.loop row.chars []

instance (row : erow) : Decidable (RenderOk row) := by
  unfold RenderOk; infer_instance

/-- The tab expansion in the words of the specification: starting at render
column `col`, a byte other than a tab is copied, and a tab becomes the spaces
that lead to the next column that is a multiple of the tab stop. -/
def tabExpand (col : Nat) : List Nat → List Nat
  | [] => []
  | c :: cs =>
    if c = TAB then
      List.replicate (EDITOR_TAB_STOP - col % EDITOR_TAB_STOP) SPACE
        ++ tabExpand (col + (EDITOR_TAB_STOP - col % EDITOR_TAB_STOP)) cs
    else c :: tabExpand (col + 1) cs

/-! ## fixtures of the scenarios -/

/-- A fixture for the scenarios: a document with the given row contents, each
rendered by `editorUpdateRow`, the cursor at `(cx, cy)`, on a terminal of 24
rows and 80 columns, with no unsaved change and no file name. -/
def docOf (rows : List (List Nat)) (cx cy : Int) : editorConfig :=
  { initEditor 24 80 with
    row := rows.map (fun s => editorUpdateRow { chars := s, render := [] })
    cx := cx
    cy := cy }

/-- A fixture for the scenarios: an environment that only holds keys. -/
def keysOnly (keys : List Int) : World :=
  { keys := keys, os := [], disk := [] }

/-! ## the persisted format -/

/-- The persisted format in the words of the specification: every row's
content followed by one line feed, in row order. -/
def rowsBytes : List erow → List Nat
  | [] => []
  | r :: rs => r.chars ++ LF :: rowsBytes rs

/-! ## auxiliary definitions of the proofs -/

/-- The invariant of the main loop: the cursor invariant, a row offset that
is not negative and a screen of at least one text row. -/
def LoopInv (E : editorConfig) : Prop :=
  CursorInv E ∧ 0 ≤ E.rowoff ∧ 1 ≤ E.screenrows

/-- The `switch` of `editorMoveCursor`, before the final clamp of `cx`. -/
def editorMoveCursor.step (E : editorConfig) (key : Int) : editorConfig :=
  let row : Option erow := if E.cy ≥ E.numrows then none else some (E.rowAt E.cy)
  if key = ARROW_LEFT then
    if E.cx ≠ 0 then { E with cx := E.cx - 1 }
    else if E.cy > 0 then { E with cy := E.cy - 1, cx := (E.rowAt (E.cy - 1)).size }
    else E
  else if key = ARROW_RIGHT then
    match row with
    | some r =>
      if E.cx < r.size then { E with cx := E.cx + 1 }
      else if E.cx = r.size then { E with cy := E.cy + 1, cx := 0 }
      else E
    | none => E
  else if key = ARROW_UP then
    if E.cy ≠ 0 then { E with cy := E.cy - 1 } else E
  else if key = ARROW_DOWN then
    if E.cy < E.numrows then { E with cy := E.cy + 1 } else E
  else E

/-- The final clamp of `cx` to the length of the row in `editorMoveCursor`. -/
def editorMoveCursor.clamp (E1 : editorConfig) : editorConfig :=
  let row1 : Option erow := if E1.cy ≥ E1.numrows then none else some (E1.rowAt E1.cy)
  let rowlen : Int := match row1 with
    | some r => r.size
    | none => 0
  if E1.cx > rowlen then { E1 with cx := rowlen } else E1

/-- The state `E1` has the cursor, the rows and the screen height of `E`, and
inherits the invariant of the main loop from it. -/
def SameDoc (E E1 : editorConfig) : Prop :=
  E1.cx = E.cx ∧ E1.cy = E.cy ∧ E1.row = E.row ∧ E1.screenrows = E.screenrows
    ∧ (LoopInv E → LoopInv E1)

/-- A document all of whose rows have render bytes derived from their
content. -/
def DocOk (E : editorConfig) : Prop :=
  ∀ r ∈ E.row, RenderOk r

/-- The first part of `editorScroll`: the assignments to `E.rx`. -/
def editorScroll.setRx (E : editorConfig) : editorConfig :=
  let E1 := { E with rx := 0 }
  if E1.cy < E1.numrows then { E1 with rx := editorRowCxToRx (E1.rowAt E1.cy) E1.cx } else E1

/-- The second part of `editorScroll`: the two tests on `E.rowoff`. -/
def editorScroll.rows (E2 : editorConfig) : editorConfig :=
  let E3 := if E2.cy < E2.rowoff then { E2 with rowoff := E2.cy } else E2
  if E3.cy ≥ E3.rowoff + E3.screenrows then { E3 with rowoff := E3.cy - E3.screenrows + 1 } else E3

/-- The third part of `editorScroll`: the two tests on `E.coloff`. -/
def editorScroll.cols (E4 : editorConfig) : editorConfig :=
  let E5 := if E4.rx < E4.coloff then { E4 with coloff := E4.rx } else E4
  if E5.rx ≥ E5.coloff + E5.screencols then { E5 with coloff := E5.rx - E5.screencols + 1 } else E5

/-- What one call `read(STDIN_FILENO, &c, 1)` yields: a byte (result 1), nothing
within the timeout (result 0), or the result -1 with `errno` equal to `EAGAIN`
or to another error. -/
inductive ReadResult where
  | byte (b : Nat)
  | timeout
  | again
  | error
deriving DecidableEq

/-- How a call of `editorReadKey` ends: it returns a key and leaves the rest of
the input, it dies, or it stays in its first loop for ever. -/
inductive KeyResult where
  | key (c : Int) (rest : List ReadResult)
  | died
  | blocked
deriving DecidableEq

/-- The `int` value of a `char` that holds the byte `b`; whether `char` is
signed is left to the C implementation. -/
def charValue (signedChar : Bool) (b : Nat) : Int :=
  if signedChar = true ∧ 128 ≤ b then (b : Int) - 256 else (b : Int)

/-- One `read` into `seq[i]` after the escape byte: the byte when the result
is 1.  An input that is used up delivers timeouts from then on. -/
def editorReadKey.read : List ReadResult → Option Nat × List ReadResult
  | ReadResult.byte b :: rest => (some b, rest)
  | _ :: rest => (none, rest)
  | [] => (none, [])

/-- The branch `if (c == '\x1b')` of `editorReadKey`, on the input that follows
the escape byte.  The bytes compared are `'['` 91, `'O'` 79, `'~'` 126,
`'0'` 48 to `'9'` 57, `'A'` 65 to `'D'` 68, `'F'` 70 and `'H'` 72. -/
def editorReadKey.escape (input : List ReadResult) : KeyResult :=
  match editorReadKey.read input with
  | (none, rest) => KeyResult.key (ESC : Int) rest
  | (some s0, rest0) =>
    match editorReadKey.read rest0 with
    | (none, rest) => KeyResult.key (ESC : Int) rest
    | (some s1, rest1) =>
      if s0 = 91 then
        if 48 ≤ s1 ∧ s1 ≤ 57 then
          match editorReadKey.read rest1 with
          | (none, rest) => KeyResult.key (ESC : Int) rest
          | (some s2, rest2) =>
            if s2 = 126 then
              if s1 = 49 then KeyResult.key HOME_KEY rest2
              else if s1 = 51 then KeyResult.key DEL_KEY rest2
              else if s1 = 52 then KeyResult.key END_KEY rest2
              else if s1 = 53 then KeyResult.key PAGE_UP rest2
              else if s1 = 54 then KeyResult.key PAGE_DOWN rest2
              else if s1 = 55 then KeyResult.key HOME_KEY rest2
              else if s1 = 56 then KeyResult.key END_KEY rest2
              else KeyResult.key (ESC : Int) rest2
            else KeyResult.key (ESC : Int) rest2
        else
          if s1 = 65 then KeyResult.key ARROW_UP rest1
          else if s1 = 66 then KeyResult.key ARROW_DOWN rest1
          else if s1 = 67 then KeyResult.key ARROW_RIGHT rest1
          else if s1 = 68 then KeyResult.key ARROW_LEFT rest1
          else if s1 = 72 then KeyResult.key HOME_KEY rest1
          else if s1 = 70 then KeyResult.key END_KEY rest1
          else KeyResult.key (ESC : Int) rest1
      else if s0 = 79 then
        if s1 = 72 then KeyResult.key HOME_KEY rest1
        else if s1 = 70 then KeyResult.key END_KEY rest1
        else KeyResult.key (ESC : Int) rest1
      else KeyResult.key (ESC : Int) rest1

/-- The function `editorReadKey()` on the results of the successive calls of
`read`.  The first loop skips timeouts and `EAGAIN`, and dies on another
error; an input that is used up there leaves the process waiting. -/
def editorReadKey (signedChar : Bool) : List ReadResult → KeyResult
  | [] => KeyResult.blocked
  | ReadResult.byte b :: rest =>
    if b = ESC then editorReadKey.escape rest
    else KeyResult.key (charValue signedChar b) rest
  | ReadResult.timeout :: rest => editorReadKey signedChar rest
  | ReadResult.again :: rest => editorReadKey signedChar rest
  | ReadResult.error :: _ => KeyResult.died

/-- The recognised escape sequences in the words of the specification: the
bytes that follow the escape byte, and the key they stand for. -/
def escapeTable : List (List Nat × Int) :=
  [([91, 65], ARROW_UP), ([91, 66], ARROW_DOWN), ([91, 67], ARROW_RIGHT), ([91, 68], ARROW_LEFT),
   ([91, 72], HOME_KEY), ([91, 70], END_KEY), ([79, 72], HOME_KEY), ([79, 70], END_KEY),
   ([91, 49, 126], HOME_KEY), ([91, 51, 126], DEL_KEY), ([91, 52, 126], END_KEY),
   ([91, 53, 126], PAGE_UP), ([91, 54, 126], PAGE_DOWN), ([91, 55, 126], HOME_KEY),
   ([91, 56, 126], END_KEY)]

/-- The key for the bytes that follow an escape byte, in the words of the
specification: the key of the recognised sequence they start with, and the
literal escape when there is none. -/
def escapeKey (following : List Nat) : Int :=
  match escapeTable.find? (fun e => e.1.isPrefixOf following) with
  | some e => e.2
  | none => (ESC : Int)

/-- The bytes that arrive right after an escape byte: those of the next three
results of `read`, up to the first result that is not a byte. -/
def followingBytes : Nat → List ReadResult → List Nat
  | n + 1, ReadResult.byte b :: rest => b :: followingBytes n rest
  | _, _ => []

/-- The array of a C string literal: its bytes and the terminating NUL. -/
def stringLiteral (s : List Nat) : List Nat :=
  s ++ [0]

/-- The bytes a call `write(STDOUT_FILENO, buf, count)` sends to the terminal
when the whole count is written: the first `count` bytes of the buffer. -/
def write (buf : List Nat) (count : Nat) : List Nat :=
  buf.take count

/-- The bytes `die(s)` writes to standard output before `perror(s)`:
`write(STDOUT_FILENO, "[2J", 4); write(STDOUT_FILENO, "\x1b[H", 3);`. -/
def die.written : List Nat :=
  write (stringLiteral [91, 50, 74]) 4 ++ write (stringLiteral [ESC, 91, 72]) 3

/-- The bytes the Ctrl-Q branch of `editorProcessKeypress` writes to standard
output before `exit(0)`:
`write(STDOUT_FILENO, "\x1b[2J", 4); write(STDOUT_FILENO, "\x1b[H", 3);`. -/
def editorProcessKeypress.quitWritten : List Nat :=
  write (stringLiteral [ESC, 91, 50, 74]) 4 ++ write (stringLiteral [ESC, 91, 72]) 3

/-- The largest value of the C type `int`, 32 bits wide. -/
def INT_MAX : Int := 2147483647

/-- The value of an `int` operation whose exact result is `x`: `x` itself when
it fits in 32 bits; beyond that C leaves the overflow undefined, and the model
takes the two's-complement value that the usual implementations produce. -/
def wrapInt (x : Int) : Int :=
  (x + 2147483648) % 4294967296 - 2147483648

/-- The `int` that `editorUpdateRow` passes to `malloc` for `render`:
`row->size + tabs * (EDITOR_TAB_STOP - 1) + 1`, every operation in `int`
arithmetic. -/
def editorUpdateRow.capacity (row : erow) : Int :=
  wrapInt
    (wrapInt
      (row.size
        + wrapInt ((editorUpdateRow.tabs row.chars : Int) * ((EDITOR_TAB_STOP : Int) - 1)))
      + 1)

/-- The `case` labels of the `switch` in `editorProcessKeypress`, in the order
of the source; every other key code reaches the `default` branch. -/
def editorProcessKeypress.labels : List Int :=
  [(CR : Int), CTRL_KEY 'q', CTRL_KEY 's', HOME_KEY, END_KEY, CTRL_KEY 'f', BACKSPACE, DEL_KEY,
   CTRL_KEY 'h', PAGE_UP, PAGE_DOWN, ARROW_UP, ARROW_DOWN, ARROW_LEFT, ARROW_RIGHT,
   CTRL_KEY 'l', (ESC : Int)]

/-- The length that `editorMoveCursor` clamps `cx` to when the cursor rests on
row `y`: the size of the row, and 0 on the virtual row. -/
def rowlenAt (E : editorConfig) (y : Int) : Int :=
  if y ≥ E.numrows then 0 else (E.rowAt y).size

/-- The column `cx` clamped, in the words of the specification, to the length
of every row of the list `ys` of visited rows, in turn. -/
def clampAlong (E : editorConfig) : Int → List Int → Int
  | cx, [] => cx
  | cx, y :: ys => clampAlong E (min cx (rowlenAt E y)) ys

/-! ## the render model -/

theorem pad_eq (fuel : Nat) (r : List Nat)
    (h : (8 - r.length % 8) % 8 ≤ fuel) :
    editorUpdateRow.pad fuel r = r ++ List.replicate ((8 - r.length % 8) % 8) SPACE := by
  induction fuel generalizing r with
  | zero =>
    have : (8 - r.length % 8) % 8 = 0 := by omega
    simp [editorUpdateRow.pad, this]
  | succ fuel ih =>
    unfold editorUpdateRow.pad
    by_cases hm : r.length % EDITOR_TAB_STOP ≠ 0
    · simp only [EDITOR_TAB_STOP] at hm
      have hl : (r ++ [SPACE]).length = r.length + 1 := by simp
      rw [if_pos (by simpa [EDITOR_TAB_STOP] using hm), ih _ (by rw [hl]; omega), hl]
      have : (8 - r.length % 8) % 8 = (8 - (r.length + 1) % 8) % 8 + 1 := by omega
      rw [this, List.replicate_succ]
      simp
    · simp only [EDITOR_TAB_STOP, not_not] at hm
      have : (8 - r.length % 8) % 8 = 0 := by omega
      rw [if_neg (by simpa [EDITOR_TAB_STOP] using hm), this]
      simp

theorem pad_tab (r : List Nat) :
    editorUpdateRow.pad EDITOR_TAB_STOP (r ++ [SPACE])
      = r ++ List.replicate (EDITOR_TAB_STOP - r.length % EDITOR_TAB_STOP) SPACE := by
  have hl : (r ++ [SPACE]).length = r.length + 1 := by simp
  rw [pad_eq _ _ (by simp only [EDITOR_TAB_STOP]; omega), hl]
  have : EDITOR_TAB_STOP - r.length % EDITOR_TAB_STOP = (8 - (r.length + 1) % 8) % 8 + 1 := by
    simp only [EDITOR_TAB_STOP]; omega
  rw [this, List.replicate_succ]
  simp

theorem loop_eq (cs r : List Nat) :
    editorUpdateRow.loop cs r = r ++ tabExpand r.length cs := by
  induction cs generalizing r with
  | nil => simp [editorUpdateRow.loop, tabExpand]
  | cons c cs ih =>
    unfold editorUpdateRow.loop tabExpand
    by_cases hc : c = TAB
    · rw [if_pos hc, if_pos hc, ih, pad_tab]
      simp
    · rw [if_neg hc, if_neg hc, ih]
      simp

theorem tabExpand_append (col : Nat) (xs ys : List Nat) :
    tabExpand col (xs ++ ys)
      = tabExpand col xs ++ tabExpand (col + (tabExpand col xs).length) ys := by
  induction xs generalizing col with
  | nil => simp [tabExpand]
  | cons c cs ih =>
    rw [List.cons_append, tabExpand, tabExpand]
    by_cases hc : c = TAB
    · rw [if_pos hc, if_pos hc, ih]
      simp [Nat.add_assoc]
    · rw [if_neg hc, if_neg hc, ih]
      simp [Nat.add_assoc, Nat.add_comm]

theorem take_insert (l : List Nat) (b : Nat) (n : Nat) (h : n ≤ l.length) :
    (l.take n ++ [b] ++ l.drop n).take n = l.take n := by
  rw [List.append_assoc, List.take_append_of_le_length (by simp [h])]
  simp [List.take_take]

theorem drop_insert (l : List Nat) (b : Nat) (n : Nat) (h : n ≤ l.length) :
    (l.take n ++ [b] ++ l.drop n).drop (n + 1) = l.drop n := by
  have hl : (l.take n ++ [b]).length = n + 1 := by simp [h]
  rw [List.drop_append_eq_append_drop, hl]
  simp [h]

theorem toNat_size_le {pos : Int} {row : erow} (h0 : 0 ≤ pos) (h1 : pos ≤ row.size) :
    pos.toNat ≤ row.chars.length := by
  simp only [erow.size] at h1
  omega

/-- C4: on any row, `editorRowInsertChar(row, at, c)` followed by
`editorRowDelChar(row, at)`, for `0 <= at <= size`, gives back the content and
the size the row had, with the render bytes that derive from that content; a
row whose render bytes were derived from its content (as for every row the
main loop reaches, `mainLoop_docOk`) is restored whole. -/
theorem editorRowInsertChar_then_editorRowDelChar (row : erow) (pos c : Int) (dirty : Nat)
    (h0 : 0 ≤ pos) (h1 : pos ≤ row.size) :
    (editorRowDelChar (editorRowInsertChar row pos c dirty).1 pos
        (editorRowInsertChar row pos c dirty).2).1.chars = row.chars
    ∧ (editorRowDelChar (editorRowInsertChar row pos c dirty).1 pos
        (editorRowInsertChar row pos c dirty).2).1.size = row.size
    ∧ (editorRowDelChar (editorRowInsertChar row pos c dirty).1 pos
        (editorRowInsertChar row pos c dirty).2).1.render = (editorUpdateRow row).render
    ∧ (RenderOk row →
        (editorRowDelChar (editorRowInsertChar row pos c dirty).1 pos
          (editorRowInsertChar row pos c dirty).2).1 = row) := by
  have hp := toNat_size_le h0 h1
  have hguard : ¬ (pos < 0 ∨ pos > row.size) := by omega
  have hins : (editorRowInsertChar row pos c dirty).1
      = editorUpdateRow { row with chars := row.chars.take pos.toNat ++ [(c % 256).toNat]
                                              ++ row.chars.drop pos.toNat } := by
    simp only [editorRowInsertChar, if_neg hguard]
  have hsize : (editorRowInsertChar row pos c dirty).1.size = row.size + 1 := by
    rw [hins]
    simp only [editorUpdateRow, erow.size, List.length_append, List.length_take,
      List.length_drop, List.length_singleton]
    omega
  have hguard2 : ¬ (pos < 0 ∨ pos ≥ (editorRowInsertChar row pos c dirty).1.size) := by
    rw [hsize]; omega
  have hchars : (editorRowDelChar (editorRowInsertChar row pos c dirty).1 pos
        (editorRowInsertChar row pos c dirty).2).1.chars = row.chars := by
    simp only [editorRowDelChar, if_neg hguard2]
    rw [hins]
    simp only [editorUpdateRow]
    rw [take_insert _ _ _ hp, drop_insert _ _ _ hp, List.take_append_drop]
  have hrender : (editorRowDelChar (editorRowInsertChar row pos c dirty).1 pos
        (editorRowInsertChar row pos c dirty).2).1.render = (editorUpdateRow row).render := by
    have : (editorRowDelChar (editorRowInsertChar row pos c dirty).1 pos
        (editorRowInsertChar row pos c dirty).2).1.render
        = editorUpdateRow.loop (editorRowDelChar (editorRowInsertChar row pos c dirty).1 pos
        (editorRowInsertChar row pos c dirty).2).1.chars [] := by
      simp only [editorRowDelChar, if_neg hguard2, editorUpdateRow]
    rw [this, hchars]
    rfl
  refine ⟨hchars, by simp only [erow.size, hchars], hrender, ?_⟩
  intro hok
  have hrow : ∀ a b : erow, a.chars = b.chars → a.render = b.render → a = b := by
    intro a b h1 h2
    cases a; cases b; simp_all
  exact hrow _ _ hchars (by rw [hrender]; exact hok.symm)

/-- C4 on a concrete row: inserting `x` at column 1 of `ab` and deleting
column 1 again gives back the row `ab`. -/
theorem editorRowInsertChar_then_editorRowDelChar_witness :
    (editorRowDelChar
        (editorRowInsertChar { chars := [97, 98], render := [97, 98] } 1 120 0).1 1
        (editorRowInsertChar { chars := [97, 98], render := [97, 98] } 1 120 0).2).1
      = { chars := [97, 98], render := [97, 98] } :=
  (editorRowInsertChar_then_editorRowDelChar { chars := [97, 98], render := [97, 98] } 1 120 0
    (by decide) (by decide)).2.2.2 (by decide)

/-! ## lists of rows -/

theorem exists_split {α : Type} (l : List α) (n : Nat) (h : n < l.length) :
    ∃ pre r post, l = pre ++ r :: post ∧ pre.length = n := by
  refine ⟨l.take n, l[n], l.drop (n + 1), ?_, ?_⟩
  · rw [← List.drop_eq_getElem_cons h, List.take_append_drop]
  · simp [Nat.le_of_lt h]

theorem split_getElem? {α : Type} (pre l : List α) (k : Nat) :
    (pre ++ l)[pre.length + k]? = l[k]? := by
  rw [List.getElem?_append_right (Nat.le_add_right _ _), Nat.add_sub_cancel_left]

theorem split_getD {α : Type} (pre : List α) (r : α) (post : List α) (d : α) :
    (pre ++ r :: post).getD pre.length d = r := by
  have h := split_getElem? pre (r :: post) 0
  rw [Nat.add_zero] at h
  rw [List.getD_eq_getElem?_getD, h]
  simp

theorem split_getD_succ {α : Type} (pre : List α) (a b : α) (post : List α) (d : α) :
    (pre ++ a :: b :: post).getD (pre.length + 1) d = b := by
  rw [List.getD_eq_getElem?_getD, split_getElem? pre (a :: b :: post) 1]
  simp

theorem split_set {α : Type} (pre : List α) (r x : α) (post : List α) :
    (pre ++ r :: post).set pre.length x = pre ++ x :: post := by
  simp

theorem split_take {α : Type} (pre : List α) (l : List α) :
    (pre ++ l).take pre.length = pre := by
  simp

theorem split_drop {α : Type} (pre : List α) (l : List α) :
    (pre ++ l).drop pre.length = l := by
  simp

theorem split_drop_succ {α : Type} (pre : List α) (r : α) (post : List α) :
    (pre ++ r :: post).drop (pre.length + 1) = post := by
  simp

theorem split_drop_two {α : Type} (pre : List α) (a b : α) (post : List α) :
    (pre ++ a :: b :: post).drop (pre.length + 1 + 1) = post := by
  have h : pre ++ a :: b :: post = (pre ++ [a]) ++ b :: post := by simp
  have hl : pre.length + 1 = (pre ++ [a]).length := by simp
  rw [h, hl, split_drop_succ]

theorem split_take_succ {α : Type} (pre : List α) (r : α) (post : List α) :
    (pre ++ r :: post).take (pre.length + 1) = pre ++ [r] := by
  simp [List.take_append_eq_append_take]

theorem editorDelChar_join_shape (E : editorConfig) (pre : List erow) (a b : erow)
    (post : List erow) (hrow : E.row = pre ++ a :: b :: post)
    (hcy : E.cy = (pre.length : Int) + 1) (hcx : E.cx = 0) :
    editorDelChar E =
      { E with
        row := pre ++ editorUpdateRow { a with chars := a.chars ++ b.chars } :: post
        dirty := E.dirty + 2
        cx := a.size
        cy := (pre.length : Int) } := by
  obtain ⟨cx, cy, rx, rowoff, coloff, sr, sc, rows, dirty, fn⟩ := E
  simp only at hrow hcy hcx
  subst hrow hcy hcx
  have e1 : ((pre.length : Int) + 1).toNat = pre.length + 1 := by omega
  have e2 : ((pre.length : Int) + 1 - 1).toNat = pre.length := by omega
  simp only [editorDelChar, editorConfig.numrows, editorConfig.rowAt, editorRowAppendString,
    editorDelRow, e1, e2, split_getD, split_getD_succ, split_set, List.length_append,
    List.length_cons, split_take_succ, split_drop_succ, Nat.cast_add, Nat.cast_one]
  split_ifs with h1 h2 h3 h4
  all_goals first | (exfalso; omega) | skip
  simp only [split_drop_two, editorConfig.mk.injEq, List.append_assoc, List.singleton_append,
    and_true, true_and]
  omega

/-! ## the shape of the editing operations -/

theorem editorDelChar_char_shape (E : editorConfig) (pre : List erow) (r : erow)
    (post : List erow) (hrow : E.row = pre ++ r :: post)
    (hcy : E.cy = (pre.length : Int)) (hcx0 : 0 < E.cx) (hcx : E.cx ≤ r.size) :
    editorDelChar E =
      { E with
        row := pre ++ editorUpdateRow
          { r with chars := r.chars.take (E.cx - 1).toNat ++ r.chars.drop ((E.cx - 1).toNat + 1) }
          :: post
        dirty := E.dirty + 1
        cx := E.cx - 1 } := by
  obtain ⟨cx, cy, rx, rowoff, coloff, sr, sc, rows, dirty, fn⟩ := E
  simp only at hrow hcy hcx0 hcx
  subst hrow hcy
  simp only [erow.size] at hcx
  simp only [editorDelChar, editorConfig.numrows, editorConfig.rowAt, editorRowDelChar,
    Int.toNat_ofNat, split_getD, split_set, List.length_append, erow.size,
    List.length_cons, Nat.cast_add, Nat.cast_one]
  split_ifs with h1 h2 h3
  all_goals first | (exfalso; omega) | skip
  simp only [split_set]

theorem editorDelChar_virtual (E : editorConfig) (h : E.cy = E.numrows) :
    editorDelChar E = E := by
  simp only [editorDelChar, if_pos h]

theorem editorDelChar_origin (E : editorConfig) (hx : E.cx = 0) (hy : E.cy = 0) :
    editorDelChar E = E := by
  simp only [editorDelChar, hx, hy]
  split_ifs <;> first | rfl | simp_all

theorem editorUpdateRow_empty : editorUpdateRow { chars := [], render := [] }
    = { chars := [], render := [] } := rfl

theorem editorInsertNewline_col0_shape (E : editorConfig) (pre post : List erow)
    (hrow : E.row = pre ++ post) (hcy : E.cy = (pre.length : Int)) (hcx : E.cx = 0) :
    editorInsertNewline E =
      { E with
        row := pre ++ { chars := [], render := [] } :: post
        dirty := E.dirty + 1
        cy := E.cy + 1
        cx := 0 } := by
  obtain ⟨cx, cy, rx, rowoff, coloff, sr, sc, rows, dirty, fn⟩ := E
  simp only at hrow hcy hcx
  subst hrow hcy hcx
  simp only [editorInsertNewline, editorInsertRow, editorConfig.numrows, Int.toNat_ofNat,
    split_take, split_drop, List.length_append, Nat.cast_add, if_true, editorUpdateRow_empty]
  split_ifs with h1
  all_goals first | (exfalso; omega) | skip
  simp only [List.append_assoc, List.singleton_append]

theorem editorInsertNewline_split_shape (E : editorConfig) (pre : List erow) (r : erow)
    (post : List erow) (hrow : E.row = pre ++ r :: post)
    (hcy : E.cy = (pre.length : Int)) (hcx : E.cx ≠ 0) :
    editorInsertNewline E =
      { E with
        row := pre ++ editorUpdateRow { r with chars := r.chars.take E.cx.toNat }
                 :: editorUpdateRow { chars := r.chars.drop E.cx.toNat, render := [] } :: post
        dirty := E.dirty + 1
        cy := E.cy + 1
        cx := 0 } := by
  obtain ⟨cx, cy, rx, rowoff, coloff, sr, sc, rows, dirty, fn⟩ := E
  simp only at hrow hcy hcx
  subst hrow hcy
  have e1 : ((pre.length : Int) + 1).toNat = pre.length + 1 := by omega
  simp only [editorInsertNewline, editorInsertRow, editorConfig.numrows, editorConfig.rowAt,
    Int.toNat_ofNat, e1, split_getD, split_take_succ, split_drop_succ, List.length_append,
    List.length_cons, Nat.cast_add, Nat.cast_one, if_neg hcx]
  split_ifs with h1
  all_goals first | (exfalso; omega) | skip
  simp only [List.append_assoc, List.cons_append, List.nil_append, Int.toNat_ofNat,
    split_getD, split_set]

theorem editorInsertChar_row_shape (E : editorConfig) (pre : List erow) (r : erow)
    (post : List erow) (c : Int) (hrow : E.row = pre ++ r :: post)
    (hcy : E.cy = (pre.length : Int)) (hcx0 : 0 ≤ E.cx) (hcx : E.cx ≤ r.size) :
    editorInsertChar E c =
      { E with
        row := pre ++ editorUpdateRow
          { r with chars := r.chars.take E.cx.toNat ++ [(c % 256).toNat] ++ r.chars.drop E.cx.toNat }
          :: post
        dirty := E.dirty + 1
        cx := E.cx + 1 } := by
  obtain ⟨cx, cy, rx, rowoff, coloff, sr, sc, rows, dirty, fn⟩ := E
  simp only at hrow hcy hcx0 hcx
  subst hrow hcy
  simp only [erow.size] at hcx
  have hne : ¬ ((pre.length : Int) = ((pre ++ r :: post).length : Int)) := by
    simp only [List.length_append, List.length_cons, Nat.cast_add, Nat.cast_one]; omega
  have hg : ¬ (cx < 0 ∨ cx > (r.chars.length : Int)) := by omega
  simp only [editorInsertChar, editorRowInsertChar, editorConfig.numrows,
    editorConfig.rowAt, erow.size, Int.toNat_ofNat, split_getD, split_set, if_neg hne, if_neg hg]

theorem editorInsertChar_virtual_shape (E : editorConfig) (c : Int)
    (hcy : E.cy = E.numrows) (hcx : E.cx = 0) :
    editorInsertChar E c =
      { E with
        row := E.row ++ [editorUpdateRow { chars := [(c % 256).toNat], render := [] }]
        dirty := E.dirty + 2
        cx := 1 } := by
  obtain ⟨cx, cy, rx, rowoff, coloff, sr, sc, rows, dirty, fn⟩ := E
  simp only [editorConfig.numrows] at hcy hcx
  subst hcy hcx
  have hs : ∀ x : erow, rows ++ [x] = rows ++ x :: [] := fun _ => rfl
  have hg0 : ¬ ((rows.length : Int) < 0 ∨ (rows.length : Int) > (rows.length : Int)) := by omega
  have hg : ¬ ((0 : Int) < 0 ∨ (0 : Int) > (([] : List Nat).length : Int)) := by simp
  simp only [editorInsertChar, editorInsertRow, editorRowInsertChar, editorConfig.numrows,
    editorConfig.rowAt, erow.size, Int.toNat_ofNat, List.take_length, List.drop_length,
    List.append_nil, editorUpdateRow_empty, if_true, hs, split_getD, split_set, if_neg hg0,
    if_neg hg]
  rfl

/-! ## cursor movement and key dispatch -/

theorem CTRL_KEY_q : CTRL_KEY 'q' = 17 := by decide

theorem CTRL_KEY_s : CTRL_KEY 's' = 19 := by decide

theorem CTRL_KEY_f : CTRL_KEY 'f' = 6 := by decide

theorem CTRL_KEY_h : CTRL_KEY 'h' = 8 := by decide

theorem CTRL_KEY_l : CTRL_KEY 'l' = 12 := by decide

theorem editorMoveCursor_right_within (E : editorConfig) (pre : List erow) (r : erow)
    (post : List erow) (hrow : E.row = pre ++ r :: post)
    (hcy : E.cy = (pre.length : Int)) (hcx0 : 0 ≤ E.cx) (hcx : E.cx < r.size) :
    editorMoveCursor E ARROW_RIGHT = { E with cx := E.cx + 1 } := by
  obtain ⟨cx, cy, rx, rowoff, coloff, sr, sc, rows, dirty, fn⟩ := E
  simp only at hrow hcy hcx0 hcx
  subst hrow hcy
  simp only [erow.size] at hcx
  have hlt : ¬ ((pre.length : Int) ≥ ((pre ++ r :: post).length : Int)) := by
    simp only [List.length_append, List.length_cons, Nat.cast_add, Nat.cast_one]; omega
  have hk : ¬ (ARROW_RIGHT = ARROW_LEFT) := by decide
  simp only [editorMoveCursor, editorConfig.numrows, editorConfig.rowAt, erow.size,
    Int.toNat_ofNat, split_getD, if_neg hlt, if_neg hk, if_true, if_pos hcx]
  rw [if_neg (by omega)]

theorem editorMoveCursor_right_wrap (E : editorConfig) (pre : List erow) (r : erow)
    (post : List erow) (hrow : E.row = pre ++ r :: post)
    (hcy : E.cy = (pre.length : Int)) (hcx : E.cx = r.size) :
    editorMoveCursor E ARROW_RIGHT = { E with cy := E.cy + 1, cx := 0 } := by
  obtain ⟨cx, cy, rx, rowoff, coloff, sr, sc, rows, dirty, fn⟩ := E
  simp only at hrow hcy hcx
  subst hrow hcy hcx
  have hlt : ¬ ((pre.length : Int) ≥ ((pre ++ r :: post).length : Int)) := by
    simp only [List.length_append, List.length_cons, Nat.cast_add, Nat.cast_one]; omega
  have hk : ¬ (ARROW_RIGHT = ARROW_LEFT) := by decide
  have hsz : ∀ x : erow, (0 : Int) ≤ (x.chars.length : Int) := fun x => Int.ofNat_nonneg _
  simp only [editorMoveCursor, editorConfig.numrows, editorConfig.rowAt, erow.size,
    Int.toNat_ofNat, split_getD, if_neg hlt, if_neg hk, if_true, lt_irrefl, if_false]
  split_ifs with h1 h2 h3
  · simp only [] at h2
    exfalso; omega
  · rfl
  · simp only [] at h3
    have := hsz ((pre ++ r :: post).getD ((pre.length : Int) + 1).toNat { chars := [], render := [] })
    exfalso; omega
  · rfl

theorem editorMoveCursor_right_virtual (E : editorConfig) (hcy : E.cy = E.numrows)
    (hcx : E.cx ≤ 0) :
    editorMoveCursor E ARROW_RIGHT = E := by
  have hge : E.cy ≥ E.numrows := by omega
  have hk : ¬ (ARROW_RIGHT = ARROW_LEFT) := by decide
  simp only [editorMoveCursor, if_pos hge, if_neg hk, if_true]
  rw [if_neg (by omega)]

theorem processKeypress_default (E : editorConfig) (q : Int) (W : World) (c : Int)
    (rest : List Int) (hk : W.keys = c :: rest)
    (hc : c ≠ 13 ∧ c ≠ 17 ∧ c ≠ 19 ∧ c ≠ 1005 ∧ c ≠ 1006 ∧ c ≠ 6 ∧ c ≠ 127 ∧ c ≠ 1004 ∧ c ≠ 8
      ∧ c ≠ 1007 ∧ c ≠ 1008 ∧ c ≠ 1002 ∧ c ≠ 1003 ∧ c ≠ 1000 ∧ c ≠ 1001 ∧ c ≠ 12 ∧ c ≠ 27) :
    editorProcessKeypress E q W
      = Proc.running (editorInsertChar E c) EDITOR_QUIT_TIMES { W with keys := rest } := by
  obtain ⟨h1, h2, h3, h4, h5, h6, h7, h8, h9, h10, h11, h12, h13, h14, h15, h16, h17⟩ := hc
  have h1c : ¬ c = ((13 : Nat) : Int) := by omega
  have h17c : ¬ c = ((27 : Nat) : Int) := by omega
  unfold editorProcessKeypress
  rw [hk]
  simp only []
  simp only [CTRL_KEY_q, CTRL_KEY_s, CTRL_KEY_f, CTRL_KEY_h, CTRL_KEY_l, CR, ESC,
    BACKSPACE, DEL_KEY, HOME_KEY, END_KEY, PAGE_UP, PAGE_DOWN, ARROW_UP, ARROW_DOWN,
    ARROW_LEFT, ARROW_RIGHT, h1c, h17c, h2, h3, h4, h5, h6, h7, h8, h9, h10, h11, h12, h13, h14,
    h15, h16, or_self, if_false]

theorem processKeypress_delete (E : editorConfig) (q : Int) (W : World)
    (rest : List Int) (hk : W.keys = DEL_KEY :: rest) :
    editorProcessKeypress E q W
      = Proc.running (editorDelChar (editorMoveCursor E ARROW_RIGHT)) EDITOR_QUIT_TIMES
          { W with keys := rest } := by
  have h1c : ¬ DEL_KEY = ((13 : Nat) : Int) := by decide
  unfold editorProcessKeypress
  rw [hk]
  simp only []
  simp only [CTRL_KEY_q, CTRL_KEY_s, CTRL_KEY_f, CTRL_KEY_h, CTRL_KEY_l, CR, h1c, if_false]
  simp only [BACKSPACE, DEL_KEY, HOME_KEY, END_KEY, PAGE_UP, PAGE_DOWN, ARROW_UP, ARROW_DOWN,
    ARROW_LEFT, ARROW_RIGHT]
  simp

theorem processKeypress_backspace (E : editorConfig) (q : Int) (W : World) (c : Int)
    (rest : List Int) (hk : W.keys = c :: rest) (hc : c = BACKSPACE ∨ c = CTRL_KEY 'h') :
    editorProcessKeypress E q W
      = Proc.running (editorDelChar E) EDITOR_QUIT_TIMES { W with keys := rest } := by
  unfold editorProcessKeypress
  rw [hk]
  simp only []
  simp only [CTRL_KEY_h, BACKSPACE] at hc
  rcases hc with rfl | rfl <;>
  simp [CTRL_KEY_q, CTRL_KEY_s, CTRL_KEY_f, CTRL_KEY_h, CTRL_KEY_l, CR, ESC,
    BACKSPACE, DEL_KEY, HOME_KEY, END_KEY, PAGE_UP, PAGE_DOWN, ARROW_UP, ARROW_DOWN,
    ARROW_LEFT, ARROW_RIGHT]

/-! ## joining rows -/

theorem rows_split (E : editorConfig) (h0 : 0 ≤ E.cy) (h1 : E.cy < E.numrows) :
    ∃ pre r post, E.row = pre ++ r :: post ∧ E.cy = (pre.length : Int) ∧ E.rowAt E.cy = r := by
  have hn : E.cy.toNat < E.row.length := by
    simp only [editorConfig.numrows] at h1; omega
  obtain ⟨pre, r, post, hrow, hlen⟩ := exists_split E.row E.cy.toNat hn
  refine ⟨pre, r, post, hrow, by omega, ?_⟩
  rw [editorConfig.rowAt, hrow, ← hlen, split_getD]

theorem rows_split_two (E : editorConfig) (h0 : 0 < E.cy) (h1 : E.cy < E.numrows) :
    ∃ pre a b post, E.row = pre ++ a :: b :: post ∧ E.cy = (pre.length : Int) + 1
      ∧ E.rowAt (E.cy - 1) = a ∧ E.rowAt E.cy = b := by
  obtain ⟨pre1, b, post, hrow, hcy, hb⟩ := rows_split E (le_of_lt h0) h1
  have hne : pre1 ≠ [] := by
    intro h; rw [h] at hcy; simp at hcy; omega
  obtain ⟨pre, a, rfl⟩ : ∃ pre a, pre1 = pre ++ [a] :=
    ⟨pre1.dropLast, pre1.getLast hne, (List.dropLast_append_getLast hne).symm⟩
  have hrow2 : E.row = pre ++ a :: b :: post := by rw [hrow]; simp
  refine ⟨pre, a, b, post, hrow2, by rw [hcy]; simp, ?_, hb⟩
  have hi : (E.cy - 1).toNat = pre.length := by rw [hcy]; simp
  rw [editorConfig.rowAt, hrow2, hi, split_getD]

theorem editorUpdateRow_congr (x y : erow) (h : x.chars = y.chars) :
    editorUpdateRow x = editorUpdateRow y := by
  cases x; cases y; simp only at h; subst h; rfl

/-- C5: with the cursor at column 0 of a row `cy` that is neither the first
row nor the virtual row, `editorDelChar` replaces rows `cy-1` and `cy` by one
row holding the content of row `cy-1` followed by that of row `cy`, keeps all
other rows in order, and puts the cursor at the former end of row `cy-1`. -/
theorem editorDelChar_joins_rows (E : editorConfig) (hcx : E.cx = 0) (h0 : 0 < E.cy)
    (h1 : E.cy < E.numrows) :
    (editorDelChar E).row
        = E.row.take (E.cy - 1).toNat
          ++ [editorUpdateRow
                { chars := (E.rowAt (E.cy - 1)).chars ++ (E.rowAt E.cy).chars, render := [] }]
          ++ E.row.drop (E.cy + 1).toNat
    ∧ ((editorDelChar E).rowAt (E.cy - 1)).chars
        = (E.rowAt (E.cy - 1)).chars ++ (E.rowAt E.cy).chars
    ∧ (editorDelChar E).numrows = E.numrows - 1
    ∧ (editorDelChar E).cx = (E.rowAt (E.cy - 1)).size
    ∧ (editorDelChar E).cy = E.cy - 1 := by
  obtain ⟨pre, a, b, post, hrow, hcy, ha, hb⟩ := rows_split_two E h0 h1
  rw [editorDelChar_join_shape E pre a b post hrow hcy hcx, ha, hb]
  have hi : (E.cy - 1).toNat = pre.length := by rw [hcy]; simp
  have hj : (E.cy + 1).toNat = pre.length + 1 + 1 := by rw [hcy]; omega
  refine ⟨?_, ?_, ?_, rfl, by simp only; omega⟩
  · simp only [hrow, hi, hj, split_take, split_drop_two, List.append_assoc,
      List.singleton_append]
    rw [editorUpdateRow_congr { chars := a.chars ++ b.chars, render := a.render }
      { chars := a.chars ++ b.chars, render := [] } rfl]
  · simp only [editorConfig.rowAt, hi, split_getD]
    rfl
  · simp only [editorConfig.numrows, hrow, List.length_append, List.length_cons]
    push_cast
    omega

/-- C5, the scenario of the specification: rows `abc`, `def` with the cursor
at `(0, 1)` become the single row `abcdef` with the cursor at `(3, 0)`. -/
theorem editorDelChar_joins_rows_witness :
    (docOf [[97, 98, 99], [100, 101, 102]] 0 1).cx = 0
    ∧ (editorDelChar (docOf [[97, 98, 99], [100, 101, 102]] 0 1)).cx = 3
    ∧ (editorDelChar (docOf [[97, 98, 99], [100, 101, 102]] 0 1)).cy = 0
    ∧ (editorDelChar (docOf [[97, 98, 99], [100, 101, 102]] 0 1)).row
        = [{ chars := [97, 98, 99, 100, 101, 102], render := [97, 98, 99, 100, 101, 102] }] :=
  ⟨by decide,
   (editorDelChar_joins_rows (docOf [[97, 98, 99], [100, 101, 102]] 0 1)
      (by decide) (by decide) (by decide)).2.2.2.1.trans (by decide),
   (editorDelChar_joins_rows (docOf [[97, 98, 99], [100, 101, 102]] 0 1)
      (by decide) (by decide) (by decide)).2.2.2.2.trans (by decide),
   (editorDelChar_joins_rows (docOf [[97, 98, 99], [100, 101, 102]] 0 1)
      (by decide) (by decide) (by decide)).1.trans (by decide)⟩

/-! ## split then join -/

/-- C3: on a real row `cy`, with the cursor at any column `k` of it,
`editorInsertNewline` followed by `editorDelChar` gives back the same rows,
row `cy` having its render bytes derived afresh from its unchanged content,
and the cursor is back at `(k, cy)`; when the render bytes of row `cy` were
derived from its content (as they are in every state the main loop reaches,
`mainLoop_docOk`) the rows are exactly the original ones. -/
theorem editorInsertNewline_then_editorDelChar (E : editorConfig) (h0 : 0 ≤ E.cy)
    (h1 : E.cy < E.numrows) (hx0 : 0 ≤ E.cx) (hx1 : E.cx ≤ (E.rowAt E.cy).size) :
    (editorDelChar (editorInsertNewline E)).row
        = E.row.set E.cy.toNat (editorUpdateRow (E.rowAt E.cy))
    ∧ (editorDelChar (editorInsertNewline E)).row.map erow.chars = E.row.map erow.chars
    ∧ (editorDelChar (editorInsertNewline E)).numrows = E.numrows
    ∧ (editorDelChar (editorInsertNewline E)).cx = E.cx
    ∧ (editorDelChar (editorInsertNewline E)).cy = E.cy
    ∧ (RenderOk (E.rowAt E.cy) → (editorDelChar (editorInsertNewline E)).row = E.row) := by
  obtain ⟨pre, r, post, hrow, hcy, hr⟩ := rows_split E h0 h1
  rw [hr] at hx1 ⊢
  have hi : E.cy.toNat = pre.length := by omega
  have hshape : editorDelChar (editorInsertNewline E)
      = { E with row := pre ++ editorUpdateRow r :: post, dirty := E.dirty + 3 } := by
    by_cases hc : E.cx = 0
    · rw [editorInsertNewline_col0_shape E pre (r :: post) hrow hcy hc,
        editorDelChar_join_shape _ pre { chars := [], render := [] } r post rfl
          (by simp only; omega) rfl]
      simp only [erow.size, List.nil_append, List.length_nil, Nat.cast_zero]
      rw [editorUpdateRow_congr { chars := r.chars, render := [] } r rfl, ← hc, ← hcy]
    · rw [editorInsertNewline_split_shape E pre r post hrow hcy hc,
        editorDelChar_join_shape _ pre _ _ post rfl (by simp only; omega) rfl]
      have hlen : ((editorUpdateRow { chars := r.chars.take E.cx.toNat, render := r.render }).size)
          = E.cx := by
        simp only [erow.size, editorUpdateRow, List.length_take] at hx1 ⊢
        omega
      simp only [hlen]
      rw [editorUpdateRow_congr _ r (by simp [editorUpdateRow]), ← hcy]
  rw [hshape]
  refine ⟨by simp only [hrow, hi, split_set], ?_, ?_, rfl, rfl, ?_⟩
  · simp [hrow, editorUpdateRow]
  · simp [editorConfig.numrows, hrow]
  · intro hok
    have : editorUpdateRow r = r := by
      cases r; simp only [RenderOk] at hok; simp only [editorUpdateRow, ← hok]
    simp only [this, hrow]

/-- C3 on a concrete document: splitting `abcd` at column 2 and joining again
gives back the rows and the cursor `(2, 0)`. -/
theorem editorInsertNewline_then_editorDelChar_witness :
    (editorDelChar (editorInsertNewline (docOf [[97, 98, 99, 100], [101]] 2 0))).row
        = (docOf [[97, 98, 99, 100], [101]] 2 0).row
    ∧ (editorInsertNewline (docOf [[97, 98, 99, 100], [101]] 2 0)).row.map erow.chars
        = [[97, 98], [99, 100], [101]] :=
  ⟨(editorInsertNewline_then_editorDelChar (docOf [[97, 98, 99, 100], [101]] 2 0)
      (by decide) (by decide) (by decide) (by decide)).2.2.2.2.2 (by decide),
   by decide⟩

/-! ## character insertion -/

theorem printable_range (c : Int) (hc0 : 0 ≤ c) (hc1 : c < 128) (hctl : iscntrl c = false) :
    32 ≤ c ∧ c ≤ 126 := by
  simp only [iscntrl, decide_eq_false_iff_not] at hctl
  omega

/-- C6: in a state that satisfies the cursor invariant, a key `c` that is a
byte below 128 and not a control character is handled by `editorInsertChar`:
on the virtual row an empty row is appended first; then row `cy` is its old
content with `c` inserted at index `cx` (one byte longer), every other row is
unchanged, `cx` advances by 1, `cy` is unchanged and `dirty` is positive. -/
theorem editorProcessKeypress_inserts_char (E : editorConfig) (q : Int) (W : World) (c : Int)
    (rest : List Int) (hinv : CursorInv E) (hc0 : 0 ≤ c) (hc1 : c < 128)
    (hctl : iscntrl c = false) (hk : W.keys = c :: rest) :
    editorProcessKeypress E q W
        = Proc.running (editorInsertChar E c) EDITOR_QUIT_TIMES { W with keys := rest }
    ∧ (E.cy = E.numrows →
        (editorInsertChar E c).row
          = E.row ++ [editorUpdateRow { chars := [c.toNat], render := [] }])
    ∧ (E.cy < E.numrows →
        (editorInsertChar E c).row
          = E.row.set E.cy.toNat
              (editorUpdateRow
                { chars := (E.rowAt E.cy).chars.take E.cx.toNat ++ [c.toNat]
                            ++ (E.rowAt E.cy).chars.drop E.cx.toNat
                  render := [] }))
    ∧ ((editorInsertChar E c).rowAt E.cy).size
        = (if E.cy < E.numrows then (E.rowAt E.cy).size else 0) + 1
    ∧ (editorInsertChar E c).cx = E.cx + 1
    ∧ (editorInsertChar E c).cy = E.cy
    ∧ 0 < (editorInsertChar E c).dirty := by
  obtain ⟨h32, h126⟩ := printable_range c hc0 hc1 hctl
  obtain ⟨hy0, hy1, hx0, hx1⟩ := hinv
  have hbyte : (c % 256).toNat = c.toNat := by omega
  refine ⟨processKeypress_default E q W c rest hk (by omega), ?_⟩
  by_cases hv : E.cy = E.numrows
  · have hlt : ¬ E.cy < E.numrows := by omega
    rw [if_neg hlt] at hx1
    have hcx : E.cx = 0 := by omega
    rw [editorInsertChar_virtual_shape E c hv hcx, hbyte, if_neg hlt]
    refine ⟨fun _ => rfl, fun h => absurd h hlt, ?_, by simp only; omega, rfl, by simp only; omega⟩
    have hn : E.cy.toNat = E.row.length := by
      simp only [editorConfig.numrows] at hv; omega
    have hs : E.row ++ [editorUpdateRow { chars := [c.toNat], render := [] }]
        = E.row ++ editorUpdateRow { chars := [c.toNat], render := [] } :: [] := rfl
    simp only [editorConfig.rowAt, hn, hs, split_getD]
    rfl
  · have hlt : E.cy < E.numrows := by omega
    rw [if_pos hlt] at hx1
    obtain ⟨pre, r, post, hrow, hcy, hr⟩ := rows_split E hy0 hlt
    rw [hr] at hx1
    have hi : E.cy.toNat = pre.length := by omega
    rw [editorInsertChar_row_shape E pre r post c hrow hcy hx0 hx1, hbyte, if_pos hlt, hr]
    refine ⟨fun h => absurd h hv, fun _ => ?_, ?_, rfl, rfl, by simp only; omega⟩
    · simp only [hrow, hi, split_set]
      exact congrArg (fun x => pre ++ x :: post) (editorUpdateRow_congr _ _ rfl)
    · simp only [editorConfig.rowAt, hi, split_getD, erow.size, editorUpdateRow,
        List.length_append, List.length_take, List.length_drop, List.length_singleton] at hx1 ⊢
      omega

/-- C6, the scenario of the specification: on the empty document the keys
`h`, `i` give exactly one row `hi`, the cursor at `(2, 0)` and `dirty > 0`. -/
theorem editorProcessKeypress_inserts_char_witness :
    CursorInv (initEditor 24 80)
    ∧ editorProcessKeypress (initEditor 24 80) 3 (keysOnly [104, 105])
        = Proc.running (editorInsertChar (initEditor 24 80) 104) EDITOR_QUIT_TIMES
            { keysOnly [104, 105] with keys := [105] }
    ∧ editorProcessKeypress (editorInsertChar (initEditor 24 80) 104) 3 (keysOnly [105])
        = Proc.running (editorInsertChar (editorInsertChar (initEditor 24 80) 104) 105)
            EDITOR_QUIT_TIMES { keysOnly [105] with keys := [] }
    ∧ (editorInsertChar (editorInsertChar (initEditor 24 80) 104) 105).row
        = [{ chars := [104, 105], render := [104, 105] }]
    ∧ (editorInsertChar (editorInsertChar (initEditor 24 80) 104) 105).cx = 2
    ∧ (editorInsertChar (editorInsertChar (initEditor 24 80) 104) 105).cy = 0
    ∧ 0 < (editorInsertChar (editorInsertChar (initEditor 24 80) 104) 105).dirty :=
  ⟨by decide,
   (editorProcessKeypress_inserts_char (initEditor 24 80) 3 (keysOnly [104, 105]) 104 [105]
      (by decide) (by decide) (by decide) (by decide) rfl).1,
   (editorProcessKeypress_inserts_char (editorInsertChar (initEditor 24 80) 104) 3
      (keysOnly [105]) 105 [] (by decide) (by decide) (by decide) (by decide) rfl).1,
   by decide, by decide, by decide,
   (editorProcessKeypress_inserts_char (editorInsertChar (initEditor 24 80) 104) 3
      (keysOnly [105]) 105 [] (by decide) (by decide) (by decide) (by decide) rfl).2.2.2.2.2.2⟩

/-! ## the delete keys -/

/-- C7: with the cursor on a real row, the Delete key moves right and then
deletes backwards.  Inside the row it removes the byte at index `cx` (the
row gets one byte shorter), changes no other row and leaves the cursor where
it was; at the end of a row that has a successor it appends row `cy+1` to row
`cy`, removes row `cy+1` and leaves the cursor where it was. -/
theorem editorProcessKeypress_delete_key (E : editorConfig) (q : Int) (W : World)
    (rest : List Int) (hk : W.keys = DEL_KEY :: rest) (h0 : 0 ≤ E.cy) (h1 : E.cy < E.numrows)
    (hx0 : 0 ≤ E.cx) :
    editorProcessKeypress E q W
        = Proc.running (editorDelChar (editorMoveCursor E ARROW_RIGHT)) EDITOR_QUIT_TIMES
            { W with keys := rest }
    ∧ (E.cx < (E.rowAt E.cy).size →
        (editorDelChar (editorMoveCursor E ARROW_RIGHT)).row
            = E.row.set E.cy.toNat
                (editorUpdateRow
                  { chars := (E.rowAt E.cy).chars.take E.cx.toNat
                              ++ (E.rowAt E.cy).chars.drop (E.cx.toNat + 1)
                    render := [] })
        ∧ ((editorDelChar (editorMoveCursor E ARROW_RIGHT)).rowAt E.cy).size
            = (E.rowAt E.cy).size - 1
        ∧ (editorDelChar (editorMoveCursor E ARROW_RIGHT)).cx = E.cx
        ∧ (editorDelChar (editorMoveCursor E ARROW_RIGHT)).cy = E.cy)
    ∧ (E.cx = (E.rowAt E.cy).size → E.cy + 1 < E.numrows →
        (editorDelChar (editorMoveCursor E ARROW_RIGHT)).row
            = E.row.take E.cy.toNat
              ++ [editorUpdateRow
                    { chars := (E.rowAt E.cy).chars ++ (E.rowAt (E.cy + 1)).chars, render := [] }]
              ++ E.row.drop (E.cy.toNat + 2)
        ∧ (editorDelChar (editorMoveCursor E ARROW_RIGHT)).cx = E.cx
        ∧ (editorDelChar (editorMoveCursor E ARROW_RIGHT)).cy = E.cy) := by
  refine ⟨processKeypress_delete E q W rest hk, ?_, ?_⟩
  · intro hx1
    obtain ⟨pre, r, post, hrow, hcy, hr⟩ := rows_split E h0 h1
    rw [hr] at hx1 ⊢
    have hi : E.cy.toNat = pre.length := by omega
    have hsz : r.size = (r.chars.length : Int) := rfl
    rw [editorMoveCursor_right_within E pre r post hrow hcy hx0 hx1,
      editorDelChar_char_shape { E with cx := E.cx + 1 } pre r post hrow hcy
        (by simp only; omega) (by simp only; omega)]
    have e1 : (E.cx + 1 - 1).toNat = E.cx.toNat := by omega
    refine ⟨?_, ?_, by simp only; omega, rfl⟩
    · simp only [e1, hrow, hi, split_set]
      exact congrArg (fun x => pre ++ x :: post) (editorUpdateRow_congr _ _ rfl)
    · simp only [e1, editorConfig.rowAt, hi, split_getD, erow.size, editorUpdateRow,
        List.length_append, List.length_take, List.length_drop] at hx1 ⊢
      omega
  · intro hx1 h2
    have hmove : ∃ pre a b post, E.row = pre ++ a :: b :: post ∧ E.cy = (pre.length : Int)
        ∧ E.rowAt E.cy = a ∧ E.rowAt (E.cy + 1) = b := by
      obtain ⟨pre, a, b, post, hrow, hcy, ha, hb⟩ :=
        rows_split_two { E with cy := E.cy + 1 } (by simp only; omega) h2
      simp only at hrow hcy ha hb
      have e : E.cy + 1 - 1 = E.cy := by omega
      rw [e] at ha
      exact ⟨pre, a, b, post, hrow, by omega, ha, hb⟩
    obtain ⟨pre, a, b, post, hrow, hcy, ha, hb⟩ := hmove
    rw [ha] at hx1
    rw [ha, hb]
    have hi : E.cy.toNat = pre.length := by omega
    rw [editorMoveCursor_right_wrap E pre a (b :: post) hrow hcy hx1,
      editorDelChar_join_shape { E with cy := E.cy + 1, cx := 0 } pre a b post hrow
        (by simp only; omega) rfl]
    refine ⟨?_, by simp only; omega, by simp only; omega⟩
    simp only [hrow, hi, split_take, split_drop_two, List.append_assoc, List.singleton_append]
    exact congrArg (fun x => pre ++ x :: post) (editorUpdateRow_congr _ _ rfl)

/-- C7 on a concrete document: with rows `abc`, `de`, Delete at `(1, 0)`
removes the `b`, and Delete at `(3, 0)` joins the two rows; the cursor stays. -/
theorem editorProcessKeypress_delete_key_witness :
    ((editorDelChar (editorMoveCursor (docOf [[97, 98, 99], [100, 101]] 1 0) ARROW_RIGHT)).row
        = (docOf [[97, 99], [100, 101]] 1 0).row
      ∧ (editorDelChar (editorMoveCursor (docOf [[97, 98, 99], [100, 101]] 1 0) ARROW_RIGHT)).cx
        = 1)
    ∧ ((editorDelChar (editorMoveCursor (docOf [[97, 98, 99], [100, 101]] 3 0) ARROW_RIGHT)).row
        = (docOf [[97, 98, 99, 100, 101]] 3 0).row
      ∧ (editorDelChar (editorMoveCursor (docOf [[97, 98, 99], [100, 101]] 3 0) ARROW_RIGHT)).cx
        = 3) :=
  ⟨⟨((editorProcessKeypress_delete_key (docOf [[97, 98, 99], [100, 101]] 1 0) 3
        (keysOnly [DEL_KEY]) [] rfl (by decide) (by decide) (by decide)).2.1 (by decide)).1.trans
      (by decide),
    ((editorProcessKeypress_delete_key (docOf [[97, 98, 99], [100, 101]] 1 0) 3
        (keysOnly [DEL_KEY]) [] rfl (by decide) (by decide) (by decide)).2.1
          (by decide)).2.2.1.trans (by decide)⟩,
   ⟨((editorProcessKeypress_delete_key (docOf [[97, 98, 99], [100, 101]] 3 0) 3
        (keysOnly [DEL_KEY]) [] rfl (by decide) (by decide) (by decide)).2.2 (by decide)
          (by decide)).1.trans (by decide),
    ((editorProcessKeypress_delete_key (docOf [[97, 98, 99], [100, 101]] 3 0) 3
        (keysOnly [DEL_KEY]) [] rfl (by decide) (by decide) (by decide)).2.2 (by decide)
          (by decide)).2.1.trans (by decide)⟩⟩

/-- C8: `editorDelChar` at `(0, 0)` changes nothing; and with the cursor on the
virtual row, Backspace, Ctrl-H and Delete each leave the whole editor state
(rows, cursor and `dirty` included) as it was. -/
theorem deletes_without_effect (E : editorConfig) (q : Int) (W : World) (c : Int)
    (rest : List Int) (hk : W.keys = c :: rest) :
    (E.cx = 0 → E.cy = 0 → editorDelChar E = E)
    ∧ (E.cy = E.numrows → editorDelChar E = E)
    ∧ (E.cy = E.numrows → (c = BACKSPACE ∨ c = CTRL_KEY 'h') →
        editorProcessKeypress E q W = Proc.running E EDITOR_QUIT_TIMES { W with keys := rest })
    ∧ (CursorInv E → E.cy = E.numrows → c = DEL_KEY →
        editorProcessKeypress E q W = Proc.running E EDITOR_QUIT_TIMES { W with keys := rest }) := by
  refine ⟨editorDelChar_origin E, editorDelChar_virtual E, ?_, ?_⟩
  · intro hv hc
    rw [processKeypress_backspace E q W c rest hk hc, editorDelChar_virtual E hv]
  · intro hinv hv hc
    subst hc
    obtain ⟨_, _, _, hx1⟩ := hinv
    rw [if_neg (by omega)] at hx1
    rw [processKeypress_delete E q W rest hk, editorMoveCursor_right_virtual E hv hx1,
      editorDelChar_virtual E hv]

/-- C8 on concrete documents: Backspace at `(0, 0)` of the row `ab`, and
Delete on the virtual row below it, leave the state as it was. -/
theorem deletes_without_effect_witness :
    editorDelChar (docOf [[97, 98]] 0 0) = docOf [[97, 98]] 0 0
    ∧ editorProcessKeypress (docOf [[97, 98]] 0 1) 3 (keysOnly [DEL_KEY])
        = Proc.running (docOf [[97, 98]] 0 1) EDITOR_QUIT_TIMES
            { keysOnly [DEL_KEY] with keys := [] } :=
  ⟨(deletes_without_effect (docOf [[97, 98]] 0 0) 3 (keysOnly [DEL_KEY]) DEL_KEY [] rfl).1
      (by decide) (by decide),
   (deletes_without_effect (docOf [[97, 98]] 0 1) 3 (keysOnly [DEL_KEY]) DEL_KEY [] rfl).2.2.2
      (by decide) (by decide) rfl⟩

/-! ## the dirty counter and render consistency -/

theorem renderOk_iff (r : erow) : RenderOk r ↔ r.render = tabExpand 0 r.chars := by
  simp [RenderOk, loop_eq]

theorem renderOk_editorUpdateRow (r : erow) : RenderOk (editorUpdateRow r) := rfl

theorem editorUpdateRow_render (r : erow) :
    (editorUpdateRow r).render = tabExpand 0 (editorUpdateRow r).chars :=
  (renderOk_iff _).1 (renderOk_editorUpdateRow r)

/-- C9: each mutating call of the document buffer adds exactly 1 to `dirty`,
and afterwards every row is either a row that was there before or has render
bytes equal to the tab expansion of its content: `editorInsertRow` and
`editorDelRow` with an index in range, `editorRowInsertChar`,
`editorRowDelChar` with an index in range, `editorRowAppendString`, and
`editorInsertNewline`.  With an index out of range `editorInsertRow`,
`editorDelRow` and `editorRowDelChar` change nothing, `dirty` included. -/
theorem mutations_bump_dirty_once (E : editorConfig) (row : erow) (pos c : Int)
    (s : List Nat) (dirty : Nat) :
    (0 ≤ pos → pos ≤ E.numrows →
        (editorInsertRow E pos s).dirty = E.dirty + 1
        ∧ (editorInsertRow E pos s).numrows = E.numrows + 1
        ∧ ((editorInsertRow E pos s).rowAt pos).chars = s
        ∧ ∀ r ∈ (editorInsertRow E pos s).row, r ∈ E.row ∨ r.render = tabExpand 0 r.chars)
    ∧ (pos < 0 ∨ E.numrows < pos → editorInsertRow E pos s = E)
    ∧ (0 ≤ pos → pos < E.numrows →
        (editorDelRow E pos).dirty = E.dirty + 1
        ∧ (editorDelRow E pos).numrows = E.numrows - 1
        ∧ ∀ r ∈ (editorDelRow E pos).row, r ∈ E.row)
    ∧ (pos < 0 ∨ E.numrows ≤ pos → editorDelRow E pos = E)
    ∧ ((editorRowInsertChar row pos c dirty).2 = dirty + 1
        ∧ (editorRowInsertChar row pos c dirty).1.render
            = tabExpand 0 (editorRowInsertChar row pos c dirty).1.chars)
    ∧ (0 ≤ pos → pos < row.size →
        (editorRowDelChar row pos dirty).2 = dirty + 1
        ∧ (editorRowDelChar row pos dirty).1.render
            = tabExpand 0 (editorRowDelChar row pos dirty).1.chars)
    ∧ (pos < 0 ∨ row.size ≤ pos → editorRowDelChar row pos dirty = (row, dirty))
    ∧ ((editorRowAppendString row s dirty).2 = dirty + 1
        ∧ (editorRowAppendString row s dirty).1.render
            = tabExpand 0 (editorRowAppendString row s dirty).1.chars)
    ∧ (CursorInv E →
        (editorInsertNewline E).dirty = E.dirty + 1
        ∧ (editorInsertNewline E).numrows = E.numrows + 1
        ∧ ∀ r ∈ (editorInsertNewline E).row, r ∈ E.row ∨ r.render = tabExpand 0 r.chars) := by
  refine ⟨?_, ?_, ?_, ?_, ?_, ?_, ?_, ?_, ?_⟩
  · intro h0 h1
    have hg : ¬ (pos < 0 ∨ pos > E.numrows) := by omega
    have hp : pos.toNat ≤ E.row.length := by
      simp only [editorConfig.numrows] at h1; omega
    simp only [editorInsertRow, if_neg hg]
    refine ⟨trivial, ?_, ?_, ?_⟩
    · simp only [editorConfig.numrows, List.length_append, List.length_take, List.length_drop,
        List.length_singleton]
      push_cast
      omega
    · have hl : (E.row.take pos.toNat).length = pos.toNat := by simp [hp]
      have hget := split_getD (E.row.take pos.toNat)
        (editorUpdateRow { chars := s, render := [] }) (E.row.drop pos.toNat)
        { chars := [], render := [] }
      rw [hl] at hget
      simp only [editorConfig.rowAt, List.append_assoc, List.singleton_append, hget]
      rfl
    · intro r hr
      simp only [List.mem_append, List.mem_singleton] at hr
      rcases hr with (hr | hr) | hr
      · exact Or.inl (List.mem_of_mem_take hr)
      · exact Or.inr (by rw [hr]; exact editorUpdateRow_render _)
      · exact Or.inl (List.mem_of_mem_drop hr)
  · intro h
    have hg : pos < 0 ∨ pos > E.numrows := by omega
    simp only [editorInsertRow, if_pos hg]
  · intro h0 h1
    have hg : ¬ (pos < 0 ∨ pos ≥ E.numrows) := by omega
    simp only [editorDelRow, if_neg hg]
    refine ⟨trivial, ?_, ?_⟩
    · simp only [editorConfig.numrows] at h1 ⊢
      simp only [List.length_append, List.length_take, List.length_drop]
      push_cast
      omega
    · intro r hr
      simp only [List.mem_append] at hr
      rcases hr with hr | hr
      · exact List.mem_of_mem_take hr
      · exact List.mem_of_mem_drop hr
  · intro h
    have hg : pos < 0 ∨ pos ≥ E.numrows := by omega
    simp only [editorDelRow, if_pos hg]
  · exact ⟨rfl, editorUpdateRow_render _⟩
  · intro h0 h1
    have hg : ¬ (pos < 0 ∨ pos ≥ row.size) := by omega
    simp only [editorRowDelChar, if_neg hg]
    exact ⟨trivial, editorUpdateRow_render _⟩
  · intro h
    have hg : pos < 0 ∨ pos ≥ row.size := by omega
    simp only [editorRowDelChar, if_pos hg]
  · exact ⟨rfl, editorUpdateRow_render _⟩
  · intro hinv
    obtain ⟨hy0, hy1, hx0, hx1⟩ := hinv
    by_cases hc : E.cx = 0
    · have hn : E.cy.toNat ≤ E.row.length := by
        simp only [editorConfig.numrows] at hy1; omega
      have hrow : E.row = E.row.take E.cy.toNat ++ E.row.drop E.cy.toNat :=
        (List.take_append_drop _ _).symm
      have hcy : E.cy = ((E.row.take E.cy.toNat).length : Int) := by
        simp only [List.length_take]; omega
      rw [editorInsertNewline_col0_shape E _ _ hrow hcy hc]
      refine ⟨rfl, ?_, ?_⟩
      · simp only [editorConfig.numrows, List.length_append, List.length_take, List.length_drop,
          List.length_cons]
        push_cast
        omega
      · intro r hr
        simp only [List.mem_append, List.mem_cons] at hr
        rcases hr with hr | hr | hr
        · exact Or.inl (List.mem_of_mem_take hr)
        · exact Or.inr (by rw [hr]; rfl)
        · exact Or.inl (List.mem_of_mem_drop hr)
    · have hlt : E.cy < E.numrows := by
        by_contra hge
        rw [if_neg hge] at hx1
        omega
      obtain ⟨pre, r0, post, hrow, hcy, hr0⟩ := rows_split E hy0 hlt
      rw [editorInsertNewline_split_shape E pre r0 post hrow hcy hc]
      refine ⟨rfl, ?_, ?_⟩
      · simp only [editorConfig.numrows, hrow, List.length_append, List.length_cons]
        push_cast
        omega
      · intro r hr
        simp only [List.mem_append, List.mem_cons] at hr
        rcases hr with hr | hr | hr | hr
        · exact Or.inl (by rw [hrow]; exact List.mem_append_left _ hr)
        · exact Or.inr (by rw [hr]; exact editorUpdateRow_render _)
        · exact Or.inr (by rw [hr]; exact editorUpdateRow_render _)
        · exact Or.inl (by rw [hrow]; exact List.mem_append_right _ (List.mem_cons_of_mem _ hr))

/-- C9 on concrete data: inserting a row with a tab at index 1 of a document
of one row adds 1 to `dirty` and renders the new row; index 5 changes nothing. -/
theorem mutations_bump_dirty_once_witness :
    ((editorInsertRow (docOf [[97]] 0 0) 1 [9, 98]).dirty = (docOf [[97]] 0 0).dirty + 1
      ∧ ((editorInsertRow (docOf [[97]] 0 0) 1 [9, 98]).rowAt 1).render
          = [32, 32, 32, 32, 32, 32, 32, 32, 98])
    ∧ editorInsertRow (docOf [[97]] 0 0) 5 [9, 98] = docOf [[97]] 0 0 :=
  ⟨⟨((mutations_bump_dirty_once (docOf [[97]] 0 0) { chars := [], render := [] } 1 0 [9, 98] 0).1
      (by decide) (by decide)).1, by decide⟩,
   (mutations_bump_dirty_once (docOf [[97]] 0 0) { chars := [], render := [] } 5 0 [9, 98] 0).2.1
      (by decide)⟩

/-! ## serialise and load -/

theorem rowsBytes_append (xs ys : List erow) :
    rowsBytes (xs ++ ys) = rowsBytes xs ++ rowsBytes ys := by
  induction xs with
  | nil => rfl
  | cons r rs ih => simp [rowsBytes, ih]

theorem serialize_foldl (rows : List erow) (acc : List Nat) :
    rows.foldl (fun buf r => buf ++ r.chars ++ [LF]) acc = acc ++ rowsBytes rows := by
  induction rows generalizing acc with
  | nil => simp [rowsBytes]
  | cons r rs ih =>
    rw [List.foldl_cons, ih, rowsBytes]
    simp

theorem totlen_foldl (rows : List erow) (acc : Int) :
    rows.foldl (fun totlen r => totlen + (r.size + 1)) acc
      = acc + ((rowsBytes rows).length : Int) := by
  induction rows generalizing acc with
  | nil => simp [rowsBytes]
  | cons r rs ih =>
    rw [List.foldl_cons, ih, rowsBytes]
    simp only [erow.size, List.length_append, List.length_cons]
    push_cast
    omega

theorem editorRowsToString_eq (E : editorConfig) :
    editorRowsToString E = (rowsBytes E.row, ((rowsBytes E.row).length : Int)) := by
  rw [editorRowsToString, serialize_foldl, totlen_foldl]
  simp

theorem editorInsertRow_append (E : editorConfig) (s : List Nat) :
    editorInsertRow E E.numrows s
      = { E with row := E.row ++ [editorUpdateRow { chars := s, render := [] }]
                 dirty := E.dirty + 1 } := by
  have hg : ¬ (E.numrows < 0 ∨ E.numrows > E.numrows) := by
    simp only [editorConfig.numrows]; omega
  simp only [editorInsertRow, if_neg hg]
  simp [editorConfig.numrows]

theorem editorOpen_loop_row (E : editorConfig) (lines : List (List Nat)) :
    (editorOpen.loop E lines).row
      = E.row ++ lines.map (fun l => editorUpdateRow { chars := stripEol l, render := [] }) := by
  induction lines generalizing E with
  | nil => simp [editorOpen.loop]
  | cons l ls ih =>
    have := ih (editorInsertRow E E.numrows (stripEol l))
    simp only [editorOpen.loop, List.foldl_cons] at this ⊢
    rw [this, editorInsertRow_append]
    simp

theorem stripEol_line (cur : List Nat) (hcur : ∀ x ∈ cur, x ≠ LF ∧ x ≠ CR) :
    stripEol (cur ++ [LF]) = cur := by
  unfold stripEol
  rw [List.rdropWhile_concat_pos _ _ _ (by simp), List.rdropWhile_eq_self_iff]
  intro hl
  have := hcur _ (List.getLast_mem hl)
  simp [this.1, this.2]

theorem getlines_rowsBytes (T cur : List Nat) (hT : ∀ x ∈ T, x ≠ CR)
    (hcur : ∀ x ∈ cur, x ≠ LF ∧ x ≠ CR)
    (hend : ∀ x, (cur ++ T).getLast? = some x → x = LF) :
    rowsBytes ((getlines T cur).map
        (fun l => editorUpdateRow { chars := stripEol l, render := [] })) = cur ++ T := by
  induction T generalizing cur with
  | nil =>
    by_cases hc : cur = []
    · simp [getlines, hc, rowsBytes]
    · exfalso
      have h1 := hend (cur.getLast hc) (by simp [List.getLast?_eq_getLast _ hc])
      exact (hcur _ (List.getLast_mem hc)).1 h1
  | cons b bs ih =>
    by_cases hb : b = LF
    · subst hb
      have hend2 : ∀ x, ([] ++ bs).getLast? = some x → x = LF := by
        intro x hx
        apply hend x
        simp only [List.nil_append] at hx
        simp [List.getLast?_append, List.getLast?_cons, hx]
      have := ih [] (fun x hx => hT x (List.mem_cons_of_mem _ hx)) (by simp) hend2
      simp only [getlines, if_true, List.map_cons, rowsBytes, editorUpdateRow,
        stripEol_line cur hcur]
      simp only [editorUpdateRow] at this
      rw [this]
      simp
    · have hcur2 : ∀ x ∈ cur ++ [b], x ≠ LF ∧ x ≠ CR := by
        intro x hx
        simp only [List.mem_append, List.mem_singleton] at hx
        rcases hx with hx | hx
        · exact hcur x hx
        · subst hx; exact ⟨hb, hT x (List.mem_cons_self _ _)⟩
      have := ih (cur ++ [b]) (fun x hx => hT x (List.mem_cons_of_mem _ hx)) hcur2
        (by simpa using hend)
      simp only [getlines, if_neg hb]
      rw [this]
      simp

theorem rowsBytes_ends (rows : List erow) :
    ∀ x, (rowsBytes rows).getLast? = some x → x = LF := by
  induction rows with
  | nil => simp [rowsBytes]
  | cons r rs ih =>
    intro x hx
    simp only [rowsBytes, List.getLast?_append, List.getLast?_cons] at hx
    cases hrs : (rowsBytes rs).getLast? with
    | none => simp [hrs] at hx; exact hx.symm
    | some y =>
      simp [hrs] at hx
      rw [← hx]
      exact ih y hrs

theorem rowsBytes_no_cr (rows : List erow) (h : ∀ r ∈ rows, ∀ x ∈ r.chars, x ≠ CR) :
    ∀ x ∈ rowsBytes rows, x ≠ CR := by
  induction rows with
  | nil => simp [rowsBytes]
  | cons r rs ih =>
    intro x hx
    simp only [rowsBytes, List.mem_append, List.mem_cons] at hx
    rcases hx with hx | hx | hx
    · exact h r (List.mem_cons_self _ _) x hx
    · rw [hx]; decide
    · exact ih (fun r hr => h r (List.mem_cons_of_mem _ hr)) x hx

/-- C2: for a document none of whose rows holds a carriage return, serialising
it with `editorRowsToString`, loading those bytes with `editorOpen` into an
empty document and serialising again gives the first serialisation back,
bytes and length. -/
theorem serialize_load_serialize (D E0 : editorConfig) (name : List Nat)
    (hD : ∀ r ∈ D.row, ∀ x ∈ r.chars, x ≠ CR) (hE0 : E0.row = []) :
    editorRowsToString (editorOpen E0 name (editorRowsToString D).1) = editorRowsToString D := by
  rw [editorRowsToString_eq D, editorRowsToString_eq]
  have hrow : (editorOpen E0 name (rowsBytes D.row)).row
      = (getlines (rowsBytes D.row) []).map
          (fun l => editorUpdateRow { chars := stripEol l, render := [] }) := by
    simp only [editorOpen, editorOpen_loop_row, hE0, List.nil_append]
  have hkey := getlines_rowsBytes (rowsBytes D.row) [] (rowsBytes_no_cr D.row hD) (by simp)
    (by simpa using rowsBytes_ends D.row)
  simp only [hrow, hkey, List.nil_append]

/-- C2 on a concrete document: the rows `ab`, (empty), `c` serialise to
`ab\n\nc\n`, which loads and serialises to the same bytes. -/
theorem serialize_load_serialize_witness :
    (editorRowsToString (docOf [[97, 98], [], [99]] 0 0)).1 = [97, 98, 10, 10, 99, 10]
    ∧ editorRowsToString
        (editorOpen (initEditor 24 80) [102]
          (editorRowsToString (docOf [[97, 98], [], [99]] 0 0)).1)
      = editorRowsToString (docOf [[97, 98], [], [99]] 0 0) :=
  ⟨by decide,
   serialize_load_serialize (docOf [[97, 98], [], [99]] 0 0) (initEditor 24 80) [102]
     (by decide) rfl⟩

/-! ## cursor movement keeps the cursor invariant -/

theorem size_nonneg (r : erow) : 0 ≤ r.size := Int.ofNat_nonneg _

theorem cursorInv_of_eq (E E1 : editorConfig) (hrow : E1.row = E.row) (hcx : E1.cx = E.cx)
    (hcy : E1.cy = E.cy) (h : CursorInv E) : CursorInv E1 := by
  simp only [CursorInv, editorConfig.numrows, editorConfig.rowAt, hrow, hcx, hcy] at h ⊢
  exact h

theorem editorMoveCursor_frame (E : editorConfig) (key : Int) :
    (editorMoveCursor E key).row = E.row ∧ (editorMoveCursor E key).rowoff = E.rowoff
    ∧ (editorMoveCursor E key).screenrows = E.screenrows := by
  unfold editorMoveCursor
  simp only []
  split_ifs <;> (try split) <;> (try split_ifs) <;> simp

theorem editorMoveCursor_eq (E : editorConfig) (key : Int) :
    editorMoveCursor E key = editorMoveCursor.clamp (editorMoveCursor.step E key) := rfl

theorem editorMoveCursor_step_bounds (E : editorConfig) (key : Int) (hy0 : 0 ≤ E.cy)
    (hy1 : E.cy ≤ E.numrows) (hx0 : 0 ≤ E.cx) :
    (editorMoveCursor.step E key).row = E.row ∧ 0 ≤ (editorMoveCursor.step E key).cy
    ∧ (editorMoveCursor.step E key).cy ≤ E.numrows ∧ 0 ≤ (editorMoveCursor.step E key).cx := by
  have s1 := size_nonneg (E.rowAt (E.cy - 1))
  unfold editorMoveCursor.step
  by_cases hge : E.cy ≥ E.numrows
  · simp only [if_pos hge]
    split_ifs <;> (refine ⟨rfl, ?_, ?_, ?_⟩ <;> (try simp only []) <;> omega)
  · simp only [if_neg hge]
    split_ifs <;> (refine ⟨rfl, ?_, ?_, ?_⟩ <;> (try simp only []) <;> omega)

theorem editorMoveCursor_clamp_inv (E1 : editorConfig) (hy0 : 0 ≤ E1.cy)
    (hy1 : E1.cy ≤ E1.numrows) (hx0 : 0 ≤ E1.cx) :
    CursorInv (editorMoveCursor.clamp E1) := by
  have s0 := size_nonneg (E1.rowAt E1.cy)
  unfold editorMoveCursor.clamp CursorInv
  by_cases hlt : E1.cy < E1.numrows
  · have hge : ¬ E1.cy ≥ E1.numrows := by omega
    simp only [if_neg hge]
    split_ifs <;> simp only [editorConfig.numrows, editorConfig.rowAt] at * <;> omega
  · have hge : E1.cy ≥ E1.numrows := by omega
    simp only [if_pos hge]
    split_ifs <;> simp only [editorConfig.numrows, editorConfig.rowAt] at * <;> omega

theorem editorMoveCursor_inv (E : editorConfig) (key : Int) (hy0 : 0 ≤ E.cy)
    (hy1 : E.cy ≤ E.numrows) (hx0 : 0 ≤ E.cx) :
    CursorInv (editorMoveCursor E key) := by
  obtain ⟨hrow, h0, h1, h2⟩ := editorMoveCursor_step_bounds E key hy0 hy1 hx0
  rw [editorMoveCursor_eq]
  refine editorMoveCursor_clamp_inv _ h0 ?_ h2
  simp only [editorConfig.numrows, hrow] at h1 ⊢
  exact h1

theorem editorMoveCursor_times_inv (n : Nat) (E : editorConfig) (key : Int) (hn : 0 < n)
    (hy0 : 0 ≤ E.cy) (hy1 : E.cy ≤ E.numrows) (hx0 : 0 ≤ E.cx) :
    CursorInv (editorMoveCursor.times n E key)
    ∧ (editorMoveCursor.times n E key).rowoff = E.rowoff
    ∧ (editorMoveCursor.times n E key).screenrows = E.screenrows := by
  induction n generalizing E with
  | zero => omega
  | succ n ih =>
    have hinv := editorMoveCursor_inv E key hy0 hy1 hx0
    obtain ⟨_, hro, hsr⟩ := editorMoveCursor_frame E key
    rw [editorMoveCursor.times]
    by_cases hz : n = 0
    · subst hz
      exact ⟨hinv, hro, hsr⟩
    · obtain ⟨a, b, c⟩ := ih (editorMoveCursor E key) (by omega) hinv.1 hinv.2.1 hinv.2.2.1
      exact ⟨a, by rw [b, hro], by rw [c, hsr]⟩

/-! ## editing keeps the cursor invariant -/

theorem editorScroll_frame (E : editorConfig) :
    (editorScroll E).cx = E.cx ∧ (editorScroll E).cy = E.cy ∧ (editorScroll E).row = E.row
    ∧ (editorScroll E).screenrows = E.screenrows ∧ (editorScroll E).dirty = E.dirty
    ∧ (editorScroll E).filename = E.filename := by
  unfold editorScroll
  simp only []
  split_ifs <;> exact ⟨rfl, rfl, rfl, rfl, rfl, rfl⟩

theorem editorScroll_rowoff (E : editorConfig) (hy0 : 0 ≤ E.cy) (hro : 0 ≤ E.rowoff)
    (hsr : 1 ≤ E.screenrows) :
    0 ≤ (editorScroll E).rowoff ∧ (editorScroll E).rowoff ≤ E.cy := by
  unfold editorScroll
  simp only []
  split_ifs <;> (try simp only [] at *) <;> omega

theorem editorScroll_loopInv (E : editorConfig) (h : LoopInv E) :
    LoopInv (editorScroll E) ∧ (editorScroll E).rowoff ≤ (editorScroll E).cy := by
  obtain ⟨hc, hro, hsr⟩ := h
  obtain ⟨fx, fy, frow, fsr, _, _⟩ := editorScroll_frame E
  obtain ⟨r0, r1⟩ := editorScroll_rowoff E hc.1 hro hsr
  exact ⟨⟨cursorInv_of_eq E _ frow fx fy hc, r0, by rw [fsr]; exact hsr⟩, by rw [fy]; exact r1⟩

theorem cursorInv_split (E : editorConfig) (pre : List erow) (r : erow) (post : List erow)
    (hrow : E.row = pre ++ r :: post) (hcy : E.cy = (pre.length : Int)) (hx0 : 0 ≤ E.cx)
    (hx1 : E.cx ≤ r.size) : CursorInv E := by
  have hi : E.cy.toNat = pre.length := by omega
  have hlt : E.cy < ((pre ++ r :: post).length : Int) := by
    simp only [List.length_append, List.length_cons]; push_cast; omega
  simp only [CursorInv, editorConfig.numrows, editorConfig.rowAt, hrow, hi, split_getD,
    if_pos hlt]
  omega

theorem cursorInv_col0 (E : editorConfig) (hy0 : 0 ≤ E.cy) (hy1 : E.cy ≤ E.numrows)
    (hx : E.cx = 0) : CursorInv E := by
  have s0 := size_nonneg (E.rowAt E.cy)
  refine ⟨hy0, hy1, by omega, ?_⟩
  split_ifs <;> omega

theorem editorInsertNewline_inv (E : editorConfig) (h : CursorInv E) :
    CursorInv (editorInsertNewline E) ∧ (editorInsertNewline E).rowoff = E.rowoff
    ∧ (editorInsertNewline E).screenrows = E.screenrows := by
  obtain ⟨hy0, hy1, hx0, hx1⟩ := h
  by_cases hc : E.cx = 0
  · have hn : E.cy.toNat ≤ E.row.length := by
      simp only [editorConfig.numrows] at hy1; omega
    have hrow : E.row = E.row.take E.cy.toNat ++ E.row.drop E.cy.toNat :=
      (List.take_append_drop _ _).symm
    have hcy : E.cy = ((E.row.take E.cy.toNat).length : Int) := by
      simp only [List.length_take]; omega
    rw [editorInsertNewline_col0_shape E _ _ hrow hcy hc]
    refine ⟨cursorInv_col0 _ (by simp only; omega) ?_ rfl, rfl, rfl⟩
    simp only [editorConfig.numrows, List.length_append, List.length_take, List.length_drop,
      List.length_cons] at hy1 ⊢
    push_cast
    omega
  · have hlt : E.cy < E.numrows := by
      by_contra hge
      rw [if_neg hge] at hx1
      omega
    obtain ⟨pre, r0, post, hrow, hcy, hr0⟩ := rows_split E hy0 hlt
    rw [editorInsertNewline_split_shape E pre r0 post hrow hcy hc]
    refine ⟨cursorInv_col0 _ (by simp only; omega) ?_ rfl, rfl, rfl⟩
    simp only [editorConfig.numrows, List.length_append, List.length_cons, hcy]
    push_cast
    omega

theorem editorDelChar_inv (E : editorConfig) (h : CursorInv E) :
    CursorInv (editorDelChar E) ∧ (editorDelChar E).rowoff = E.rowoff
    ∧ (editorDelChar E).screenrows = E.screenrows := by
  have h' := h
  obtain ⟨hy0, hy1, hx0, hx1⟩ := h
  by_cases hv : E.cy = E.numrows
  · rw [editorDelChar_virtual E hv]; exact ⟨h', rfl, rfl⟩
  · have hlt : E.cy < E.numrows := by omega
    rw [if_pos hlt] at hx1
    by_cases hc : E.cx = 0
    · by_cases hz : E.cy = 0
      · rw [editorDelChar_origin E hc hz]; exact ⟨h', rfl, rfl⟩
      · obtain ⟨pre, a, b, post, hrow, hcy, ha, hb⟩ := rows_split_two E (by omega) hlt
        rw [editorDelChar_join_shape E pre a b post hrow hcy hc]
        refine ⟨cursorInv_split _ pre _ post rfl rfl (size_nonneg a) ?_, rfl, rfl⟩
        simp only [erow.size, editorUpdateRow, List.length_append]
        push_cast
        omega
    · obtain ⟨pre, r, post, hrow, hcy, hr⟩ := rows_split E hy0 hlt
      rw [hr] at hx1
      rw [editorDelChar_char_shape E pre r post hrow hcy (by omega) hx1]
      refine ⟨cursorInv_split _ pre _ post rfl hcy (by simp only; omega) ?_, rfl, rfl⟩
      simp only [erow.size, editorUpdateRow, List.length_append, List.length_take,
        List.length_drop] at hx1 ⊢
      omega

theorem editorInsertChar_inv (E : editorConfig) (c : Int) (h : CursorInv E) :
    CursorInv (editorInsertChar E c) ∧ (editorInsertChar E c).rowoff = E.rowoff
    ∧ (editorInsertChar E c).screenrows = E.screenrows := by
  obtain ⟨hy0, hy1, hx0, hx1⟩ := h
  by_cases hv : E.cy = E.numrows
  · have hlt : ¬ E.cy < E.numrows := by omega
    rw [if_neg hlt] at hx1
    have hcx : E.cx = 0 := by omega
    rw [editorInsertChar_virtual_shape E c hv hcx]
    refine ⟨cursorInv_split _ E.row _ [] rfl hv (by simp only; omega) ?_, rfl, rfl⟩
    simp [erow.size, editorUpdateRow]
  · have hlt : E.cy < E.numrows := by omega
    rw [if_pos hlt] at hx1
    obtain ⟨pre, r, post, hrow, hcy, hr⟩ := rows_split E hy0 hlt
    rw [hr] at hx1
    rw [editorInsertChar_row_shape E pre r post c hrow hcy hx0 hx1]
    refine ⟨cursorInv_split _ pre _ post rfl hcy (by simp only; omega) ?_, rfl, rfl⟩
    simp only [erow.size, editorUpdateRow, List.length_append, List.length_take,
      List.length_drop, List.length_singleton] at hx1 ⊢
    omega

/-! ## prompt, find and save -/

theorem sameDoc_refl (E : editorConfig) : SameDoc E E := ⟨rfl, rfl, rfl, rfl, id⟩

theorem sameDoc_trans {E E1 E2 : editorConfig} (h1 : SameDoc E E1) (h2 : SameDoc E1 E2) :
    SameDoc E E2 :=
  ⟨h2.1.trans h1.1, h2.2.1.trans h1.2.1, h2.2.2.1.trans h1.2.2.1, h2.2.2.2.1.trans h1.2.2.2.1,
    fun h => h2.2.2.2.2 (h1.2.2.2.2 h)⟩

theorem sameDoc_refresh (E : editorConfig) : SameDoc E (editorRefreshScreen E) := by
  obtain ⟨fx, fy, frow, fsr, _, _⟩ := editorScroll_frame E
  exact ⟨fx, fy, frow, fsr, fun h => (editorScroll_loopInv E h).1⟩

theorem editorPrompt_loop_sameDoc (keys : List Int) :
    ∀ (E : editorConfig) (buf : List Nat) (E1 : editorConfig) (res : Option (List Nat))
      (rest : List Int),
      editorPrompt.loop E buf keys = some (E1, res, rest) → SameDoc E E1 := by
  induction keys with
  | nil => intro E buf E1 res rest h; simp [editorPrompt.loop] at h
  | cons c ks ih =>
    intro E buf E1 res rest h
    have hr := sameDoc_refresh E
    rw [editorPrompt.loop] at h
    split_ifs at h with h1 h2 h3 h4 h5
    · exact sameDoc_trans hr (ih _ _ _ _ _ h)
    · simp only [Option.some.injEq, Prod.mk.injEq] at h
      rw [← h.1]; exact hr
    · simp only [Option.some.injEq, Prod.mk.injEq] at h
      rw [← h.1]; exact hr
    · exact sameDoc_trans hr (ih _ _ _ _ _ h)
    · exact sameDoc_trans hr (ih _ _ _ _ _ h)
    · exact sameDoc_trans hr (ih _ _ _ _ _ h)

theorem editorRowRxToCx_loop_bounds (rx : Int) (cs : List Nat) :
    ∀ (cx cur : Int), cx ≤ editorRowRxToCx.loop rx cs cx cur
      ∧ editorRowRxToCx.loop rx cs cx cur ≤ cx + (cs.length : Int) := by
  induction cs with
  | nil => intro cx cur; simp [editorRowRxToCx.loop]
  | cons c cs ih =>
    intro cx cur
    rw [editorRowRxToCx.loop]
    split_ifs
    · simp only [List.length_cons]; push_cast; omega
    · have := ih (cx + 1) (advanceRx c cur)
      simp only [List.length_cons]; push_cast; omega

theorem editorRowRxToCx_bounds (row : erow) (rx : Int) :
    0 ≤ editorRowRxToCx row rx ∧ editorRowRxToCx row rx ≤ row.size := by
  have := editorRowRxToCx_loop_bounds rx row.chars 0 0
  simp only [editorRowRxToCx, erow.size]
  omega

theorem editorFind_loop_inv (E : editorConfig) (query : List Nat) (h : LoopInv E)
    (rows : List erow) :
    ∀ (pre : List erow) (i : Int), E.row = pre ++ rows → i = (pre.length : Int) →
      LoopInv (editorFind.loop E query rows i) := by
  induction rows with
  | nil => intro pre i _ _; exact h
  | cons r rs ih =>
    intro pre i hrow hi
    rw [editorFind.loop]
    split
    · rename_i off _
      obtain ⟨b0, b1⟩ := editorRowRxToCx_bounds r (off : Int)
      refine ⟨cursorInv_split _ pre r rs hrow hi b0 b1, ?_, h.2.2⟩
      simp only [editorConfig.numrows]
      omega
    · exact ih (pre ++ [r]) (i + 1) (by rw [hrow]; simp) (by rw [hi]; simp)

theorem editorFind_inv (E : editorConfig) (keys : List Int) (E1 : editorConfig)
    (rest : List Int) (h : LoopInv E) (hf : editorFind E keys = some (E1, rest)) :
    LoopInv E1 := by
  unfold editorFind editorPrompt at hf
  split at hf
  · simp at hf
  · rename_i E2 rest2 hp
    simp only [Option.some.injEq, Prod.mk.injEq] at hf
    rw [← hf.1]
    exact (editorPrompt_loop_sameDoc _ _ _ _ _ _ hp).2.2.2.2 h
  · rename_i E2 query rest2 hp
    simp only [Option.some.injEq, Prod.mk.injEq] at hf
    rw [← hf.1]
    exact editorFind_loop_inv E2 query ((editorPrompt_loop_sameDoc _ _ _ _ _ _ hp).2.2.2.2 h)
      E2.row [] 0 rfl rfl

theorem editorSave_write_sameDoc (E : editorConfig) (W : World) :
    SameDoc E (editorSave.write E W).1 := by
  have hz : SameDoc E { E with dirty := 0 } :=
    ⟨rfl, rfl, rfl, rfl, fun h => ⟨cursorInv_of_eq E _ rfl rfl rfl h.1, h.2.1, h.2.2⟩⟩
  unfold editorSave.write
  simp only []
  split
  · exact sameDoc_refl E
  · split_ifs
    · exact hz
    · exact sameDoc_refl E
    · exact sameDoc_refl E
    · exact sameDoc_refl E

theorem editorSave_sameDoc (E : editorConfig) (W : World) (E1 : editorConfig) (W1 : World)
    (hs : editorSave E W = some (E1, W1)) : SameDoc E E1 := by
  have hname : ∀ (E2 : editorConfig) (name : List Nat),
      SameDoc E2 { E2 with filename := some name } := fun E2 name =>
    ⟨rfl, rfl, rfl, rfl, fun h => ⟨cursorInv_of_eq E2 _ rfl rfl rfl h.1, h.2.1, h.2.2⟩⟩
  unfold editorSave editorPrompt at hs
  split at hs
  · simp only [Option.some.injEq] at hs
    have he : E1 = (editorSave.write E W).1 := by rw [hs]
    rw [he]; exact editorSave_write_sameDoc E W
  · split at hs
    · simp at hs
    · rename_i E2 rest2 hp
      simp only [Option.some.injEq, Prod.mk.injEq] at hs
      rw [← hs.1]; exact editorPrompt_loop_sameDoc _ _ _ _ _ _ hp
    · rename_i E2 name rest2 hp
      simp only [Option.some.injEq] at hs
      have he : E1 = (editorSave.write { E2 with filename := some name }
          { W with keys := rest2 }).1 := by rw [hs]
      rw [he]
      exact sameDoc_trans (editorPrompt_loop_sameDoc _ _ _ _ _ _ hp)
        (sameDoc_trans (hname E2 name) (editorSave_write_sameDoc _ _))

/-! ## one key -/

theorem loopInv_running (X : editorConfig) (q : Int) (W : World) (h : LoopInv X) :
    ∀ E1 ∈ (Proc.running X q W).config, LoopInv E1 := by
  intro E1 hE1
  simp only [Proc.config, Option.mem_def, Option.some.injEq] at hE1
  rw [← hE1]; exact h

theorem loopInv_exited (X : editorConfig) (W : World) (h : LoopInv X) :
    ∀ E1 ∈ (Proc.exited X W).config, LoopInv E1 := by
  intro E1 hE1
  simp only [Proc.config, Option.mem_def, Option.some.injEq] at hE1
  rw [← hE1]; exact h

theorem loopInv_blocked : ∀ E1 ∈ (Proc.blocked).config, LoopInv E1 := by
  intro E1 hE1
  simp [Proc.config] at hE1

theorem loopInv_moveCursor (E : editorConfig) (key : Int) (h : LoopInv E) :
    LoopInv (editorMoveCursor E key) := by
  obtain ⟨_, hro, hsr⟩ := editorMoveCursor_frame E key
  exact ⟨editorMoveCursor_inv E key h.1.1 h.1.2.1 h.1.2.2.1, by rw [hro]; exact h.2.1,
    by rw [hsr]; exact h.2.2⟩

theorem editorProcessKeypress_loopInv (E : editorConfig) (q : Int) (W : World)
    (h : LoopInv E) (hro : E.rowoff ≤ E.cy) :
    ∀ E1 ∈ (editorProcessKeypress E q W).config, LoopInv E1 := by
  obtain ⟨hc, hr0, hsr⟩ := h
  have h : LoopInv E := ⟨hc, hr0, hsr⟩
  obtain ⟨hy0, hy1, hx0, hx1⟩ := hc
  unfold editorProcessKeypress
  cases hk : W.keys with
  | nil => exact loopInv_blocked
  | cons c keys =>
    simp only []
    by_cases h1 : c = (CR : Int)
    · rw [if_pos h1]
      obtain ⟨a, b, d⟩ := editorInsertNewline_inv E h.1
      exact loopInv_running _ _ _ ⟨a, by rw [b]; exact hr0, by rw [d]; exact hsr⟩
    rw [if_neg h1]
    by_cases h2 : c = CTRL_KEY 'q'
    · rw [if_pos h2]
      split_ifs
      · exact loopInv_running _ _ _ h
      · exact loopInv_exited _ _ h
    rw [if_neg h2]
    by_cases h3 : c = CTRL_KEY 's'
    · rw [if_pos h3]
      split
      · exact loopInv_blocked
      · rename_i E1 W2 hs
        exact loopInv_running _ _ _ ((editorSave_sameDoc _ _ _ _ hs).2.2.2.2 h)
    rw [if_neg h3]
    by_cases h4 : c = HOME_KEY
    · rw [if_pos h4]
      exact loopInv_running _ _ _ ⟨cursorInv_col0 _ hy0 hy1 rfl, hr0, hsr⟩
    rw [if_neg h4]
    by_cases h5 : c = END_KEY
    · rw [if_pos h5]
      split_ifs with hlt
      · obtain ⟨pre, r, post, hrow, hcy, hr⟩ := rows_split E hy0 hlt
        exact loopInv_running _ _ _
          ⟨cursorInv_split _ pre r post hrow hcy (by simp only; exact size_nonneg _)
            (by simp only; rw [hr]), hr0, hsr⟩
      · exact loopInv_running _ _ _ h
    rw [if_neg h5]
    by_cases h6 : c = CTRL_KEY 'f'
    · rw [if_pos h6]
      split
      · exact loopInv_blocked
      · rename_i E1 rest hf
        exact loopInv_running _ _ _ (editorFind_inv _ _ _ _ h hf)
    rw [if_neg h6]
    by_cases h7 : c = BACKSPACE ∨ c = DEL_KEY ∨ c = CTRL_KEY 'h'
    · rw [if_pos h7]
      have hE1 : LoopInv (if c = DEL_KEY then editorMoveCursor E ARROW_RIGHT else E) := by
        split_ifs
        · exact loopInv_moveCursor E _ h
        · exact h
      obtain ⟨a, b, d⟩ := editorDelChar_inv _ hE1.1
      exact loopInv_running _ _ _ ⟨a, by rw [b]; exact hE1.2.1, by rw [d]; exact hE1.2.2⟩
    rw [if_neg h7]
    by_cases h8 : c = PAGE_UP ∨ c = PAGE_DOWN
    · rw [if_pos h8]
      have hE1 : ∀ E1 : editorConfig, E1.row = E.row → E1.cx = E.cx → E1.rowoff = E.rowoff →
          E1.screenrows = E.screenrows → 0 ≤ E1.cy → E1.cy ≤ E1.numrows → ∀ key,
          LoopInv (editorMoveCursor.times E1.screenrows.toNat E1 key) := by
        intro E1 e1 e2 e3 e4 e5 e6 key
        obtain ⟨a, b, d⟩ := editorMoveCursor_times_inv E1.screenrows.toNat E1 key
          (by rw [e4]; omega) e5 e6 (by rw [e2]; exact hx0)
        exact ⟨a, by rw [b, e3]; exact hr0, by rw [d, e4]; exact hsr⟩
      apply loopInv_running
      apply hE1
      · split_ifs <;> rfl
      · split_ifs <;> rfl
      · split_ifs <;> rfl
      · split_ifs <;> rfl
      · split_ifs <;> (try simp only [editorConfig.numrows] at *) <;> omega
      · split_ifs <;> (try simp only [editorConfig.numrows] at *) <;> omega
    rw [if_neg h8]
    by_cases h9 : c = ARROW_UP ∨ c = ARROW_DOWN ∨ c = ARROW_LEFT ∨ c = ARROW_RIGHT
    · rw [if_pos h9]
      exact loopInv_running _ _ _ (loopInv_moveCursor E c h)
    rw [if_neg h9]
    by_cases h10 : c = CTRL_KEY 'l' ∨ c = (ESC : Int)
    · rw [if_pos h10]
      exact loopInv_running _ _ _ h
    rw [if_neg h10]
    obtain ⟨a, b, d⟩ := editorInsertChar_inv E c h.1
    exact loopInv_running _ _ _ ⟨a, by rw [b]; exact hr0, by rw [d]; exact hsr⟩

/-! ## the main loop -/

theorem editorOpen_loop_eq (lines : List (List Nat)) (E : editorConfig) :
    editorOpen.loop E lines
      = { E with
          row := E.row ++ lines.map (fun l => editorUpdateRow { chars := stripEol l, render := [] })
          dirty := E.dirty + lines.length } := by
  induction lines generalizing E with
  | nil => simp [editorOpen.loop]
  | cons l ls ih =>
    have := ih (editorInsertRow E E.numrows (stripEol l))
    simp only [editorOpen.loop, List.foldl_cons] at this ⊢
    rw [this, editorInsertRow_append]
    simp only [List.map_cons, List.length_cons, List.append_assoc, List.singleton_append,
      editorConfig.mk.injEq, true_and, and_true]
    omega

theorem mainStart_loopInv (rows cols : Int) (arg : Option (List Nat × Option (List Nat)))
    (W : World) (hscreen : 1 ≤ (initEditor rows cols).screenrows) :
    ∀ E ∈ (mainStart rows cols arg W).config, LoopInv E := by
  have h0 : LoopInv (initEditor rows cols) :=
    ⟨cursorInv_col0 _ (le_refl _) (by simp [initEditor, editorConfig.numrows]) rfl, le_refl _,
      hscreen⟩
  unfold mainStart
  simp only []
  split
  · exact loopInv_running _ _ _ h0
  · intro E hE; simp [Proc.config] at hE
  · rename_i name contents
    apply loopInv_running
    simp only [editorOpen, editorOpen_loop_eq]
    exact ⟨cursorInv_col0 _ (le_refl _) (by simp [initEditor, editorConfig.numrows]) rfl,
      le_refl _, hscreen⟩

theorem mainStep_loopInv (p : Proc) (h : ∀ E ∈ p.config, LoopInv E) :
    ∀ E ∈ (mainStep p).config, LoopInv E := by
  cases p with
  | running E q W =>
    have hE : LoopInv E := h E (by simp [Proc.config])
    obtain ⟨hs, hro⟩ := editorScroll_loopInv E hE
    exact editorProcessKeypress_loopInv _ q W hs hro
  | exited E W => exact h
  | died => exact h
  | blocked => exact h

theorem mainLoop_loopInv (n : Nat) (p : Proc) (h : ∀ E ∈ p.config, LoopInv E) :
    ∀ E ∈ (mainLoop n p).config, LoopInv E := by
  induction n generalizing p with
  | zero => exact h
  | succ n ih => exact ih (mainStep p) (mainStep_loopInv p h)

/-- C1: the cursor invariant `0 <= cy <= numrows`, `0 <= cx <= len(row cy)`
(`len` being 0 on the virtual row) holds in the state with which `main`
enters its loop and in the state after any number of iterations of the loop
(`editorRefreshScreen`, hence `editorScroll`, followed by
`editorProcessKeypress`), whatever the keys, the loaded file and the answers
of the operating system, provided the screen has at least one text row.
Moreover one iteration started in any state that satisfies the invariant and
has a row offset that is not negative ends in such a state again. -/
theorem cursor_invariant_main_loop (rows cols : Int)
    (arg : Option (List Nat × Option (List Nat))) (W : World)
    (hscreen : 1 ≤ (initEditor rows cols).screenrows) (n : Nat) :
    (∀ E ∈ (mainLoop n (mainStart rows cols arg W)).config, CursorInv E)
    ∧ (∀ (E : editorConfig) (q : Int) (W1 : World),
        CursorInv E → 0 ≤ E.rowoff → 1 ≤ E.screenrows →
        ∀ E1 ∈ (mainStep (Proc.running E q W1)).config,
          CursorInv E1 ∧ 0 ≤ E1.rowoff ∧ 1 ≤ E1.screenrows) :=
  ⟨fun E hE => (mainLoop_loopInv n _ (mainStart_loopInv rows cols arg W hscreen) E hE).1,
   fun E q W1 hc hr hs E1 hE1 =>
     mainStep_loopInv (Proc.running E q W1)
       (loopInv_running E q W1 ⟨hc, hr, hs⟩) E1 hE1⟩

set_option maxRecDepth 100000 in
/-- C1 on a concrete run: a file of two rows is loaded on a 5 x 80 terminal
and the keys End, `x`, PageDown, Backspace, Enter are processed; the process
is still running and its state satisfies the cursor invariant. -/
theorem cursor_invariant_main_loop_witness :
    (1 : Int) ≤ (initEditor 5 80).screenrows
    ∧ (mainLoop 5 (mainStart 5 80 (some ([102], some [97, 98, 10, 99, 10]))
          (keysOnly [END_KEY, 120, PAGE_DOWN, BACKSPACE, 13]))).config.map
        (fun E => (E.cx, E.cy, E.row.map erow.chars)) = some (0, 3, [[97, 98, 120], [99], []])
    ∧ ∀ E ∈ (mainLoop 5 (mainStart 5 80 (some ([102], some [97, 98, 10, 99, 10]))
          (keysOnly [END_KEY, 120, PAGE_DOWN, BACKSPACE, 13]))).config, CursorInv E :=
  ⟨by decide, by decide,
   (cursor_invariant_main_loop 5 80 (some ([102], some [97, 98, 10, 99, 10]))
      (keysOnly [END_KEY, 120, PAGE_DOWN, BACKSPACE, 13]) (by decide) 5).1⟩

/-! ## render consistency of the reachable documents -/

theorem docOk_of_row_eq (E E1 : editorConfig) (hrow : E1.row = E.row) (h : DocOk E) :
    DocOk E1 := by
  intro r hr
  rw [hrow] at hr
  exact h r hr

theorem docOk_replace (pre post : List erow) (x y : erow)
    (h : ∀ r ∈ pre ++ x :: post, RenderOk r) (hy : RenderOk y) :
    ∀ r ∈ pre ++ y :: post, RenderOk r := by
  intro r hr
  simp only [List.mem_append, List.mem_cons] at hr
  rcases hr with hr | hr | hr
  · exact h r (List.mem_append_left _ hr)
  · rw [hr]; exact hy
  · exact h r (List.mem_append_right _ (List.mem_cons_of_mem _ hr))

theorem editorInsertNewline_docOk (E : editorConfig) (h : CursorInv E) (hd : DocOk E) :
    DocOk (editorInsertNewline E) := by
  obtain ⟨hy0, hy1, hx0, hx1⟩ := h
  by_cases hc : E.cx = 0
  · have hrow : E.row = E.row.take E.cy.toNat ++ E.row.drop E.cy.toNat :=
      (List.take_append_drop _ _).symm
    have hn : E.cy.toNat ≤ E.row.length := by
      simp only [editorConfig.numrows] at hy1; omega
    have hcy : E.cy = ((E.row.take E.cy.toNat).length : Int) := by
      simp only [List.length_take]; omega
    rw [editorInsertNewline_col0_shape E _ _ hrow hcy hc]
    intro r hr
    simp only [List.mem_append, List.mem_cons] at hr
    rcases hr with hr | hr | hr
    · exact hd r (List.mem_of_mem_take hr)
    · rw [hr]; rfl
    · exact hd r (List.mem_of_mem_drop hr)
  · have hlt : E.cy < E.numrows := by
      by_contra hge
      rw [if_neg hge] at hx1
      omega
    obtain ⟨pre, r0, post, hrow, hcy, hr0⟩ := rows_split E hy0 hlt
    rw [editorInsertNewline_split_shape E pre r0 post hrow hcy hc]
    intro r hr
    simp only [List.mem_append, List.mem_cons] at hr
    rcases hr with hr | hr | hr | hr
    · exact hd r (by rw [hrow]; exact List.mem_append_left _ hr)
    · rw [hr]; exact renderOk_editorUpdateRow _
    · rw [hr]; exact renderOk_editorUpdateRow _
    · exact hd r (by rw [hrow]; exact List.mem_append_right _ (List.mem_cons_of_mem _ hr))

theorem editorDelChar_docOk (E : editorConfig) (h : CursorInv E) (hd : DocOk E) :
    DocOk (editorDelChar E) := by
  obtain ⟨hy0, hy1, hx0, hx1⟩ := h
  by_cases hv : E.cy = E.numrows
  · rw [editorDelChar_virtual E hv]; exact hd
  · have hlt : E.cy < E.numrows := by omega
    rw [if_pos hlt] at hx1
    by_cases hc : E.cx = 0
    · by_cases hz : E.cy = 0
      · rw [editorDelChar_origin E hc hz]; exact hd
      · obtain ⟨pre, a, b, post, hrow, hcy, ha, hb⟩ := rows_split_two E (by omega) hlt
        rw [editorDelChar_join_shape E pre a b post hrow hcy hc]
        intro r hr
        simp only [List.mem_append, List.mem_cons] at hr
        rcases hr with hr | hr | hr
        · exact hd r (by rw [hrow]; exact List.mem_append_left _ hr)
        · rw [hr]; exact renderOk_editorUpdateRow _
        · exact hd r (by
            rw [hrow]
            exact List.mem_append_right _ (List.mem_cons_of_mem _ (List.mem_cons_of_mem _ hr)))
    · obtain ⟨pre, r, post, hrow, hcy, hr⟩ := rows_split E hy0 hlt
      rw [hr] at hx1
      rw [editorDelChar_char_shape E pre r post hrow hcy (by omega) hx1]
      exact docOk_replace pre post r _ (by rw [← hrow]; exact hd) (renderOk_editorUpdateRow _)

theorem editorInsertChar_docOk (E : editorConfig) (c : Int) (h : CursorInv E) (hd : DocOk E) :
    DocOk (editorInsertChar E c) := by
  obtain ⟨hy0, hy1, hx0, hx1⟩ := h
  by_cases hv : E.cy = E.numrows
  · have hlt : ¬ E.cy < E.numrows := by omega
    rw [if_neg hlt] at hx1
    have hcx : E.cx = 0 := by omega
    rw [editorInsertChar_virtual_shape E c hv hcx]
    intro r hr
    simp only [List.mem_append, List.mem_singleton] at hr
    rcases hr with hr | hr
    · exact hd r hr
    · rw [hr]; exact renderOk_editorUpdateRow _
  · have hlt : E.cy < E.numrows := by omega
    rw [if_pos hlt] at hx1
    obtain ⟨pre, r, post, hrow, hcy, hr⟩ := rows_split E hy0 hlt
    rw [hr] at hx1
    rw [editorInsertChar_row_shape E pre r post c hrow hcy hx0 hx1]
    exact docOk_replace pre post r _ (by rw [← hrow]; exact hd) (renderOk_editorUpdateRow _)

theorem editorFind_loop_row (E : editorConfig) (query : List Nat) (rows : List erow) (i : Int) :
    (editorFind.loop E query rows i).row = E.row := by
  induction rows generalizing i with
  | nil => rfl
  | cons r rs ih =>
    rw [editorFind.loop]
    split
    · rfl
    · exact ih (i + 1)

theorem editorFind_row (E : editorConfig) (keys : List Int) (E1 : editorConfig)
    (rest : List Int) (hf : editorFind E keys = some (E1, rest)) : E1.row = E.row := by
  unfold editorFind editorPrompt at hf
  split at hf
  · simp at hf
  · rename_i E2 rest2 hp
    simp only [Option.some.injEq, Prod.mk.injEq] at hf
    rw [← hf.1]
    exact (editorPrompt_loop_sameDoc _ _ _ _ _ _ hp).2.2.1
  · rename_i E2 query rest2 hp
    simp only [Option.some.injEq, Prod.mk.injEq] at hf
    rw [← hf.1, editorFind_loop_row]
    exact (editorPrompt_loop_sameDoc _ _ _ _ _ _ hp).2.2.1

theorem editorMoveCursor_times_row (n : Nat) (E : editorConfig) (key : Int) :
    (editorMoveCursor.times n E key).row = E.row := by
  induction n generalizing E with
  | zero => rfl
  | succ n ih => rw [editorMoveCursor.times, ih, (editorMoveCursor_frame E key).1]

theorem docOk_running (X : editorConfig) (q : Int) (W : World) (h : DocOk X) :
    ∀ E1 ∈ (Proc.running X q W).config, DocOk E1 := by
  intro E1 hE1
  simp only [Proc.config, Option.mem_def, Option.some.injEq] at hE1
  rw [← hE1]; exact h

theorem docOk_none (p : Proc) (hp : p.config = none) : ∀ E1 ∈ p.config, DocOk E1 := by
  intro E1 hE1
  rw [hp] at hE1
  simp at hE1

theorem editorProcessKeypress_docOk (E : editorConfig) (q : Int) (W : World)
    (h : LoopInv E) (hd : DocOk E) :
    ∀ E1 ∈ (editorProcessKeypress E q W).config, DocOk E1 := by
  unfold editorProcessKeypress
  cases hk : W.keys with
  | nil => exact docOk_none _ rfl
  | cons c keys =>
    simp only []
    by_cases h1 : c = (CR : Int)
    · rw [if_pos h1]
      exact docOk_running _ _ _ (editorInsertNewline_docOk E h.1 hd)
    rw [if_neg h1]
    by_cases h2 : c = CTRL_KEY 'q'
    · rw [if_pos h2]
      split_ifs
      · exact docOk_running _ _ _ hd
      · intro E1 hE1
        simp only [Proc.config, Option.mem_def, Option.some.injEq] at hE1
        rw [← hE1]; exact hd
    rw [if_neg h2]
    by_cases h3 : c = CTRL_KEY 's'
    · rw [if_pos h3]
      split
      · exact docOk_none _ rfl
      · rename_i E1 W2 hs
        exact docOk_running _ _ _ (docOk_of_row_eq E _ (editorSave_sameDoc _ _ _ _ hs).2.2.1 hd)
    rw [if_neg h3]
    by_cases h4 : c = HOME_KEY
    · rw [if_pos h4]
      exact docOk_running _ _ _ (docOk_of_row_eq E _ rfl hd)
    rw [if_neg h4]
    by_cases h5 : c = END_KEY
    · rw [if_pos h5]
      split_ifs
      · exact docOk_running _ _ _ (docOk_of_row_eq E _ rfl hd)
      · exact docOk_running _ _ _ hd
    rw [if_neg h5]
    by_cases h6 : c = CTRL_KEY 'f'
    · rw [if_pos h6]
      split
      · exact docOk_none _ rfl
      · rename_i E1 rest hf
        exact docOk_running _ _ _ (docOk_of_row_eq E _ (editorFind_row _ _ _ _ hf) hd)
    rw [if_neg h6]
    by_cases h7 : c = BACKSPACE ∨ c = DEL_KEY ∨ c = CTRL_KEY 'h'
    · rw [if_pos h7]
      have hE1 : LoopInv (if c = DEL_KEY then editorMoveCursor E ARROW_RIGHT else E)
          ∧ DocOk (if c = DEL_KEY then editorMoveCursor E ARROW_RIGHT else E) := by
        split_ifs
        · exact ⟨loopInv_moveCursor E _ h,
            docOk_of_row_eq E _ (editorMoveCursor_frame E _).1 hd⟩
        · exact ⟨h, hd⟩
      exact docOk_running _ _ _ (editorDelChar_docOk _ hE1.1.1 hE1.2)
    rw [if_neg h7]
    by_cases h8 : c = PAGE_UP ∨ c = PAGE_DOWN
    · rw [if_pos h8]
      apply docOk_running
      apply docOk_of_row_eq E _ _ hd
      rw [editorMoveCursor_times_row]
      split_ifs <;> rfl
    rw [if_neg h8]
    by_cases h9 : c = ARROW_UP ∨ c = ARROW_DOWN ∨ c = ARROW_LEFT ∨ c = ARROW_RIGHT
    · rw [if_pos h9]
      exact docOk_running _ _ _ (docOk_of_row_eq E _ (editorMoveCursor_frame E _).1 hd)
    rw [if_neg h9]
    by_cases h10 : c = CTRL_KEY 'l' ∨ c = (ESC : Int)
    · rw [if_pos h10]
      exact docOk_running _ _ _ hd
    rw [if_neg h10]
    exact docOk_running _ _ _ (editorInsertChar_docOk E c h.1 hd)

theorem mainStep_docOk (p : Proc) (h : ∀ E ∈ p.config, LoopInv E ∧ DocOk E) :
    ∀ E ∈ (mainStep p).config, LoopInv E ∧ DocOk E := by
  cases p with
  | running E q W =>
    obtain ⟨hE, hd⟩ := h E (by simp [Proc.config])
    obtain ⟨hs, hro⟩ := editorScroll_loopInv E hE
    have hds : DocOk (editorScroll E) := docOk_of_row_eq E _ (editorScroll_frame E).2.2.1 hd
    intro E1 hE1
    exact ⟨editorProcessKeypress_loopInv _ q W hs hro E1 hE1,
      editorProcessKeypress_docOk _ q W hs hds E1 hE1⟩
  | exited E W => exact h
  | died => exact h
  | blocked => exact h

/-- Every row of every state that the main loop reaches has render bytes
derived from its content, provided the screen has at least one text row. -/
theorem mainLoop_docOk (rows cols : Int) (arg : Option (List Nat × Option (List Nat)))
    (W : World) (hscreen : 1 ≤ (initEditor rows cols).screenrows) (n : Nat) :
    ∀ E ∈ (mainLoop n (mainStart rows cols arg W)).config, DocOk E := by
  have hstart : ∀ E ∈ (mainStart rows cols arg W).config, LoopInv E ∧ DocOk E := by
    intro E hE
    refine ⟨mainStart_loopInv rows cols arg W hscreen E hE, ?_⟩
    unfold mainStart at hE
    simp only [] at hE
    split at hE
    · simp only [Proc.config, Option.mem_def, Option.some.injEq] at hE
      rw [← hE]; intro r hr; simp [initEditor] at hr
    · simp [Proc.config] at hE
    · simp only [Proc.config, Option.mem_def, Option.some.injEq] at hE
      rw [← hE]
      intro r hr
      simp only [editorOpen, editorOpen_loop_eq, initEditor, List.nil_append,
        List.mem_map] at hr
      obtain ⟨l, _, hl⟩ := hr
      rw [← hl]; exact renderOk_editorUpdateRow _
  have hloop : ∀ (n : Nat) (p : Proc), (∀ E ∈ p.config, LoopInv E ∧ DocOk E) →
      ∀ E ∈ (mainLoop n p).config, LoopInv E ∧ DocOk E := by
    intro n
    induction n with
    | zero => intro p h; exact h
    | succ n ih => intro p h; exact ih (mainStep p) (mainStep_docOk p h)
  intro E hE
  exact (hloop n _ hstart E hE).2

/-! ## the two column mappings -/

theorem advanceRx_gt (c : Nat) (rx : Int) : rx + 1 ≤ advanceRx c rx := by
  unfold advanceRx
  simp only [EDITOR_TAB_STOP]
  split_ifs <;> omega

theorem cxToRx_loop_nonneg (chars : List Nat) (n : Nat) :
    0 ≤ editorRowCxToRx.loop chars n := by
  induction n with
  | zero => simp [editorRowCxToRx.loop]
  | succ n ih =>
    rw [editorRowCxToRx.loop]
    have := advanceRx_gt (chars.getD n 0) (editorRowCxToRx.loop chars n)
    omega

theorem cxToRx_loop_succ_gt (chars : List Nat) (n : Nat) :
    editorRowCxToRx.loop chars n + 1 ≤ editorRowCxToRx.loop chars (n + 1) := by
  rw [editorRowCxToRx.loop]
  exact advanceRx_gt _ _

theorem cxToRx_loop_mono (chars : List Nat) (a b : Nat) (h : a ≤ b) :
    editorRowCxToRx.loop chars a + ((b - a : Nat) : Int) ≤ editorRowCxToRx.loop chars b := by
  induction b with
  | zero =>
    have : a = 0 := by omega
    subst this; simp
  | succ b ih =>
    by_cases hab : a = b + 1
    · subst hab; simp
    · have h1 := ih (by omega)
      have h2 := cxToRx_loop_succ_gt chars b
      have h3 : ((b + 1 - a : Nat) : Int) = ((b - a : Nat) : Int) + 1 := by omega
      omega

theorem rxToCx_loop_eq (chars : List Nat) (m : Nat) (hm : m ≤ chars.length) (d : Nat) :
    ∀ k : Nat, k ≤ m → chars.length - k = d →
      editorRowRxToCx.loop (editorRowCxToRx.loop chars m) (chars.drop k) (k : Int)
        (editorRowCxToRx.loop chars k) = (m : Int) := by
  induction d with
  | zero =>
    intro k hk hd
    have hkl : chars.length ≤ k := by omega
    rw [List.drop_eq_nil_of_le hkl, editorRowRxToCx.loop]
    have : k = m := by omega
    rw [this]
  | succ d ih =>
    intro k hk hd
    have hkl : k < chars.length := by omega
    rw [List.drop_eq_getElem_cons hkl, editorRowRxToCx.loop]
    have hstep : advanceRx chars[k] (editorRowCxToRx.loop chars k)
        = editorRowCxToRx.loop chars (k + 1) := by
      rw [editorRowCxToRx.loop, List.getD_eq_getElem _ _ hkl]
    rw [hstep]
    by_cases hgt : editorRowCxToRx.loop chars (k + 1) > editorRowCxToRx.loop chars m
    · rw [if_pos hgt]
      by_cases hkm : k = m
      · rw [hkm]
      · exfalso
        have := cxToRx_loop_mono chars (k + 1) m (by omega)
        omega
    · rw [if_neg hgt]
      have hkm : k + 1 ≤ m := by
        by_contra hcon
        have hk2 : k = m := by omega
        have := cxToRx_loop_succ_gt chars k
        rw [hk2] at this hgt
        omega
      have := ih (k + 1) hkm (by omega)
      push_cast at this
      exact this

theorem cxToRx_loop_tabfree (chars : List Nat) (h : ∀ x ∈ chars, x ≠ TAB) (n : Nat)
    (hn : n ≤ chars.length) : editorRowCxToRx.loop chars n = (n : Int) := by
  induction n with
  | zero => simp [editorRowCxToRx.loop]
  | succ n ih =>
    have hlt : n < chars.length := hn
    have hc : chars.getD n 0 ≠ TAB := by
      rw [List.getD_eq_getElem _ _ hlt]
      exact h _ (List.getElem_mem _)
    rw [editorRowCxToRx.loop, ih (Nat.le_of_lt hlt), advanceRx, if_neg hc]
    push_cast
    rfl

/-- C12: on a row whose content holds no tab, `editorRowCxToRx(row, cx)` is
`cx` for every column `0 <= cx <= size`. -/
theorem editorRowCxToRx_tabfree (row : erow) (h : ∀ x ∈ row.chars, x ≠ TAB) (cx : Int)
    (h0 : 0 ≤ cx) (h1 : cx ≤ row.size) : editorRowCxToRx row cx = cx := by
  have hm : cx.toNat ≤ row.chars.length := by
    simp only [erow.size] at h1; omega
  rw [editorRowCxToRx, cxToRx_loop_tabfree row.chars h cx.toNat hm]
  omega

/-- C12 on a concrete row: in `abc` column 3 maps to render column 3. -/
theorem editorRowCxToRx_tabfree_witness :
    editorRowCxToRx { chars := [97, 98, 99], render := [] } 3 = 3 :=
  editorRowCxToRx_tabfree { chars := [97, 98, 99], render := [] } (by decide) 3
    (by decide) (by decide)

/-! ## the viewport -/

theorem editorScroll_eq (E : editorConfig) :
    editorScroll E = editorScroll.cols (editorScroll.rows (editorScroll.setRx E)) := rfl

theorem editorScroll_setRx_fields (E : editorConfig) :
    (editorScroll.setRx E).rx
        = (if E.cy < E.numrows then editorRowCxToRx (E.rowAt E.cy) E.cx else 0)
    ∧ (editorScroll.setRx E).cy = E.cy ∧ (editorScroll.setRx E).rowoff = E.rowoff
    ∧ (editorScroll.setRx E).coloff = E.coloff
    ∧ (editorScroll.setRx E).screenrows = E.screenrows
    ∧ (editorScroll.setRx E).screencols = E.screencols := by
  unfold editorScroll.setRx
  simp only []
  by_cases hv : E.cy < E.numrows
  · have hv1 : E.cy < ({ E with rx := 0 } : editorConfig).numrows := hv
    rw [if_pos hv1, if_pos hv]
    exact ⟨rfl, rfl, rfl, rfl, rfl, rfl⟩
  · have hv1 : ¬ E.cy < ({ E with rx := 0 } : editorConfig).numrows := hv
    rw [if_neg hv1, if_neg hv]
    exact ⟨rfl, rfl, rfl, rfl, rfl, rfl⟩

theorem editorScroll_rows_fields (E : editorConfig) :
    (editorScroll.rows E).rowoff
        = (if E.cy ≥ (if E.cy < E.rowoff then E.cy else E.rowoff) + E.screenrows
            then E.cy - E.screenrows + 1
            else (if E.cy < E.rowoff then E.cy else E.rowoff))
    ∧ (editorScroll.rows E).rx = E.rx ∧ (editorScroll.rows E).coloff = E.coloff
    ∧ (editorScroll.rows E).screencols = E.screencols := by
  unfold editorScroll.rows
  simp only []
  by_cases h1 : E.cy < E.rowoff
  · simp only [if_pos h1]
    split_ifs <;> exact ⟨rfl, rfl, rfl, rfl⟩
  · simp only [if_neg h1]
    split_ifs <;> exact ⟨rfl, rfl, rfl, rfl⟩

theorem editorScroll_cols_fields (E : editorConfig) :
    (editorScroll.cols E).coloff
        = (if E.rx ≥ (if E.rx < E.coloff then E.rx else E.coloff) + E.screencols
            then E.rx - E.screencols + 1
            else (if E.rx < E.coloff then E.rx else E.coloff))
    ∧ (editorScroll.cols E).rx = E.rx ∧ (editorScroll.cols E).rowoff = E.rowoff := by
  unfold editorScroll.cols
  simp only []
  by_cases h1 : E.rx < E.coloff
  · simp only [if_pos h1]
    split_ifs <;> exact ⟨rfl, rfl, rfl⟩
  · simp only [if_neg h1]
    split_ifs <;> exact ⟨rfl, rfl, rfl⟩

theorem editorScroll_fields (E : editorConfig) :
    (editorScroll E).rx
        = (if E.cy < E.numrows then editorRowCxToRx (E.rowAt E.cy) E.cx else 0)
    ∧ (editorScroll E).rowoff
        = (if E.cy ≥ (if E.cy < E.rowoff then E.cy else E.rowoff) + E.screenrows
            then E.cy - E.screenrows + 1
            else (if E.cy < E.rowoff then E.cy else E.rowoff))
    ∧ (editorScroll E).coloff
        = (if (editorScroll E).rx
              ≥ (if (editorScroll E).rx < E.coloff then (editorScroll E).rx else E.coloff)
                  + E.screencols
            then (editorScroll E).rx - E.screencols + 1
            else (if (editorScroll E).rx < E.coloff then (editorScroll E).rx else E.coloff)) := by
  obtain ⟨a1, a2, a3, a4, a5, a6⟩ := editorScroll_setRx_fields E
  obtain ⟨b1, b2, b3, b4⟩ := editorScroll_rows_fields (editorScroll.setRx E)
  obtain ⟨c1, c2, c3⟩ := editorScroll_cols_fields (editorScroll.rows (editorScroll.setRx E))
  rw [editorScroll_eq]
  refine ⟨by rw [c2, b2, a1], ?_, ?_⟩
  · rw [c3, b1, a2, a3, a5]
  · rw [c1, c2, b2, b3, b4, a4, a6]

/-- C14: with a screen of at least one row and one column, after
`editorScroll` the field `rx` is `editorRowCxToRx(row[cy], cx)` (0 on the
virtual row), the cursor is inside the window on both axes, an offset under
which the cursor was already visible is unchanged, and otherwise the offset is
`cy` (resp. `rx`) when the cursor was above (left of) the window and
`cy - screenrows + 1` (resp. `rx - screencols + 1`) when it was below (right
of) it. -/
theorem editorScroll_viewport (E : editorConfig) (hrows : 1 ≤ E.screenrows)
    (hcols : 1 ≤ E.screencols) :
    (editorScroll E).rx
        = (if E.cy < E.numrows then editorRowCxToRx (E.rowAt E.cy) E.cx else 0)
    ∧ ((editorScroll E).rowoff ≤ E.cy ∧ E.cy < (editorScroll E).rowoff + E.screenrows)
    ∧ ((editorScroll E).coloff ≤ (editorScroll E).rx
        ∧ (editorScroll E).rx < (editorScroll E).coloff + E.screencols)
    ∧ (E.rowoff ≤ E.cy → E.cy < E.rowoff + E.screenrows → (editorScroll E).rowoff = E.rowoff)
    ∧ (E.cy < E.rowoff → (editorScroll E).rowoff = E.cy)
    ∧ (E.rowoff + E.screenrows ≤ E.cy → (editorScroll E).rowoff = E.cy - E.screenrows + 1)
    ∧ (E.coloff ≤ (editorScroll E).rx → (editorScroll E).rx < E.coloff + E.screencols →
        (editorScroll E).coloff = E.coloff)
    ∧ ((editorScroll E).rx < E.coloff → (editorScroll E).coloff = (editorScroll E).rx)
    ∧ (E.coloff + E.screencols ≤ (editorScroll E).rx →
        (editorScroll E).coloff = (editorScroll E).rx - E.screencols + 1)
    ∧ (editorScroll E).cx = E.cx ∧ (editorScroll E).cy = E.cy
    ∧ (editorScroll E).row = E.row := by
  obtain ⟨hrx, hro, hco⟩ := editorScroll_fields E
  obtain ⟨fx, fy, frow, _, _, _⟩ := editorScroll_frame E
  refine ⟨hrx, ⟨?_, ?_⟩, ⟨?_, ?_⟩, ?_, ?_, ?_, ?_, ?_, ?_, fx, fy, frow⟩
  · rw [hro]; split_ifs <;> omega
  · rw [hro]; split_ifs <;> omega
  · rw [hco]; split_ifs <;> omega
  · rw [hco]; split_ifs <;> omega
  · intro h1 h2; rw [hro]; split_ifs <;> omega
  · intro h1; rw [hro]; split_ifs <;> omega
  · intro h1; rw [hro]; split_ifs <;> omega
  · intro h1 h2; rw [hco]; split_ifs <;> omega
  · intro h1; rw [hco]; split_ifs <;> omega
  · intro h1; rw [hco]; split_ifs <;> omega

/-- C14, the scenario of the specification: with a window of 10 rows at
offset 0 and the cursor on row 25, `editorScroll` sets the offset to 16. -/
theorem editorScroll_viewport_witness :
    (editorScroll { initEditor 12 80 with cy := 25 }).rowoff = 16 :=
  ((editorScroll_viewport { initEditor 12 80 with cy := 25 } (by decide) (by decide)).2.2.2.2.2.1
    (by decide)).trans (by decide)

/-! ## serialised format and save -/

theorem rowsBytes_length (rows : List erow) :
    ((rowsBytes rows).length : Int) = (rows.map (fun r => r.size + 1)).sum := by
  induction rows with
  | nil => simp [rowsBytes]
  | cons r rs ih =>
    simp only [rowsBytes, List.length_append, List.length_cons, List.map_cons, List.sum_cons,
      erow.size] at ih ⊢
    push_cast
    omega

/-- C15: `editorRowsToString` returns the content of every row followed by
one line feed, in row order, and a `buflen` that is the sum over the rows of
`size + 1`, which is the number of bytes returned; for the empty document it
returns no byte and `buflen` 0. -/
theorem editorRowsToString_format (E : editorConfig) :
    (editorRowsToString E).1 = rowsBytes E.row
    ∧ (editorRowsToString E).2 = (E.row.map (fun r => r.size + 1)).sum
    ∧ (editorRowsToString E).2 = ((editorRowsToString E).1.length : Int)
    ∧ (E.row = [] → editorRowsToString E = ([], 0)) := by
  rw [editorRowsToString_eq]
  refine ⟨rfl, rowsBytes_length E.row, rfl, ?_⟩
  intro h
  rw [h]
  rfl

/-- C15 on a concrete document: the rows `ab`, (empty) serialise to `ab\n\n`,
4 bytes. -/
theorem editorRowsToString_format_witness :
    editorRowsToString (docOf [[97, 98], []] 0 0) = ([97, 98, 10, 10], 4)
    ∧ editorRowsToString (docOf [] 0 0) = ([], 0) :=
  ⟨by decide, (editorRowsToString_format (docOf [] 0 0)).2.2.2 rfl⟩

theorem ftruncate_length (file : List Nat) (len : Nat) : (ftruncate file len).length = len := by
  simp only [ftruncate, List.length_append, List.length_take, List.length_replicate]
  omega

theorem editorSave_write_ok (E : editorConfig) (W : World) (o : SaveOutcome)
    (os : List SaveOutcome) (hos : W.os = o :: os) (h1 : o.openOk = true)
    (h2 : o.truncateOk = true) (h3 : o.written = (editorRowsToString E).2) :
    editorSave.write E W
      = ({ E with dirty := 0 }, { W with os := os, disk := (editorRowsToString E).1 }) := by
  have hlen : (editorRowsToString E).2 = ((editorRowsToString E).1.length : Int) := by
    rw [editorRowsToString_eq]
  have hn : o.written.toNat = (editorRowsToString E).1.length := by rw [h3, hlen]; simp
  have hd : List.take o.written.toNat (editorRowsToString E).1
      ++ List.drop o.written.toNat (ftruncate W.disk (editorRowsToString E).2.toNat)
      = (editorRowsToString E).1 := by
    rw [hn, List.take_length, List.drop_eq_nil_of_le, List.append_nil]
    rw [ftruncate_length, hlen]
    simp
  simp only [editorSave.write, hos, h1, h2, if_true, if_pos h3]
  rw [hd]

theorem editorSave_write_fail (E : editorConfig) (W : World)
    (h : ∀ o os, W.os = o :: os →
      o.openOk = false ∨ o.truncateOk = false ∨ o.written ≠ (editorRowsToString E).2) :
    (editorSave.write E W).1 = E := by
  unfold editorSave.write
  simp only []
  split
  · rfl
  · rename_i o os hos
    rcases h o os hos with h1 | h1 | h1
    · simp [h1]
    · simp [h1]
    · rw [if_neg h1]
      split_ifs <;> rfl

theorem editorSave_bound (E : editorConfig) (W : World) (name : List Nat)
    (hname : E.filename = some name) : editorSave E W = some (editorSave.write E W) := by
  simp only [editorSave, hname]

theorem editorPrompt_loop_frame (keys : List Int) :
    ∀ (E : editorConfig) (buf : List Nat) (E1 : editorConfig) (res : Option (List Nat))
      (rest : List Int),
      editorPrompt.loop E buf keys = some (E1, res, rest) →
        E1.row = E.row ∧ E1.dirty = E.dirty ∧ E1.filename = E.filename := by
  induction keys with
  | nil => intro E buf E1 res rest h; simp [editorPrompt.loop] at h
  | cons c ks ih =>
    intro E buf E1 res rest h
    obtain ⟨_, _, frow, _, fd, ff⟩ := editorScroll_frame E
    have hr : (editorRefreshScreen E).row = E.row ∧ (editorRefreshScreen E).dirty = E.dirty
        ∧ (editorRefreshScreen E).filename = E.filename := ⟨frow, fd, ff⟩
    have step : ∀ buf1, editorPrompt.loop (editorRefreshScreen E) buf1 ks = some (E1, res, rest) →
        E1.row = E.row ∧ E1.dirty = E.dirty ∧ E1.filename = E.filename := by
      intro buf1 h1
      obtain ⟨a, b, d⟩ := ih _ _ _ _ _ h1
      exact ⟨a.trans hr.1, b.trans hr.2.1, d.trans hr.2.2⟩
    rw [editorPrompt.loop] at h
    split_ifs at h with h1 h2 h3 h4 h5
    · exact step _ h
    · simp only [Option.some.injEq, Prod.mk.injEq] at h
      rw [← h.1]; exact hr
    · simp only [Option.some.injEq, Prod.mk.injEq] at h
      rw [← h.1]; exact hr
    · exact step _ h
    · exact step _ h
    · exact step _ h

/-- C16: with a file name bound, when `open`, `ftruncate` and the `write` of
all `len` bytes succeed, `editorSave` sets `dirty` to 0, changes nothing else
in the editor state and leaves the file holding exactly the bytes of
`editorRowsToString`; a second successful save right after leaves `dirty` 0
and the file with the same bytes.  When `open`, `ftruncate` or `write` fails
the editor state, `dirty` and rows included, is unchanged.  With no file name
bound, a cancelled prompt ends `editorSave` without a save attempt: the file,
`dirty` and the rows are unchanged. -/
theorem editorSave_dirty (E : editorConfig) (W : World) :
    (∀ name o os, E.filename = some name → W.os = o :: os → o.openOk = true →
        o.truncateOk = true → o.written = (editorRowsToString E).2 →
        editorSave E W
            = some ({ E with dirty := 0 },
                    { W with os := os, disk := (editorRowsToString E).1 })
        ∧ ∀ o2 os2, os = o2 :: os2 → o2.openOk = true → o2.truncateOk = true →
            o2.written = (editorRowsToString E).2 →
            editorSave { E with dirty := 0 }
                { W with os := os, disk := (editorRowsToString E).1 }
              = some ({ E with dirty := 0 },
                      { W with os := os2, disk := (editorRowsToString E).1 }))
    ∧ (∀ name, E.filename = some name →
        (∀ o os, W.os = o :: os →
          o.openOk = false ∨ o.truncateOk = false ∨ o.written ≠ (editorRowsToString E).2) →
        ∃ W1, editorSave E W = some (E, W1))
    ∧ (∀ E1 rest, E.filename = none → editorPrompt E W.keys = some (E1, none, rest) →
        editorSave E W = some (E1, { W with keys := rest })
        ∧ E1.dirty = E.dirty ∧ E1.row = E.row ∧ E1.filename = none) := by
  refine ⟨?_, ?_, ?_⟩
  · intro name o os hname hos h1 h2 h3
    refine ⟨?_, ?_⟩
    · rw [editorSave_bound E W name hname, editorSave_write_ok E W o os hos h1 h2 h3]
    · intro o2 os2 hos2 g1 g2 g3
      rw [editorSave_bound { E with dirty := 0 } _ name hname,
        editorSave_write_ok { E with dirty := 0 }
          { W with os := os, disk := (editorRowsToString E).1 } o2 os2 hos2 g1 g2 g3]
      rfl
  · intro name hname hfail
    refine ⟨(editorSave.write E W).2, ?_⟩
    rw [editorSave_bound E W name hname]
    have h := editorSave_write_fail E W hfail
    have h2 : editorSave.write E W = (E, (editorSave.write E W).2) :=
      Prod.ext h rfl
    exact congrArg some h2
  · intro E1 rest hname hp
    obtain ⟨a, b, d⟩ := editorPrompt_loop_frame _ _ _ _ _ _ hp
    refine ⟨?_, b, a, d.trans hname⟩
    simp only [editorSave, hname, hp]

/-- C16 on a concrete document: the rows `ab`, `c` with 3 unsaved changes and
the file name `f` are saved with success: `dirty` becomes 0 and the file holds
`ab\nc\n`. -/
theorem editorSave_dirty_witness :
    editorSave { docOf [[97, 98], [99]] 0 0 with dirty := 3, filename := some [102] }
        { keys := [], os := [{ openOk := true, truncateOk := true, written := 5 }],
          disk := [120, 121, 122, 120, 121, 122, 120] }
      = some ({ docOf [[97, 98], [99]] 0 0 with dirty := 0, filename := some [102] },
              { keys := [], os := [], disk := [97, 98, 10, 99, 10] }) :=
  ((editorSave_dirty { docOf [[97, 98], [99]] 0 0 with dirty := 3, filename := some [102] }
      { keys := [], os := [{ openOk := true, truncateOk := true, written := 5 }],
        disk := [120, 121, 122, 120, 121, 122, 120] }).1 [102]
      { openOk := true, truncateOk := true, written := 5 } [] rfl rfl rfl rfl
      (by decide)).1.trans (by decide)

/-! ## quit confirmation -/

theorem processKeypress_quit (E : editorConfig) (q : Int) (W : World) (rest : List Int)
    (hk : W.keys = CTRL_KEY 'q' :: rest) :
    editorProcessKeypress E q W
      = (if E.dirty ≠ 0 ∧ q > 0 then Proc.running E (q - 1) { W with keys := rest }
         else Proc.exited E { W with keys := rest }) := by
  have h1 : ¬ CTRL_KEY 'q' = (CR : Int) := by decide
  unfold editorProcessKeypress
  rw [hk]
  simp only []
  rw [if_neg h1, if_pos trivial]

theorem processKeypress_other (E : editorConfig) (q : Int) (W : World) (c : Int)
    (rest : List Int) (hk : W.keys = c :: rest) (hc : c ≠ CTRL_KEY 'q') :
    (editorProcessKeypress E q W = Proc.blocked ∧ (c = CTRL_KEY 's' ∨ c = CTRL_KEY 'f'))
    ∨ ∃ E1 W1, editorProcessKeypress E q W = Proc.running E1 EDITOR_QUIT_TIMES W1 := by
  unfold editorProcessKeypress
  rw [hk]
  simp only []
  by_cases h1 : c = (CR : Int)
  · rw [if_pos h1]; exact Or.inr ⟨_, _, rfl⟩
  rw [if_neg h1, if_neg hc]
  by_cases h3 : c = CTRL_KEY 's'
  · rw [if_pos h3]
    split
    · exact Or.inl ⟨rfl, Or.inl h3⟩
    · exact Or.inr ⟨_, _, rfl⟩
  rw [if_neg h3]
  by_cases h4 : c = HOME_KEY
  · rw [if_pos h4]; exact Or.inr ⟨_, _, rfl⟩
  rw [if_neg h4]
  by_cases h5 : c = END_KEY
  · rw [if_pos h5]; exact Or.inr ⟨_, _, rfl⟩
  rw [if_neg h5]
  by_cases h6 : c = CTRL_KEY 'f'
  · rw [if_pos h6]
    split
    · exact Or.inl ⟨rfl, Or.inr h6⟩
    · exact Or.inr ⟨_, _, rfl⟩
  rw [if_neg h6]
  by_cases h7 : c = BACKSPACE ∨ c = DEL_KEY ∨ c = CTRL_KEY 'h'
  · rw [if_pos h7]; exact Or.inr ⟨_, _, rfl⟩
  rw [if_neg h7]
  by_cases h8 : c = PAGE_UP ∨ c = PAGE_DOWN
  · rw [if_pos h8]; exact Or.inr ⟨_, _, rfl⟩
  rw [if_neg h8]
  by_cases h9 : c = ARROW_UP ∨ c = ARROW_DOWN ∨ c = ARROW_LEFT ∨ c = ARROW_RIGHT
  · rw [if_pos h9]; exact Or.inr ⟨_, _, rfl⟩
  rw [if_neg h9]
  by_cases h10 : c = CTRL_KEY 'l' ∨ c = (ESC : Int)
  · rw [if_pos h10]; exact Or.inr ⟨_, _, rfl⟩
  rw [if_neg h10]
  exact Or.inr ⟨_, _, rfl⟩

theorem mainStep_quit_dirty (E : editorConfig) (q : Int) (W : World) (rest : List Int)
    (hk : W.keys = CTRL_KEY 'q' :: rest) (hd : E.dirty ≠ 0) (hq : 0 < q) :
    mainStep (Proc.running E q W)
      = Proc.running (editorRefreshScreen E) (q - 1) { W with keys := rest } := by
  have hd2 : (editorRefreshScreen E).dirty ≠ 0 := by
    rw [editorRefreshScreen, (editorScroll_frame E).2.2.2.2.1]; exact hd
  rw [mainStep, processKeypress_quit _ q W rest hk, if_pos ⟨hd2, hq⟩]

theorem mainStep_quit_exit (E : editorConfig) (q : Int) (W : World) (rest : List Int)
    (hk : W.keys = CTRL_KEY 'q' :: rest) (h : E.dirty = 0 ∨ q ≤ 0) :
    mainStep (Proc.running E q W)
      = Proc.exited (editorRefreshScreen E) { W with keys := rest } := by
  have hd2 : (editorRefreshScreen E).dirty = E.dirty := by
    rw [editorRefreshScreen, (editorScroll_frame E).2.2.2.2.1]
  rw [mainStep, processKeypress_quit _ q W rest hk, if_neg]
  rw [hd2]
  rintro ⟨a, b⟩
  rcases h with h | h
  · exact a h
  · omega

/-- C17: the quit counter starts at 3.  A Ctrl-Q pressed while `dirty` is not
0 and the counter is positive decrements the counter and leaves the process
running; a Ctrl-Q pressed while `dirty` is 0 or the counter is 0 ends the
process; no other key ends it, and a key other than Ctrl-Q that is handled
to the end sets the counter back to 3 (Ctrl-S and Ctrl-F can stay blocked in
their prompt).  Hence with unsaved changes three Ctrl-Q in a row leave the
process running with the counter at 2, 1, 0 and the fourth ends it, and with
`dirty` 0 the first Ctrl-Q ends it. -/
theorem quit_confirmation (E : editorConfig) (q : Int) (W : World) (c : Int)
    (rest : List Int) (hk : W.keys = c :: rest) :
    (∀ rows cols arg W0 E0 q0 W1,
        mainStart rows cols arg W0 = Proc.running E0 q0 W1 → q0 = 3)
    ∧ (c = CTRL_KEY 'q' → E.dirty ≠ 0 → 0 < q →
        editorProcessKeypress E q W = Proc.running E (q - 1) { W with keys := rest })
    ∧ (c = CTRL_KEY 'q' → (E.dirty = 0 ∨ q = 0) →
        editorProcessKeypress E q W = Proc.exited E { W with keys := rest })
    ∧ (0 ≤ q → ∀ E1 W1, editorProcessKeypress E q W = Proc.exited E1 W1 →
        c = CTRL_KEY 'q' ∧ (E.dirty = 0 ∨ q = 0))
    ∧ (c ≠ CTRL_KEY 'q' →
        (editorProcessKeypress E q W = Proc.blocked ∧ (c = CTRL_KEY 's' ∨ c = CTRL_KEY 'f'))
        ∨ ∃ E1 W1, editorProcessKeypress E q W = Proc.running E1 EDITOR_QUIT_TIMES W1)
    ∧ (E.dirty ≠ 0 → ∀ rest4,
        W.keys = CTRL_KEY 'q' :: CTRL_KEY 'q' :: CTRL_KEY 'q' :: CTRL_KEY 'q' :: rest4 →
        (∃ E1 W1, mainLoop 1 (Proc.running E EDITOR_QUIT_TIMES W) = Proc.running E1 2 W1)
        ∧ (∃ E2 W2, mainLoop 2 (Proc.running E EDITOR_QUIT_TIMES W) = Proc.running E2 1 W2)
        ∧ (∃ E3 W3, mainLoop 3 (Proc.running E EDITOR_QUIT_TIMES W) = Proc.running E3 0 W3)
        ∧ ∃ E4 W4, mainLoop 4 (Proc.running E EDITOR_QUIT_TIMES W) = Proc.exited E4 W4)
    ∧ (E.dirty = 0 → c = CTRL_KEY 'q' →
        mainLoop 1 (Proc.running E q W)
          = Proc.exited (editorRefreshScreen E) { W with keys := rest }) := by
  refine ⟨?_, ?_, ?_, ?_, ?_, ?_, ?_⟩
  · intro rows cols arg W0 E0 q0 W1 h
    unfold mainStart at h
    simp only [] at h
    split at h
    · simp only [Proc.running.injEq] at h
      rw [← h.2.1]; rfl
    · simp at h
    · simp only [Proc.running.injEq] at h
      rw [← h.2.1]; rfl
  · intro hc hd hq
    subst hc
    rw [processKeypress_quit E q W rest hk, if_pos ⟨hd, hq⟩]
  · intro hc h
    subst hc
    rw [processKeypress_quit E q W rest hk, if_neg]
    rintro ⟨a, b⟩
    rcases h with h | h
    · exact a h
    · omega
  · intro hq E1 W1 h
    by_cases hc : c = CTRL_KEY 'q'
    · refine ⟨hc, ?_⟩
      subst hc
      rw [processKeypress_quit E q W rest hk] at h
      by_contra hcon
      rw [if_pos ⟨fun h0 => hcon (Or.inl h0), by
        by_contra hle
        exact hcon (Or.inr (by omega))⟩] at h
      simp at h
    · exfalso
      rcases processKeypress_other E q W c rest hk hc with ⟨hb, _⟩ | ⟨E2, W2, hr⟩
      · rw [hb] at h; simp at h
      · rw [hr] at h; simp at h
  · exact processKeypress_other E q W c rest hk
  · intro hd rest4 hk4
    have hd1 : (editorRefreshScreen E).dirty ≠ 0 := by
      rw [editorRefreshScreen, (editorScroll_frame E).2.2.2.2.1]; exact hd
    have hd2 : (editorRefreshScreen (editorRefreshScreen E)).dirty ≠ 0 := by
      rw [editorRefreshScreen, (editorScroll_frame _).2.2.2.2.1]; exact hd1
    have hd3 : (editorRefreshScreen (editorRefreshScreen (editorRefreshScreen E))).dirty ≠ 0 := by
      rw [editorRefreshScreen, (editorScroll_frame _).2.2.2.2.1]; exact hd2
    have s1 := mainStep_quit_dirty E EDITOR_QUIT_TIMES W _ hk4 hd (by decide)
    have s2 := mainStep_quit_dirty (editorRefreshScreen E) 2
      { W with keys := CTRL_KEY 'q' :: CTRL_KEY 'q' :: CTRL_KEY 'q' :: rest4 } _ rfl hd1
      (by decide)
    have s3 := mainStep_quit_dirty (editorRefreshScreen (editorRefreshScreen E)) 1
      { W with keys := CTRL_KEY 'q' :: CTRL_KEY 'q' :: rest4 } _ rfl hd2 (by decide)
    have s4 := mainStep_quit_exit
      (editorRefreshScreen (editorRefreshScreen (editorRefreshScreen E))) 0
      { W with keys := CTRL_KEY 'q' :: rest4 } _ rfl (Or.inr (le_refl _))
    have e1 : EDITOR_QUIT_TIMES - 1 = 2 := by decide
    have e2 : (2 : Int) - 1 = 1 := by decide
    have e3 : (1 : Int) - 1 = 0 := by decide
    rw [e1] at s1
    rw [e2] at s2
    rw [e3] at s3
    refine ⟨?_, ?_, ?_, ?_⟩
    · simp only [mainLoop]; rw [s1]; exact ⟨_, _, rfl⟩
    · simp only [mainLoop]; rw [s1, s2]; exact ⟨_, _, rfl⟩
    · simp only [mainLoop]; rw [s1, s2, s3]; exact ⟨_, _, rfl⟩
    · simp only [mainLoop]; rw [s1, s2, s3, s4]; exact ⟨_, _, rfl⟩
  · intro hd hc
    subst hc
    simp only [mainLoop]
    exact mainStep_quit_exit E q W rest hk (Or.inl hd)

/-- C17 on a concrete run: after typing `a` into the empty document the
counter is 3 and three Ctrl-Q leave the process running with the counter at
0; in the unmodified empty document the first Ctrl-Q ends the process. -/
theorem quit_confirmation_witness :
    (∃ E3 W3, mainLoop 3 (Proc.running (editorInsertChar (initEditor 24 80) 97)
        EDITOR_QUIT_TIMES (keysOnly [17, 17, 17, 17])) = Proc.running E3 0 W3)
    ∧ (∃ E4 W4, mainLoop 4 (Proc.running (editorInsertChar (initEditor 24 80) 97)
        EDITOR_QUIT_TIMES (keysOnly [17, 17, 17, 17])) = Proc.exited E4 W4)
    ∧ mainLoop 1 (Proc.running (initEditor 24 80) 3 (keysOnly [17]))
        = Proc.exited (editorRefreshScreen (initEditor 24 80))
            { keysOnly [17] with keys := [] } :=
  ⟨((quit_confirmation (editorInsertChar (initEditor 24 80) 97) 3
        (keysOnly [17, 17, 17, 17]) 17 [17, 17, 17] rfl).2.2.2.2.2.1 (by decide)
        [] rfl).2.2.1,
   ((quit_confirmation (editorInsertChar (initEditor 24 80) 97) 3
        (keysOnly [17, 17, 17, 17]) 17 [17, 17, 17] rfl).2.2.2.2.2.1 (by decide)
        [] rfl).2.2.2,
   (quit_confirmation (initEditor 24 80) 3 (keysOnly [17]) 17 [] rfl).2.2.2.2.2.2
      (by decide) rfl⟩

/-! ## key decoding -/

theorem escapeKey_nil : escapeKey [] = (ESC : Int) := by decide

theorem escapeKey_one (s0 : Nat) : escapeKey [s0] = (ESC : Int) := by
  simp [escapeKey, escapeTable, List.find?, List.isPrefixOf]

theorem escapeKey_two (s0 s1 : Nat) :
    escapeKey [s0, s1]
      = (if s0 = 91 then
          (if s1 = 65 then ARROW_UP else if s1 = 66 then ARROW_DOWN
           else if s1 = 67 then ARROW_RIGHT else if s1 = 68 then ARROW_LEFT
           else if s1 = 72 then HOME_KEY else if s1 = 70 then END_KEY else (ESC : Int))
         else if s0 = 79 then
          (if s1 = 72 then HOME_KEY else if s1 = 70 then END_KEY else (ESC : Int))
         else (ESC : Int)) := by
  simp only [escapeKey, escapeTable, List.find?, List.isPrefixOf]
  by_cases h0 : s0 = 91
  · subst h0
    by_cases a1 : s1 = 65
    · subst a1; rfl
    by_cases a2 : s1 = 66
    · subst a2; rfl
    by_cases a3 : s1 = 67
    · subst a3; rfl
    by_cases a4 : s1 = 68
    · subst a4; rfl
    by_cases a5 : s1 = 72
    · subst a5; rfl
    by_cases a6 : s1 = 70
    · subst a6; rfl
    have b1 : (65 == s1) = false := by simpa using Ne.symm a1
    have b2 : (66 == s1) = false := by simpa using Ne.symm a2
    have b3 : (67 == s1) = false := by simpa using Ne.symm a3
    have b4 : (68 == s1) = false := by simpa using Ne.symm a4
    have b5 : (72 == s1) = false := by simpa using Ne.symm a5
    have b6 : (70 == s1) = false := by simpa using Ne.symm a6
    simp [a1, a2, a3, a4, a5, a6, b1, b2, b3, b4, b5, b6]
  · have c0 : (91 == s0) = false := by simpa using Ne.symm h0
    by_cases h1 : s0 = 79
    · subst h1
      by_cases a5 : s1 = 72
      · subst a5; rfl
      by_cases a6 : s1 = 70
      · subst a6; rfl
      have b5 : (72 == s1) = false := by simpa using Ne.symm a5
      have b6 : (70 == s1) = false := by simpa using Ne.symm a6
      simp [a5, a6, b5, b6]
    · have c1 : (79 == s0) = false := by simpa using Ne.symm h1
      simp [h0, h1, c0, c1]

theorem escapeKey_three (s0 s1 s2 : Nat) :
    escapeKey [s0, s1, s2]
      = (if s0 = 91 then
          (if s1 = 65 then ARROW_UP else if s1 = 66 then ARROW_DOWN
           else if s1 = 67 then ARROW_RIGHT else if s1 = 68 then ARROW_LEFT
           else if s1 = 72 then HOME_KEY else if s1 = 70 then END_KEY
           else if s2 = 126 then
            (if s1 = 49 then HOME_KEY else if s1 = 51 then DEL_KEY
             else if s1 = 52 then END_KEY else if s1 = 53 then PAGE_UP
             else if s1 = 54 then PAGE_DOWN else if s1 = 55 then HOME_KEY
             else if s1 = 56 then END_KEY else (ESC : Int))
           else (ESC : Int))
         else if s0 = 79 then
          (if s1 = 72 then HOME_KEY else if s1 = 70 then END_KEY else (ESC : Int))
         else (ESC : Int)) := by
  simp only [escapeKey, escapeTable, List.find?, List.isPrefixOf]
  by_cases h0 : s0 = 91
  · subst h0
    by_cases a1 : s1 = 65
    · subst a1; rfl
    by_cases a2 : s1 = 66
    · subst a2; rfl
    by_cases a3 : s1 = 67
    · subst a3; rfl
    by_cases a4 : s1 = 68
    · subst a4; rfl
    by_cases a5 : s1 = 72
    · subst a5; rfl
    by_cases a6 : s1 = 70
    · subst a6; rfl
    have b1 : (65 == s1) = false := by simpa using Ne.symm a1
    have b2 : (66 == s1) = false := by simpa using Ne.symm a2
    have b3 : (67 == s1) = false := by simpa using Ne.symm a3
    have b4 : (68 == s1) = false := by simpa using Ne.symm a4
    have b5 : (72 == s1) = false := by simpa using Ne.symm a5
    have b6 : (70 == s1) = false := by simpa using Ne.symm a6
    by_cases ht : s2 = 126
    · subst ht
      by_cases d1 : s1 = 49
      · subst d1; rfl
      by_cases d3 : s1 = 51
      · subst d3; rfl
      by_cases d4 : s1 = 52
      · subst d4; rfl
      by_cases d5 : s1 = 53
      · subst d5; rfl
      by_cases d6 : s1 = 54
      · subst d6; rfl
      by_cases d7 : s1 = 55
      · subst d7; rfl
      by_cases d8 : s1 = 56
      · subst d8; rfl
      have e1 : (49 == s1) = false := by simpa using Ne.symm d1
      have e3 : (51 == s1) = false := by simpa using Ne.symm d3
      have e4 : (52 == s1) = false := by simpa using Ne.symm d4
      have e5 : (53 == s1) = false := by simpa using Ne.symm d5
      have e6 : (54 == s1) = false := by simpa using Ne.symm d6
      have e7 : (55 == s1) = false := by simpa using Ne.symm d7
      have e8 : (56 == s1) = false := by simpa using Ne.symm d8
      simp [a1, a2, a3, a4, a5, a6, b1, b2, b3, b4, b5, b6, d1, d3, d4, d5, d6, d7, d8,
        e1, e3, e4, e5, e6, e7, e8]
    · have bt : (126 == s2) = false := by simpa using Ne.symm ht
      simp [a1, a2, a3, a4, a5, a6, b1, b2, b3, b4, b5, b6, ht, bt]
  · have c0 : (91 == s0) = false := by simpa using Ne.symm h0
    by_cases h1 : s0 = 79
    · subst h1
      by_cases a5 : s1 = 72
      · subst a5; rfl
      by_cases a6 : s1 = 70
      · subst a6; rfl
      have b5 : (72 == s1) = false := by simpa using Ne.symm a5
      have b6 : (70 == s1) = false := by simpa using Ne.symm a6
      simp [a5, a6, b5, b6]
    · have c1 : (79 == s0) = false := by simpa using Ne.symm h1
      simp [h0, h1, c0, c1]

theorem escape_two (s0 s1 : Nat) (rest1 : List ReadResult)
    (hd : ¬ (s0 = 91 ∧ 48 ≤ s1 ∧ s1 ≤ 57)) :
    (if s0 = 91 then
        if 48 ≤ s1 ∧ s1 ≤ 57 then KeyResult.blocked
        else
          if s1 = 65 then KeyResult.key ARROW_UP rest1
          else if s1 = 66 then KeyResult.key ARROW_DOWN rest1
          else if s1 = 67 then KeyResult.key ARROW_RIGHT rest1
          else if s1 = 68 then KeyResult.key ARROW_LEFT rest1
          else if s1 = 72 then KeyResult.key HOME_KEY rest1
          else if s1 = 70 then KeyResult.key END_KEY rest1
          else KeyResult.key (ESC : Int) rest1
      else if s0 = 79 then
        if s1 = 72 then KeyResult.key HOME_KEY rest1
        else if s1 = 70 then KeyResult.key END_KEY rest1
        else KeyResult.key (ESC : Int) rest1
      else KeyResult.key (ESC : Int) rest1)
      = KeyResult.key
          (if s0 = 91 then
            (if s1 = 65 then ARROW_UP else if s1 = 66 then ARROW_DOWN
             else if s1 = 67 then ARROW_RIGHT else if s1 = 68 then ARROW_LEFT
             else if s1 = 72 then HOME_KEY else if s1 = 70 then END_KEY else (ESC : Int))
           else if s0 = 79 then
            (if s1 = 72 then HOME_KEY else if s1 = 70 then END_KEY else (ESC : Int))
           else (ESC : Int)) rest1 := by
  by_cases h0 : s0 = 91
  · have hn : ¬ (48 ≤ s1 ∧ s1 ≤ 57) := fun h => hd ⟨h0, h⟩
    simp only [if_pos h0, if_neg hn]
    split_ifs <;> rfl
  · simp only [if_neg h0]
    split_ifs <;> rfl

theorem followingBytes_succ (n : Nat) (input : List ReadResult) :
    followingBytes (n + 1) input
      = (match editorReadKey.read input with
         | (some b, rest) => b :: followingBytes n rest
         | (none, _) => []) := by
  rcases input with _ | ⟨r, rest⟩
  · rfl
  · cases r <;> rfl

theorem followingBytes_zero (input : List ReadResult) : followingBytes 0 input = [] := by
  rcases input with _ | ⟨r, rest⟩
  · rfl
  · cases r <;> rfl

theorem escapeKey_three_of_two (s0 s1 s2 : Nat) (hd : ¬ (s0 = 91 ∧ 48 ≤ s1 ∧ s1 ≤ 57)) :
    escapeKey [s0, s1, s2] = escapeKey [s0, s1] := by
  rw [escapeKey_three, escapeKey_two]
  by_cases h0 : s0 = 91
  · have hn : ¬ (48 ≤ s1 ∧ s1 ≤ 57) := fun h => hd ⟨h0, h⟩
    have d1 : s1 ≠ 49 := by omega
    have d3 : s1 ≠ 51 := by omega
    have d4 : s1 ≠ 52 := by omega
    have d5 : s1 ≠ 53 := by omega
    have d6 : s1 ≠ 54 := by omega
    have d7 : s1 ≠ 55 := by omega
    have d8 : s1 ≠ 56 := by omega
    simp only [if_pos h0, if_neg d1, if_neg d3, if_neg d4, if_neg d5, if_neg d6, if_neg d7,
      if_neg d8, ite_self]
  · simp only [if_neg h0]

theorem escapeKey_digit_timeout (s1 : Nat) (hd : 48 ≤ s1 ∧ s1 ≤ 57) :
    escapeKey [91, s1] = (ESC : Int) := by
  rw [escapeKey_two]
  have a1 : s1 ≠ 65 := by omega
  have a2 : s1 ≠ 66 := by omega
  have a3 : s1 ≠ 67 := by omega
  have a4 : s1 ≠ 68 := by omega
  have a5 : s1 ≠ 72 := by omega
  have a6 : s1 ≠ 70 := by omega
  simp only [if_true, if_neg a1, if_neg a2, if_neg a3, if_neg a4, if_neg a5, if_neg a6]

theorem escapeKey_digit (s1 s2 : Nat) (hd : 48 ≤ s1 ∧ s1 ≤ 57) :
    escapeKey [91, s1, s2]
      = (if s2 = 126 then
          (if s1 = 49 then HOME_KEY else if s1 = 51 then DEL_KEY
           else if s1 = 52 then END_KEY else if s1 = 53 then PAGE_UP
           else if s1 = 54 then PAGE_DOWN else if s1 = 55 then HOME_KEY
           else if s1 = 56 then END_KEY else (ESC : Int))
         else (ESC : Int)) := by
  rw [escapeKey_three]
  have a1 : s1 ≠ 65 := by omega
  have a2 : s1 ≠ 66 := by omega
  have a3 : s1 ≠ 67 := by omega
  have a4 : s1 ≠ 68 := by omega
  have a5 : s1 ≠ 72 := by omega
  have a6 : s1 ≠ 70 := by omega
  simp only [if_true, if_neg a1, if_neg a2, if_neg a3, if_neg a4, if_neg a5, if_neg a6]

theorem escape_eq (input : List ReadResult) :
    ∃ rest, editorReadKey.escape input
      = KeyResult.key (escapeKey (followingBytes 3 input)) rest := by
  unfold editorReadKey.escape
  rw [followingBytes_succ]
  rcases h0 : editorReadKey.read input with ⟨_ | s0, rest0⟩
  · exact ⟨rest0, by simp only [escapeKey_nil]⟩
  simp only []
  rw [followingBytes_succ]
  rcases h1 : editorReadKey.read rest0 with ⟨_ | s1, rest1⟩
  · exact ⟨rest1, by simp only [escapeKey_one]⟩
  simp only []
  rw [followingBytes_succ]
  by_cases hd : s0 = 91 ∧ 48 ≤ s1 ∧ s1 ≤ 57
  · obtain ⟨e0, hdig⟩ := hd
    subst e0
    simp only [if_true, if_pos hdig]
    rcases h2 : editorReadKey.read rest1 with ⟨_ | s2, rest2⟩
    · exact ⟨rest2, by simp only [escapeKey_digit_timeout s1 hdig]⟩
    · refine ⟨rest2, ?_⟩
      simp only [followingBytes_zero, escapeKey_digit s1 s2 hdig]
      split_ifs <;> rfl
  · refine ⟨rest1, ?_⟩
    have key2 := escape_two s0 s1 rest1 hd
    have hk : escapeKey
        (s0 :: s1 ::
          match editorReadKey.read rest1 with
          | (some b, rest) => b :: followingBytes 0 rest
          | (none, _) => []) = escapeKey [s0, s1] := by
      rcases editorReadKey.read rest1 with ⟨_ | s2, rest2⟩
      · rfl
      · simp only [followingBytes_zero, escapeKey_three_of_two s0 s1 s2 hd]
    rw [hk, escapeKey_two, ← key2]
    by_cases e0 : s0 = 91
    · have hn : ¬ (48 ≤ s1 ∧ s1 ≤ 57) := fun h => hd ⟨e0, h⟩
      simp only [if_pos e0, if_neg hn]
    · simp only [if_neg e0]

/-- C18 fails for the byte 0xE9 where `char` is signed: `editorReadKey` returns
the `int` value -23 of that `char`, not the literal byte 233. -/
theorem editorReadKey_high_byte :
    editorReadKey true [ReadResult.byte 0xE9] = KeyResult.key (-23) []
    ∧ editorReadKey true [ReadResult.byte 0xE9] ≠ KeyResult.key 233 [] := by
  decide

/-- C18: `editorReadKey` skips timeouts until a byte arrives.  A byte other
than escape is returned as the `int` value of the `char` that holds it: the
byte itself below 128, and for a byte from 128 to 255 the byte less 256 where
`char` is signed and the byte itself where it is unsigned.  After an escape
byte the key returned is the one of the recognised sequence that the
following bytes start with (`escapeTable`: the arrows, Home and End for `[`
with a letter, Home and End for `O` with a letter, and the seven keys for `[`,
a digit, `~`), and the literal escape for every other continuation, a timeout
at the first, the second or the third following read included. -/
theorem editorReadKey_decodes (signedChar : Bool) (input : List ReadResult) :
    (∀ b, b ≠ ESC → b < 128 →
        editorReadKey signedChar (ReadResult.byte b :: input) = KeyResult.key (b : Int) input)
    ∧ (∀ b, 128 ≤ b → b < 256 →
        editorReadKey true (ReadResult.byte b :: input)
            = KeyResult.key ((b : Int) - 256) input
          ∧ editorReadKey false (ReadResult.byte b :: input) = KeyResult.key (b : Int) input)
    ∧ editorReadKey signedChar (ReadResult.timeout :: input) = editorReadKey signedChar input
    ∧ (∃ rest, editorReadKey signedChar (ReadResult.byte ESC :: input)
        = KeyResult.key (escapeKey (followingBytes 3 input)) rest)
    ∧ (∀ rest, editorReadKey signedChar (ReadResult.byte ESC :: ReadResult.timeout :: rest)
        = KeyResult.key (ESC : Int) rest)
    ∧ (∀ s0 rest,
        editorReadKey signedChar
            (ReadResult.byte ESC :: ReadResult.byte s0 :: ReadResult.timeout :: rest)
          = KeyResult.key (ESC : Int) rest)
    ∧ (∀ s1 rest, 48 ≤ s1 → s1 ≤ 57 →
        editorReadKey signedChar
            (ReadResult.byte ESC :: ReadResult.byte 91 :: ReadResult.byte s1
              :: ReadResult.timeout :: rest)
          = KeyResult.key (ESC : Int) rest) := by
  refine ⟨?_, ?_, rfl, ?_, ?_, ?_, ?_⟩
  · intro b hb hlt
    have : ¬ (signedChar = true ∧ 128 ≤ b) := by omega
    rw [editorReadKey, if_neg hb, charValue, if_neg this]
  · intro b hlo _
    have hb : b ≠ ESC := by simp only [ESC]; omega
    have hf : ¬ (false = true ∧ 128 ≤ b) := by simp
    refine ⟨?_, ?_⟩
    · rw [editorReadKey, if_neg hb, charValue, if_pos ⟨rfl, hlo⟩]
    · rw [editorReadKey, if_neg hb, charValue, if_neg hf]
  · obtain ⟨rest, h⟩ := escape_eq input
    exact ⟨rest, by rw [editorReadKey, if_pos rfl, h]⟩
  · intro rest
    rw [editorReadKey, if_pos rfl]
    rfl
  · intro s0 rest
    rw [editorReadKey, if_pos rfl]
    rfl
  · intro s1 rest h1 h2
    rw [editorReadKey, if_pos rfl]
    simp only [editorReadKey.escape, editorReadKey.read, if_true, if_pos (And.intro h1 h2)]

/-- C18 on concrete inputs: the byte `a` is returned as 97; the byte 0xE9 as
-23 where `char` is signed; escape, `[`, `A` is ARROW_UP; escape, `[`, `5`,
`~` is PAGE_UP; escape, `O`, `F` is END_KEY; escape, `[`, `2`, `~` and an
escape followed by a timeout are the escape. -/
theorem editorReadKey_decodes_witness :
    editorReadKey true [ReadResult.timeout, ReadResult.byte 97] = KeyResult.key 97 []
    ∧ editorReadKey true [ReadResult.byte 233] = KeyResult.key (-23) []
    ∧ editorReadKey true [ReadResult.byte 27, ReadResult.byte 91, ReadResult.byte 65]
        = KeyResult.key ARROW_UP []
    ∧ editorReadKey true
        [ReadResult.byte 27, ReadResult.byte 91, ReadResult.byte 53, ReadResult.byte 126]
        = KeyResult.key PAGE_UP []
    ∧ editorReadKey true [ReadResult.byte 27, ReadResult.byte 79, ReadResult.byte 70]
        = KeyResult.key END_KEY []
    ∧ editorReadKey true
        [ReadResult.byte 27, ReadResult.byte 91, ReadResult.byte 50, ReadResult.byte 126]
        = KeyResult.key 27 []
    ∧ editorReadKey true [ReadResult.byte 27, ReadResult.timeout, ReadResult.byte 91]
        = KeyResult.key 27 [ReadResult.byte 91] :=
  ⟨((editorReadKey_decodes true [ReadResult.byte 97]).2.2.1).trans
      ((editorReadKey_decodes true []).1 97 (by decide) (by decide)),
   ((editorReadKey_decodes true []).2.1 233 (by decide) (by decide)).1,
   by decide, by decide, by decide, by decide,
   (editorReadKey_decodes true []).2.2.2.2.1 [ReadResult.byte 91]⟩

/-! ## the prompt -/

theorem editorPrompt_loop_nonempty (keys : List Int) :
    ∀ (E : editorConfig) (buf : List Nat) (E1 : editorConfig) (s : List Nat) (rest : List Int),
      editorPrompt.loop E buf keys = some (E1, some s, rest) → s ≠ [] := by
  induction keys with
  | nil => intro E buf E1 s rest h; simp [editorPrompt.loop] at h
  | cons c ks ih =>
    intro E buf E1 s rest h
    rw [editorPrompt.loop] at h
    split_ifs at h with h1 h2 h3 h4 h5
    · exact ih _ _ _ _ _ h
    · simp at h
    · simp only [Option.some.injEq, Prod.mk.injEq] at h
      rw [← h.2.1]; exact h4
    · exact ih _ _ _ _ _ h
    · exact ih _ _ _ _ _ h
    · exact ih _ _ _ _ _ h

/-- C19 fails for the byte 0xE9 where `char` is signed: it reaches the prompt
as the key code -23, which is not a control character and is below 128, and
so the byte 233, which is not below 128, is appended to the buffer and
returned by Enter. -/
theorem editorPrompt_appends_high_byte :
    charValue true 0xE9 = -23
    ∧ (editorPrompt (initEditor 24 80) [-23, 13]).map (fun r => (r.2.1, r.2.2))
        = some (some [0xE9], [])
    ∧ ¬ (0xE9 < 128) := by
  decide

/-- C19: `editorPrompt` starts its loop with an empty buffer, and one turn of
the loop on the key `c`, after a refresh of the screen, does this.
Backspace, Delete and Ctrl-H drop the last byte of the buffer (an empty buffer
stays empty); Escape ends the prompt with `NULL`; Enter ends the prompt with
the buffer when the buffer is not empty and is ignored when it is empty; a key
code that is not a control character and is below 128 appends its byte
`(char) c`; every other key leaves the buffer as it is.  The key codes that
append are those from 32 to 126, which are the non-control bytes below 128,
and the negative ones, which are the bytes from 128 to 255 where `char` is
signed.  A string that the prompt returns is never empty. -/
theorem editorPrompt_loop_turn (E : editorConfig) (buf : List Nat) (c : Int)
    (keys : List Int) :
    editorPrompt E (c :: keys) = editorPrompt.loop E [] (c :: keys)
    ∧ (c = DEL_KEY ∨ c = CTRL_KEY 'h' ∨ c = BACKSPACE →
        editorPrompt.loop E buf (c :: keys)
          = editorPrompt.loop (editorRefreshScreen E) buf.dropLast keys)
    ∧ ([].dropLast = ([] : List Nat)
        ∧ ∀ (b : Nat) (bs : List Nat), (bs ++ [b]).dropLast = bs)
    ∧ (c = (ESC : Int) →
        editorPrompt.loop E buf (c :: keys) = some (editorRefreshScreen E, none, keys))
    ∧ (c = (CR : Int) → buf ≠ [] →
        editorPrompt.loop E buf (c :: keys) = some (editorRefreshScreen E, some buf, keys))
    ∧ (c = (CR : Int) → buf = [] →
        editorPrompt.loop E buf (c :: keys)
          = editorPrompt.loop (editorRefreshScreen E) [] keys)
    ∧ (iscntrl c = false → c < 128 →
        editorPrompt.loop E buf (c :: keys)
          = editorPrompt.loop (editorRefreshScreen E) (buf ++ [(c % 256).toNat]) keys)
    ∧ (0 ≤ c → c < 128 → (c % 256).toNat = c.toNat)
    ∧ (¬ (c = DEL_KEY ∨ c = CTRL_KEY 'h' ∨ c = BACKSPACE) → c ≠ (ESC : Int) → c ≠ (CR : Int) →
        ¬ (iscntrl c = false ∧ c < 128) →
        editorPrompt.loop E buf (c :: keys)
          = editorPrompt.loop (editorRefreshScreen E) buf keys)
    ∧ (∀ E1 s rest, editorPrompt E (c :: keys) = some (E1, some s, rest) → s ≠ [])
    ∧ ((iscntrl c = false ∧ c < 128) ↔ (c < 0 ∨ (32 ≤ c ∧ c ≤ 126)))
    ∧ (-128 ≤ c → c < 0 → ((c % 256).toNat : Int) = c + 256 ∧ 128 ≤ (c % 256).toNat) := by
  refine ⟨rfl, ?_, ⟨rfl, fun b bs => List.dropLast_concat⟩, ?_, ?_, ?_, ?_, ?_, ?_, ?_, ?_, ?_⟩
  rotate_left 8
  · simp only [iscntrl, decide_eq_false_iff_not]
    omega
  · intro h0 h1
    omega
  · intro h
    rw [editorPrompt.loop, if_pos h]
  · intro h
    have h1 : ¬ (c = DEL_KEY ∨ c = CTRL_KEY 'h' ∨ c = BACKSPACE) := by
      rw [h]; decide
    rw [editorPrompt.loop, if_neg h1, if_pos h]
  · intro h hb
    have h1 : ¬ (c = DEL_KEY ∨ c = CTRL_KEY 'h' ∨ c = BACKSPACE) := by
      rw [h]; decide
    have h2 : ¬ c = (ESC : Int) := by rw [h]; decide
    rw [editorPrompt.loop, if_neg h1, if_neg h2, if_pos h, if_pos hb]
  · intro h hb
    have h1 : ¬ (c = DEL_KEY ∨ c = CTRL_KEY 'h' ∨ c = BACKSPACE) := by
      rw [h]; decide
    have h2 : ¬ c = (ESC : Int) := by rw [h]; decide
    have h3 : ¬ buf ≠ [] := fun hne => hne hb
    rw [editorPrompt.loop, if_neg h1, if_neg h2, if_pos h, if_neg h3, hb]
  · intro hctl hlt
    have hr : ¬ ((0 ≤ c ∧ c < 32) ∨ c = 127) := by
      simpa [iscntrl] using hctl
    have h1 : ¬ (c = DEL_KEY ∨ c = CTRL_KEY 'h' ∨ c = BACKSPACE) := by
      simp only [DEL_KEY, CTRL_KEY_h, BACKSPACE]; omega
    have h2 : ¬ c = (ESC : Int) := by simp only [ESC]; omega
    have h3 : ¬ c = (CR : Int) := by simp only [CR]; omega
    have h4 : (!iscntrl c) = true ∧ c < 128 := ⟨by rw [hctl]; rfl, hlt⟩
    rw [editorPrompt.loop, if_neg h1, if_neg h2, if_neg h3, if_pos h4]
  · intro h0 h1
    omega
  · intro h1 h2 h3 h4
    have h5 : ¬ ((!iscntrl c) = true ∧ c < 128) := by
      intro h
      apply h4
      refine ⟨?_, h.2⟩
      cases hc : iscntrl c
      · rfl
      · rw [hc] at h; simp at h
    rw [editorPrompt.loop, if_neg h1, if_neg h2, if_neg h3, if_neg h5]
  · intro E1 s rest h
    exact editorPrompt_loop_nonempty _ _ _ _ _ _ h

/-- C19 on a concrete run: the keys `a`, Backspace, Backspace, Enter, `b`,
ArrowUp, Enter return the string `b`, and the key Escape returns `NULL`. -/
theorem editorPrompt_loop_turn_witness :
    (editorPrompt (initEditor 24 80) [97, 127, 127, 13, 98, 1002, 13, 99]).map
        (fun r => (r.2.1, r.2.2)) = some (some [98], [99])
    ∧ editorPrompt.loop (initEditor 24 80) [97] [27, 99]
        = some (editorRefreshScreen (initEditor 24 80), none, [99]) :=
  ⟨by decide,
   (editorPrompt_loop_turn (initEditor 24 80) [97] 27 [99]).2.2.2.1 (by decide)⟩

/-! ## find -/

theorem strstr_loop_none (needle : List Nat) (hay : List Nat) :
    ∀ k, strstr.loop needle hay k = none → ∀ j, ¬ needle <+: hay.drop j := by
  induction hay with
  | nil =>
    intro k h j hp
    rw [strstr.loop] at h
    split_ifs at h with hn
    simp only [List.drop_nil, List.prefix_nil] at hp
    exact hn hp
  | cons x xs ih =>
    intro k h j hp
    rw [strstr.loop] at h
    split_ifs at h with hpre
    cases j with
    | zero =>
      rw [List.drop_zero] at hp
      exact hpre (List.isPrefixOf_iff_prefix.2 hp)
    | succ j =>
      rw [List.drop_succ_cons] at hp
      exact ih (k + 1) h j hp

theorem strstr_loop_some (needle : List Nat) (hay : List Nat) :
    ∀ k r, strstr.loop needle hay k = some r →
      ∃ off, r = k + off ∧ needle <+: hay.drop off ∧ ∀ j < off, ¬ needle <+: hay.drop j := by
  induction hay with
  | nil =>
    intro k r h
    rw [strstr.loop] at h
    split_ifs at h with hn
    simp only [Option.some.injEq] at h
    exact ⟨0, by omega, by rw [hn]; exact List.nil_prefix, fun j hj => absurd hj (Nat.not_lt_zero j)⟩
  | cons x xs ih =>
    intro k r h
    rw [strstr.loop] at h
    split_ifs at h with hpre
    · simp only [Option.some.injEq] at h
      exact ⟨0, by omega, by rw [List.drop_zero]; exact List.isPrefixOf_iff_prefix.1 hpre,
        fun j hj => absurd hj (Nat.not_lt_zero j)⟩
    · obtain ⟨off, hr, hp, hmin⟩ := ih (k + 1) r h
      refine ⟨off + 1, by omega, by rw [List.drop_succ_cons]; exact hp, ?_⟩
      intro j hj
      cases j with
      | zero =>
        rw [List.drop_zero]
        exact fun hp0 => hpre (List.isPrefixOf_iff_prefix.2 hp0)
      | succ j =>
        rw [List.drop_succ_cons]
        exact hmin j (by omega)

theorem takeWhile_no_nul (l : List Nat) (h : ∀ x ∈ l, x ≠ 0) :
    l.takeWhile (fun b => b ≠ 0) = l := by
  rw [List.takeWhile_eq_self_iff]
  intro x hx
  simpa using h x hx

theorem occurs_of_prefix_drop (needle hay : List Nat) (off : Nat) (h : needle <+: hay.drop off) :
    needle <:+: hay :=
  List.IsInfix.trans h.isInfix (List.drop_suffix off hay).isInfix

theorem strstr_first (hay needle : List Nat) (hh : ∀ x ∈ hay, x ≠ 0) (hn : ∀ x ∈ needle, x ≠ 0)
    (off : Nat) (hp : needle <+: hay.drop off) (hmin : ∀ j < off, ¬ needle <+: hay.drop j) :
    strstr hay needle = some off := by
  rw [strstr, takeWhile_no_nul hay hh, takeWhile_no_nul needle hn]
  cases hres : strstr.loop needle hay 0 with
  | none => exact absurd hp (strstr_loop_none needle hay 0 hres off)
  | some r =>
    obtain ⟨off2, hr, hp2, hmin2⟩ := strstr_loop_some needle hay 0 r hres
    have : off2 = off := by
      rcases Nat.lt_trichotomy off2 off with h | h | h
      · exact absurd hp2 (hmin off2 h)
      · exact h
      · exact absurd hp (hmin2 off h)
    rw [hr, this, Nat.zero_add]

theorem strstr_absent (hay needle : List Nat) (hh : ∀ x ∈ hay, x ≠ 0)
    (hn : ∀ x ∈ needle, x ≠ 0) (h : ¬ needle <:+: hay) : strstr hay needle = none := by
  rw [strstr, takeWhile_no_nul hay hh, takeWhile_no_nul needle hn]
  cases hres : strstr.loop needle hay 0 with
  | none => rfl
  | some r =>
    obtain ⟨off2, _, hp2, _⟩ := strstr_loop_some needle hay 0 r hres
    exact absurd (occurs_of_prefix_drop needle hay off2 hp2) h

theorem tabExpand_no_nul (chars : List Nat) (h : ∀ x ∈ chars, x ≠ 0) :
    ∀ col, ∀ x ∈ tabExpand col chars, x ≠ 0 := by
  induction chars with
  | nil => intro col x hx; simp [tabExpand] at hx
  | cons c cs ih =>
    intro col x hx
    rw [tabExpand] at hx
    split_ifs at hx with hc
    · simp only [List.mem_append, List.mem_replicate] at hx
      rcases hx with hx | hx
      · rw [hx.2]; decide
      · exact ih (fun y hy => h y (List.mem_cons_of_mem _ hy)) _ x hx
    · simp only [List.mem_cons] at hx
      rcases hx with hx | hx
      · rw [hx]; exact h c (List.mem_cons_self _ _)
      · exact ih (fun y hy => h y (List.mem_cons_of_mem _ hy)) _ x hx

theorem render_no_nul (r : erow) (hok : RenderOk r) (h : ∀ x ∈ r.chars, x ≠ 0) :
    ∀ x ∈ r.render, x ≠ 0 := by
  rw [(renderOk_iff r).1 hok]
  exact tabExpand_no_nul r.chars h 0

theorem tabExpand_tabfree (chars : List Nat) (h : ∀ x ∈ chars, x ≠ TAB) :
    ∀ col, tabExpand col chars = chars := by
  induction chars with
  | nil => intro col; rfl
  | cons c cs ih =>
    intro col
    rw [tabExpand, if_neg (h c (List.mem_cons_self _ _)),
      ih (fun y hy => h y (List.mem_cons_of_mem _ hy))]

theorem rxToCx_loop_le (rx : Int) (chars : List Nat) (d : Nat) :
    ∀ k : Nat, k ≤ chars.length → chars.length - k = d → editorRowCxToRx.loop chars k ≤ rx →
      editorRowCxToRx.loop chars
          (editorRowRxToCx.loop rx (chars.drop k) (k : Int) (editorRowCxToRx.loop chars k)).toNat
        ≤ rx := by
  induction d with
  | zero =>
    intro k hk hd hle
    have hkl : chars.length ≤ k := by omega
    rw [List.drop_eq_nil_of_le hkl, editorRowRxToCx.loop, Int.toNat_natCast]
    exact hle
  | succ d ih =>
    intro k hk hd hle
    have hkl : k < chars.length := by omega
    rw [List.drop_eq_getElem_cons hkl, editorRowRxToCx.loop]
    have hstep : advanceRx chars[k] (editorRowCxToRx.loop chars k)
        = editorRowCxToRx.loop chars (k + 1) := by
      rw [editorRowCxToRx.loop, List.getD_eq_getElem _ _ hkl]
    rw [hstep]
    by_cases hgt : editorRowCxToRx.loop chars (k + 1) > rx
    · rw [if_pos hgt, Int.toNat_natCast]
      exact hle
    · rw [if_neg hgt]
      have := ih (k + 1) hkl (by omega) (by omega)
      push_cast at this
      exact this

theorem editorRowCxToRx_of_editorRowRxToCx_le (row : erow) (rx : Int) (h : 0 ≤ rx) :
    editorRowCxToRx row (editorRowRxToCx row rx) ≤ rx := by
  have := rxToCx_loop_le rx row.chars row.chars.length 0 (Nat.zero_le _) rfl
    (by simp only [editorRowCxToRx.loop]; exact h)
  simp only [List.drop_zero, editorRowCxToRx.loop, Nat.cast_zero] at this
  exact this

theorem editorRowRxToCx_tabfree (row : erow) (h : ∀ x ∈ row.chars, x ≠ TAB) (off : Nat)
    (ho : off ≤ row.chars.length) : editorRowRxToCx row (off : Int) = (off : Int) := by
  have := rxToCx_loop_eq row.chars off ho row.chars.length 0 (Nat.zero_le _) rfl
  simp only [List.drop_zero, editorRowCxToRx.loop, Nat.cast_zero] at this
  rw [cxToRx_loop_tabfree row.chars h off ho] at this
  exact this

theorem editorFind_loop_absent (E : editorConfig) (query : List Nat) (rows : List erow)
    (h : ∀ r ∈ rows, strstr r.render query = none) :
    ∀ k : Int, editorFind.loop E query rows k = E := by
  induction rows with
  | nil => intro k; rfl
  | cons r rs ih =>
    intro k
    rw [editorFind.loop, h r (List.mem_cons_self _ _)]
    exact ih (fun x hx => h x (List.mem_cons_of_mem _ hx)) (k + 1)

theorem editorFind_loop_found (E : editorConfig) (query : List Nat) (before : List erow)
    (row : erow) (after : List erow) (off : Nat)
    (h : ∀ r ∈ before, strstr r.render query = none)
    (hrow : strstr row.render query = some off) :
    ∀ k : Int, editorFind.loop E query (before ++ row :: after) k
      = { E with cy := k + (before.length : Int), cx := editorRowRxToCx row (off : Int),
                 rowoff := E.numrows } := by
  induction before with
  | nil =>
    intro k
    rw [List.nil_append, editorFind.loop, hrow]
    simp
  | cons r rs ih =>
    intro k
    rw [List.cons_append, editorFind.loop, h r (List.mem_cons_self _ _)]
    simp only []
    rw [ih (fun x hx => h x (List.mem_cons_of_mem _ hx)) (k + 1)]
    simp only [List.length_cons]
    push_cast
    rw [show k + 1 + (rs.length : Int) = k + ((rs.length : Int) + 1) by ring]

theorem getElem?_split (l : List erow) (i : Nat) (row : erow) (h : l[i]? = some row) :
    l = l.take i ++ row :: l.drop (i + 1) ∧ (l.take i).length = i
      ∧ (∀ r ∈ l.take i, ∃ j, j < i ∧ l[j]? = some r) ∧ row ∈ l := by
  obtain ⟨hi, he⟩ := List.getElem?_eq_some.1 h
  refine ⟨?_, ?_, ?_, ?_⟩
  rotate_left 3
  · rw [← he]; exact List.getElem_mem _
  · rw [← he, List.getElem_cons_drop, List.take_append_drop]
  · rw [List.length_take]; omega
  · intro r hr
    obtain ⟨j, hj, hjr⟩ := List.mem_take_iff_getElem.1 hr
    refine ⟨j, by omega, ?_⟩
    rw [← hjr]
    exact List.getElem?_eq_getElem _

/-- C13: in a document whose rows are rendered from contents without a NUL
byte, for a query without a NUL byte returned by the prompt: when row `i`
holds the query in its render bytes, first at offset `off`, and no earlier row
holds it, `editorFind` sets `cy` to `i`, `cx` to `editorRowRxToCx(row, off)`
and `rowoff` to `numrows`; the render column of that `cx` is at most `off`,
and `cx` is `off` on a row with no tab.  When no row holds the query, and
when the prompt is cancelled, `cx` and `cy` are the ones before the call. -/
theorem editorFind_first_match (E : editorConfig) (keys : List Int) (E1 : editorConfig)
    (query : List Nat) (rest : List Int) (hdoc : DocOk E)
    (hnul : ∀ r ∈ E.row, ∀ x ∈ r.chars, x ≠ 0) (hq : ∀ x ∈ query, x ≠ 0) :
    (editorPrompt E keys = some (E1, some query, rest) →
      query ≠ [] ∧
      ∀ (i : Nat) (row : erow) (off : Nat), E.row[i]? = some row →
        (∀ j < i, ∀ r, E.row[j]? = some r → ¬ query <:+: r.render) →
        query <+: row.render.drop off → (∀ k < off, ¬ query <+: row.render.drop k) →
        editorFind E keys
            = some ({ E1 with cy := (i : Int), cx := editorRowRxToCx row (off : Int),
                              rowoff := E1.numrows }, rest)
          ∧ E1.row = E.row
          ∧ editorRowCxToRx row (editorRowRxToCx row (off : Int)) ≤ (off : Int)
          ∧ ((∀ x ∈ row.chars, x ≠ TAB) → editorRowRxToCx row (off : Int) = (off : Int)))
    ∧ (editorPrompt E keys = some (E1, some query, rest) →
        (∀ r ∈ E.row, ¬ query <:+: r.render) →
        editorFind E keys = some (E1, rest) ∧ E1.cx = E.cx ∧ E1.cy = E.cy ∧ E1.row = E.row)
    ∧ (editorPrompt E keys = some (E1, none, rest) →
        editorFind E keys = some (E1, rest) ∧ E1.cx = E.cx ∧ E1.cy = E.cy
          ∧ E1.row = E.row) := by
  have hrender : ∀ r ∈ E.row, ∀ x ∈ r.render, x ≠ 0 :=
    fun r hr => render_no_nul r (hdoc r hr) (hnul r hr)
  refine ⟨fun hp => ⟨?_, ?_⟩, ?_, ?_⟩
  · exact editorPrompt_loop_nonempty keys E [] E1 query rest hp
  · intro i row off hi hbefore hpre hmin
    have hsame := editorPrompt_loop_sameDoc keys E [] E1 (some query) rest hp
    obtain ⟨hsplit, hlen, hmem, hrowmem⟩ := getElem?_split E.row i row hi
    have hs : strstr row.render query = some off :=
      strstr_first row.render query (hrender row hrowmem) hq off hpre hmin
    have hb : ∀ r ∈ E.row.take i, strstr r.render query = none := by
      intro r hr
      obtain ⟨j, hj, hjr⟩ := hmem r hr
      exact strstr_absent r.render query (hrender r (List.mem_of_mem_take hr)) hq
        (hbefore j hj r hjr)
    refine ⟨?_, hsame.2.2.1, editorRowCxToRx_of_editorRowRxToCx_le row off (by omega), ?_⟩
    · have hl := editorFind_loop_found E1 query (E.row.take i) row (E.row.drop (i + 1)) off
        hb hs 0
      rw [hlen, Int.zero_add, ← hsplit, ← hsame.2.2.1] at hl
      unfold editorFind
      rw [hp]
      simp only []
      rw [hl]
    · intro htab
      have hren : row.render = row.chars := by
        rw [(renderOk_iff row).1 (hdoc row hrowmem)]
        exact tabExpand_tabfree row.chars htab 0
      by_cases ho : off ≤ row.chars.length
      · exact editorRowRxToCx_tabfree row htab off ho
      · exfalso
        rw [hren, List.drop_eq_nil_of_le (by omega), List.prefix_nil] at hpre
        exact hmin 0 (by omega) (by rw [hpre]; exact List.nil_prefix)
  · intro hp habsent
    have hsame := editorPrompt_loop_sameDoc keys E [] E1 (some query) rest hp
    refine ⟨?_, hsame.1, hsame.2.1, hsame.2.2.1⟩
    unfold editorFind
    rw [hp]
    simp only []
    rw [editorFind_loop_absent E1 query E1.row _ 0]
    intro r hr
    rw [hsame.2.2.1] at hr
    exact strstr_absent r.render query (hrender r hr) hq (habsent r hr)
  · intro hp
    have hsame := editorPrompt_loop_sameDoc keys E [] E1 none rest hp
    refine ⟨?_, hsame.1, hsame.2.1, hsame.2.2.1⟩
    unfold editorFind
    rw [hp]

set_option maxRecDepth 100000 in

/-- C13 on the scenario of the specification: searching `def` in the rows
`abc`, `xdefy` puts the cursor on row 1, column 1. -/
theorem editorFind_first_match_witness :
    editorFind (docOf [[97, 98, 99], [120, 100, 101, 102, 121]] 0 0) [100, 101, 102, 13]
      = some ({ docOf [[97, 98, 99], [120, 100, 101, 102, 121]] 0 0 with
                cy := 1, cx := 1, rowoff := 2 }, []) := by
  have h := ((editorFind_first_match (docOf [[97, 98, 99], [120, 100, 101, 102, 121]] 0 0)
    [100, 101, 102, 13] (docOf [[97, 98, 99], [120, 100, 101, 102, 121]] 0 0)
    [100, 101, 102] [] (by unfold DocOk; decide) (by decide) (by decide)).1 (by decide)).2 1
    (editorUpdateRow { chars := [120, 100, 101, 102, 121], render := [] }) 1 (by decide)
    (by
      intro j hj r hr
      have hj0 : j = 0 := by omega
      subst hj0
      have hr2 : r = editorUpdateRow { chars := [97, 98, 99], render := [] } := by
        have : (docOf [[97, 98, 99], [120, 100, 101, 102, 121]] 0 0).row[0]?
            = some (editorUpdateRow { chars := [97, 98, 99], render := [] }) := by decide
        rw [this] at hr
        exact (Option.some.inj hr).symm
      rw [hr2]
      decide)
    (by decide) (by decide)
  rw [h.1, h.2.2.2 (by decide)]
  rfl

/-! ## the fatal path -/

/-- C20: the bytes `die` writes before reporting the error are `[`, `2`, `J`
and a NUL byte followed by ESC `[` `H`; they are not the bytes ESC `[` `2` `J`,
ESC `[` `H` that the quit path writes before exiting. -/
theorem die_written_bytes :
    die.written = [0x5B, 0x32, 0x4A, 0x00, 0x1B, 0x5B, 0x48]
    ∧ editorProcessKeypress.quitWritten = [0x1B, 0x5B, 0x32, 0x4A, 0x1B, 0x5B, 0x48]
    ∧ die.written ≠ editorProcessKeypress.quitWritten
    ∧ ¬ [0x1B, 0x5B, 0x32, 0x4A] <+: die.written := by
  decide

/-! ## monotone render column and render capacity -/

theorem tabs_foldl (cs : List Nat) :
    ∀ a : Nat, cs.foldl (fun tabs c => if c = TAB then tabs + 1 else tabs) a
      = a + cs.count TAB := by
  induction cs with
  | nil => intro a; simp
  | cons c cs ih =>
    intro a
    rw [List.foldl_cons, ih, List.count_cons]
    by_cases hc : c = TAB
    · simp only [if_pos hc, hc, beq_self_eq_true, if_true]; omega
    · have : (c == TAB) = false := by simpa using hc
      simp only [if_neg hc, this]; simp

theorem tabs_eq_count (cs : List Nat) : editorUpdateRow.tabs cs = cs.count TAB := by
  rw [editorUpdateRow.tabs, tabs_foldl, Nat.zero_add]

theorem tabExpand_length (cs : List Nat) :
    ∀ col : Nat, cs.length ≤ (tabExpand col cs).length
      ∧ (tabExpand col cs).length ≤ cs.length + 7 * cs.count TAB := by
  induction cs with
  | nil => intro col; simp [tabExpand]
  | cons c cs ih =>
    intro col
    rw [tabExpand, List.count_cons]
    by_cases hc : c = TAB
    · have := ih (col + (EDITOR_TAB_STOP - col % EDITOR_TAB_STOP))
      simp only [if_pos hc, hc, beq_self_eq_true, if_true, List.length_append,
        List.length_replicate, List.length_cons, EDITOR_TAB_STOP] at this ⊢
      omega
    · have := ih (col + 1)
      have hb : (c == TAB) = false := by simpa using hc
      simp only [if_neg hc, hb, List.length_cons] at this ⊢
      simp only [Bool.false_eq_true, if_false]
      omega

theorem wrapInt_fits (x : Int) (h0 : -2147483648 ≤ x) (h1 : x ≤ INT_MAX) : wrapInt x = x := by
  simp only [INT_MAX] at h1
  simp only [wrapInt]
  omega

theorem tabExpand_tabs_length (n : Nat) :
    ∀ col : Nat, col % 8 = 0 → (tabExpand col (List.replicate n TAB)).length = 8 * n := by
  induction n with
  | zero => intro col _; rfl
  | succ n ih =>
    intro col hcol
    rw [List.replicate_succ, tabExpand, if_pos rfl, List.length_append, List.length_replicate,
      ih _ (by simp only [EDITOR_TAB_STOP]; omega)]
    simp only [EDITOR_TAB_STOP]
    omega

theorem rsize_tabs (n : Nat) :
    (editorUpdateRow { chars := List.replicate n TAB, render := [] }).rsize = 8 * (n : Int) := by
  simp only [erow.rsize, editorUpdateRow, loop_eq, List.nil_append, List.length_nil]
  rw [tabExpand_tabs_length n 0 rfl]
  push_cast
  rfl

theorem capacity_tabs (n : Nat) :
    editorUpdateRow.capacity { chars := List.replicate n TAB, render := [] }
      = wrapInt (wrapInt ((n : Int) + wrapInt ((n : Int) * 7)) + 1) := by
  simp only [editorUpdateRow.capacity, erow.size, tabs_eq_count, List.count_replicate_self,
    List.length_replicate, EDITOR_TAB_STOP]
  rfl

/-- C23 fails for a row of 2^28 tab bytes: its render text takes 2^31 bytes and
the terminator, while the `int` expression `size + tabs * 7 + 1` passed to
`malloc` exceeds `INT_MAX` and, wrapped to 32 bits, is negative; no index is
below it. -/
theorem editorUpdateRow_capacity_overflow :
    editorUpdateRow.tabs (List.replicate 268435456 TAB) = 268435456
    ∧ (editorUpdateRow { chars := List.replicate 268435456 TAB, render := [] }).rsize
        = 2147483648
    ∧ INT_MAX < (268435456 : Int) + 268435456 * 7 + 1
    ∧ editorUpdateRow.capacity { chars := List.replicate 268435456 TAB, render := [] }
        = -2147483647
    ∧ ¬ ((editorUpdateRow { chars := List.replicate 268435456 TAB, render := [] }).rsize
          < editorUpdateRow.capacity { chars := List.replicate 268435456 TAB, render := [] }) := by
  have hr := rsize_tabs 268435456
  have hc := capacity_tabs 268435456
  have hv : wrapInt (wrapInt (((268435456 : Nat) : Int) + wrapInt (((268435456 : Nat) : Int) * 7)) + 1)
      = -2147483647 := by decide
  rw [hv] at hc
  refine ⟨?_, ?_, by decide, hc, ?_⟩
  · rw [tabs_eq_count, List.count_replicate_self]
  · rw [hr]; norm_num
  · rw [hr, hc]; norm_num

/-- C23: for a row whose `size + 7 * tabs + 1` fits in an `int`, with `tabs`
the number of tab bytes of the content, which is what the first loop of
`editorUpdateRow` counts: the `int` passed to `malloc` is exactly
`size + tabs * (8 - 1) + 1`; the `rsize` that `editorUpdateRow` computes is at
least `size` and at most `size + 7 * tabs`; the value of `idx` after any
number of iterations of the second loop is at most `rsize`; so every index
from 0 to `rsize`, the index of the terminator, is below the allocated
capacity and fits in an `int`. -/
theorem editorUpdateRow_capacity (row : erow)
    (hfit : row.size + 7 * (editorUpdateRow.tabs row.chars : Int) + 1 ≤ INT_MAX) :
    editorUpdateRow.tabs row.chars = row.chars.count TAB
    ∧ (editorUpdateRow row).rsize ≤ row.size + 7 * (editorUpdateRow.tabs row.chars : Int)
    ∧ row.size ≤ (editorUpdateRow row).rsize
    ∧ (∀ n : Nat, ((editorUpdateRow.loop (row.chars.take n) []).length : Int)
        ≤ (editorUpdateRow row).rsize)
    ∧ (∀ idx : Int, idx ≤ (editorUpdateRow row).rsize → idx < editorUpdateRow.capacity row)
    ∧ editorUpdateRow.capacity row
        = row.size + 7 * (editorUpdateRow.tabs row.chars : Int) + 1
    ∧ (editorUpdateRow row).rsize < INT_MAX := by
  have hlen := tabExpand_length row.chars 0
  have hr : (editorUpdateRow row).rsize = ((tabExpand 0 row.chars).length : Int) := by
    simp [erow.rsize, editorUpdateRow, loop_eq]
  have hs0 : 0 ≤ row.size := Int.ofNat_nonneg _
  have ht0 : 0 ≤ (editorUpdateRow.tabs row.chars : Int) := Int.ofNat_nonneg _
  have hcap : editorUpdateRow.capacity row
      = row.size + 7 * (editorUpdateRow.tabs row.chars : Int) + 1 := by
    have e7 : (editorUpdateRow.tabs row.chars : Int) * ((EDITOR_TAB_STOP : Int) - 1)
        = 7 * (editorUpdateRow.tabs row.chars : Int) := by
      simp only [EDITOR_TAB_STOP]
      push_cast
      ring
    simp only [INT_MAX] at hfit
    rw [editorUpdateRow.capacity, e7,
      wrapInt_fits (7 * (editorUpdateRow.tabs row.chars : Int)) (by omega)
        (by simp only [INT_MAX]; omega),
      wrapInt_fits (row.size + 7 * (editorUpdateRow.tabs row.chars : Int)) (by omega)
        (by simp only [INT_MAX]; omega),
      wrapInt_fits _ (by omega) (by simp only [INT_MAX]; omega)]
  have hle : (editorUpdateRow row).rsize
      ≤ row.size + 7 * (editorUpdateRow.tabs row.chars : Int) := by
    rw [hr, tabs_eq_count]
    simp only [erow.size]
    omega
  refine ⟨tabs_eq_count _, hle, ?_, ?_, ?_, hcap, by omega⟩
  · rw [hr]
    simp only [erow.size]
    omega
  · intro n
    rw [hr, loop_eq]
    have hsplit : tabExpand 0 row.chars
        = tabExpand 0 (row.chars.take n)
          ++ tabExpand (tabExpand 0 (row.chars.take n)).length (row.chars.drop n) := by
      have := tabExpand_append 0 (row.chars.take n) (row.chars.drop n)
      rw [List.take_append_drop] at this
      simpa using this
    rw [hsplit]
    simp only [List.nil_append, List.length_nil, List.length_append]
    push_cast
    omega
  · intro idx hidx
    rw [hcap]
    omega

/-- C23 on a concrete row: `a`, tab, `b` has `rsize` 9, within the capacity
`3 + 7 + 1 = 11`. -/
theorem editorUpdateRow_capacity_witness :
    (editorUpdateRow { chars := [97, 9, 98], render := [] }).rsize = 9
    ∧ editorUpdateRow.capacity { chars := [97, 9, 98], render := [] } = 11
    ∧ (9 : Int) < editorUpdateRow.capacity { chars := [97, 9, 98], render := [] } :=
  ⟨by decide, by decide,
   (editorUpdateRow_capacity { chars := [97, 9, 98], render := [] } (by decide)).2.2.2.2.1 9
     (by decide)⟩

/-! ## load after serialise -/

theorem getlines_line (cs : List Nat) (T : List Nat) (h : ∀ x ∈ cs, x ≠ LF) :
    ∀ cur : List Nat, getlines (cs ++ LF :: T) cur = (cur ++ cs ++ [LF]) :: getlines T [] := by
  induction cs with
  | nil =>
    intro cur
    simp [getlines]
  | cons c cs ih =>
    intro cur
    have hc : c ≠ LF := h c (List.mem_cons_self _ _)
    rw [List.cons_append, getlines, if_neg hc,
      ih (fun x hx => h x (List.mem_cons_of_mem _ hx)) (cur ++ [c])]
    simp

theorem getlines_rows (rows : List erow) (h : ∀ r ∈ rows, ∀ x ∈ r.chars, x ≠ LF) :
    getlines (rowsBytes rows) [] = rows.map (fun r => r.chars ++ [LF]) := by
  induction rows with
  | nil => simp [rowsBytes, getlines]
  | cons r rs ih =>
    rw [rowsBytes, getlines_line r.chars _ (h r (List.mem_cons_self _ _)) [],
      ih (fun x hx => h x (List.mem_cons_of_mem _ hx))]
    simp

/-- C24: for a document none of whose rows holds a line feed or a carriage
return, `editorOpen` of the bytes of `editorRowsToString` into an empty
document gives as many rows with the same content bytes, each rendered by
`editorUpdateRow` (so the very same rows when those of the document were),
and ends with `dirty == 0`. -/
theorem editorOpen_of_editorRowsToString (D E0 : editorConfig) (name : List Nat)
    (hD : ∀ r ∈ D.row, ∀ x ∈ r.chars, x ≠ LF ∧ x ≠ CR) (hE0 : E0.row = []) :
    (editorOpen E0 name (editorRowsToString D).1).row.map erow.chars = D.row.map erow.chars
    ∧ (editorOpen E0 name (editorRowsToString D).1).numrows = D.numrows
    ∧ (editorOpen E0 name (editorRowsToString D).1).row
        = D.row.map (fun r => editorUpdateRow { chars := r.chars, render := [] })
    ∧ (DocOk D → (editorOpen E0 name (editorRowsToString D).1).row = D.row)
    ∧ (editorOpen E0 name (editorRowsToString D).1).dirty = 0 := by
  have hlines := getlines_rows D.row (fun r hr x hx => (hD r hr x hx).1)
  have hrow : (editorOpen E0 name (editorRowsToString D).1).row
      = D.row.map (fun r => editorUpdateRow { chars := r.chars, render := [] }) := by
    rw [editorRowsToString_eq]
    simp only [editorOpen, editorOpen_loop_row, hE0, List.nil_append, hlines, List.map_map]
    apply List.map_congr_left
    intro r hr
    simp only [Function.comp, stripEol_line r.chars (hD r hr)]
  refine ⟨?_, ?_, hrow, ?_, rfl⟩
  · rw [hrow, List.map_map]
    apply List.map_congr_left
    intro r _
    rfl
  · simp only [editorConfig.numrows, hrow, List.length_map]
  · intro hok
    rw [hrow]
    conv_rhs => rw [← List.map_id D.row]
    apply List.map_congr_left
    intro r hr
    have := hok r hr
    simp only [RenderOk] at this
    cases r with
    | mk chars render =>
      simp only [editorUpdateRow, id] at this ⊢
      rw [this]

/-- C24 on a concrete document: the rows `ab`, (empty), `c` are loaded back
from their serialisation. -/
theorem editorOpen_of_editorRowsToString_witness :
    (editorOpen (initEditor 24 80) [102]
        (editorRowsToString (docOf [[97, 98], [], [99]] 0 0)).1).row.map erow.chars
      = [[97, 98], [], [99]]
    ∧ (editorOpen (initEditor 24 80) [102]
        (editorRowsToString (docOf [[97, 98], [], [99]] 0 0)).1).dirty = 0 :=
  ⟨(editorOpen_of_editorRowsToString (docOf [[97, 98], [], [99]] 0 0) (initEditor 24 80) [102]
      (by decide) rfl).1.trans (by decide),
   (editorOpen_of_editorRowsToString (docOf [[97, 98], [], [99]] 0 0) (initEditor 24 80) [102]
      (by decide) rfl).2.2.2.2⟩

/-! ## delete at the end of the last row -/

/-- C25: in a document with at least one row and the cursor at the end of the
last row (`cy = numrows - 1`, `cx` the size of that row), the key Delete leaves
the rows and `dirty` as they were and puts the cursor on the virtual row, at
`cx = 0`, `cy = numrows`; nothing else of the state changes. -/
theorem delete_at_end_of_last_row (E : editorConfig) (q : Int) (W : World) (rest : List Int)
    (hk : W.keys = DEL_KEY :: rest) (hne : E.row ≠ []) (hcy : E.cy = E.numrows - 1)
    (hcx : E.cx = (E.rowAt E.cy).size) :
    editorProcessKeypress E q W
        = Proc.running { E with cx := 0, cy := E.numrows } EDITOR_QUIT_TIMES
            { W with keys := rest }
    ∧ ({ E with cx := 0, cy := E.numrows } : editorConfig).row = E.row
    ∧ ({ E with cx := 0, cy := E.numrows } : editorConfig).numrows = E.numrows
    ∧ ({ E with cx := 0, cy := E.numrows } : editorConfig).dirty = E.dirty := by
  refine ⟨?_, rfl, rfl, rfl⟩
  have hpos : 0 < E.row.length := List.length_pos.2 hne
  have hy0 : 0 ≤ E.cy := by
    simp only [editorConfig.numrows] at hcy; omega
  have hy1 : E.cy < E.numrows := by omega
  obtain ⟨pre, r, post, hrow, hcy2, hr⟩ := rows_split E hy0 hy1
  rw [hr] at hcx
  rw [processKeypress_delete E q W rest hk, editorMoveCursor_right_wrap E pre r post hrow hcy2 hcx,
    editorDelChar_virtual _ (by simp only [editorConfig.numrows] at hcy ⊢; omega)]
  have : E.cy + 1 = E.numrows := by omega
  rw [this]

/-- C25 on a concrete document: Delete at the end of the only row `ab` moves
the cursor to `(0, 1)` and changes nothing else. -/
theorem delete_at_end_of_last_row_witness :
    editorProcessKeypress (docOf [[97, 98]] 2 0) 3 (keysOnly [DEL_KEY])
      = Proc.running (docOf [[97, 98]] 0 1) EDITOR_QUIT_TIMES
          { keysOnly [DEL_KEY] with keys := [] } :=
  (delete_at_end_of_last_row (docOf [[97, 98]] 2 0) 3 (keysOnly [DEL_KEY]) [] rfl (by decide)
    (by decide) (by decide)).1.trans (by decide)

/-! ## the default branch -/

theorem labels_default (c : Int) (h : c ∉ editorProcessKeypress.labels) :
    c ≠ 13 ∧ c ≠ 17 ∧ c ≠ 19 ∧ c ≠ 1005 ∧ c ≠ 1006 ∧ c ≠ 6 ∧ c ≠ 127 ∧ c ≠ 1004 ∧ c ≠ 8
      ∧ c ≠ 1007 ∧ c ≠ 1008 ∧ c ≠ 1002 ∧ c ≠ 1003 ∧ c ≠ 1000 ∧ c ≠ 1001 ∧ c ≠ 12 ∧ c ≠ 27 := by
  simp only [editorProcessKeypress.labels, CTRL_KEY_q, CTRL_KEY_s, CTRL_KEY_f, CTRL_KEY_h,
    CTRL_KEY_l, CR, ESC, BACKSPACE, DEL_KEY, HOME_KEY, END_KEY, PAGE_UP, PAGE_DOWN, ARROW_UP,
    ARROW_DOWN, ARROW_LEFT, ARROW_RIGHT, List.mem_cons, List.mem_singleton, List.not_mem_nil,
    or_false, not_or] at h
  omega

/-- C26: a key code `c` that is none of the `case` labels of
`editorProcessKeypress` reaches `editorInsertChar(c)`, whether or not it is a
control byte.  In a state that satisfies the cursor invariant the byte
`(char) c` is then inserted at index `cx` of row `cy` (on the virtual row a
row holding only that byte is appended), `cx` advances by 1 and `cy` stays.
The tab 0x09 and the line feed 0x0A are such keys; after 0x0A the row of the
cursor holds a line-feed byte, and the number of rows is the one before
(one more on the virtual row, for the appended row). -/
theorem default_branch_inserts (E : editorConfig) (q : Int) (W : World) (c : Int)
    (rest : List Int) (hinv : CursorInv E) (hk : W.keys = c :: rest)
    (hc : c ∉ editorProcessKeypress.labels) :
    editorProcessKeypress E q W
        = Proc.running (editorInsertChar E c) EDITOR_QUIT_TIMES { W with keys := rest }
    ∧ (E.cy < E.numrows →
        (editorInsertChar E c).row
            = E.row.set E.cy.toNat
                (editorUpdateRow
                  { chars := (E.rowAt E.cy).chars.take E.cx.toNat ++ [(c % 256).toNat]
                              ++ (E.rowAt E.cy).chars.drop E.cx.toNat
                    render := [] })
          ∧ ((editorInsertChar E c).rowAt E.cy).chars
              = (E.rowAt E.cy).chars.take E.cx.toNat ++ [(c % 256).toNat]
                  ++ (E.rowAt E.cy).chars.drop E.cx.toNat
          ∧ (editorInsertChar E c).numrows = E.numrows)
    ∧ (E.cy = E.numrows →
        (editorInsertChar E c).row
            = E.row ++ [editorUpdateRow { chars := [(c % 256).toNat], render := [] }]
          ∧ ((editorInsertChar E c).rowAt E.cy).chars = [(c % 256).toNat]
          ∧ (editorInsertChar E c).numrows = E.numrows + 1)
    ∧ (editorInsertChar E c).cx = E.cx + 1
    ∧ (editorInsertChar E c).cy = E.cy
    ∧ (0 ≤ c → c < 256 → (c % 256).toNat = c.toNat)
    ∧ (9 : Int) ∉ editorProcessKeypress.labels
    ∧ (10 : Int) ∉ editorProcessKeypress.labels
    ∧ (c = 10 → LF ∈ ((editorInsertChar E c).rowAt E.cy).chars) := by
  obtain ⟨hy0, hy1, hx0, hx1⟩ := hinv
  refine ⟨processKeypress_default E q W c rest hk (labels_default c hc), ?_⟩
  have hbyte : 0 ≤ c → c < 256 → (c % 256).toNat = c.toNat := by
    intro h0 h1; omega
  by_cases hv : E.cy = E.numrows
  · have hlt : ¬ E.cy < E.numrows := by omega
    rw [if_neg hlt] at hx1
    have hcx : E.cx = 0 := by omega
    have hn : E.cy.toNat = E.row.length := by
      simp only [editorConfig.numrows] at hv; omega
    have hs : E.row ++ [editorUpdateRow { chars := [(c % 256).toNat], render := [] }]
        = E.row ++ editorUpdateRow { chars := [(c % 256).toNat], render := [] } :: [] := rfl
    have hat : ((editorInsertChar E c).rowAt E.cy).chars = [(c % 256).toNat] := by
      rw [editorInsertChar_virtual_shape E c hv hcx]
      simp only [editorConfig.rowAt, hn, hs, split_getD]
      rfl
    refine ⟨fun h => absurd h hlt, fun _ => ⟨?_, hat, ?_⟩, ?_, ?_, hbyte, by decide, by decide, ?_⟩
    · rw [editorInsertChar_virtual_shape E c hv hcx]
    · rw [editorInsertChar_virtual_shape E c hv hcx]
      simp only [editorConfig.numrows, List.length_append, List.length_singleton]
      push_cast
      rfl
    · rw [editorInsertChar_virtual_shape E c hv hcx]
      simp only
      omega
    · rw [editorInsertChar_virtual_shape E c hv hcx]
    · intro h10
      rw [hat, h10]
      decide
  · have hlt : E.cy < E.numrows := by omega
    rw [if_pos hlt] at hx1
    obtain ⟨pre, r, post, hrow, hcy, hr⟩ := rows_split E hy0 hlt
    rw [hr] at hx1
    have hi : E.cy.toNat = pre.length := by omega
    have hshape := editorInsertChar_row_shape E pre r post c hrow hcy hx0 hx1
    have hat : ((editorInsertChar E c).rowAt E.cy).chars
        = (E.rowAt E.cy).chars.take E.cx.toNat ++ [(c % 256).toNat]
            ++ (E.rowAt E.cy).chars.drop E.cx.toNat := by
      rw [hshape, hr]
      simp only [editorConfig.rowAt, hi, split_getD]
      rfl
    refine ⟨fun _ => ⟨?_, hat, ?_⟩, fun h => absurd h hv, ?_, ?_, hbyte, by decide, by decide, ?_⟩
    · rw [hshape, hr]
      simp only [hrow, hi, split_set]
      exact congrArg (fun x => pre ++ x :: post) (editorUpdateRow_congr _ _ rfl)
    · rw [hshape]
      simp only [editorConfig.numrows, hrow, List.length_append, List.length_cons]
    · rw [hshape]
    · rw [hshape]
    · intro h10
      rw [hat, h10]
      simp [LF]

/-- C26 on a concrete document: in the row `ab` with the cursor at column 1,
the key 0x0A gives the single row `a`, line feed, `b`, and the key 0x09 the row
`a`, tab, `b`. -/
theorem default_branch_inserts_witness :
    editorProcessKeypress (docOf [[97, 98]] 1 0) 3 (keysOnly [10])
        = Proc.running (editorInsertChar (docOf [[97, 98]] 1 0) 10) EDITOR_QUIT_TIMES
            { keysOnly [10] with keys := [] }
    ∧ (editorInsertChar (docOf [[97, 98]] 1 0) 10).row.map erow.chars = [[97, 10, 98]]
    ∧ (editorInsertChar (docOf [[97, 98]] 1 0) 9).row.map erow.chars = [[97, 9, 98]] :=
  ⟨(default_branch_inserts (docOf [[97, 98]] 1 0) 3 (keysOnly [10]) 10 [] (by decide) rfl
      (by decide)).1, by decide, by decide⟩

/-! ## the page keys -/

theorem editorMoveCursor_up (E : editorConfig) (h0 : 0 ≤ E.cy) :
    editorMoveCursor E ARROW_UP
      = { E with cy := max 0 (E.cy - 1), cx := min E.cx (rowlenAt E (max 0 (E.cy - 1))) } := by
  obtain ⟨cx, cy, rx, rowoff, coloff, sr, sc, rows, dirty, fn⟩ := E
  simp only at h0
  have hk1 : ¬ (ARROW_UP = ARROW_LEFT) := by decide
  have hk2 : ¬ (ARROW_UP = ARROW_RIGHT) := by decide
  rw [editorMoveCursor_eq]
  simp only [editorMoveCursor.step, if_neg hk1, if_neg hk2, if_true]
  by_cases hc : cy = 0
  · subst hc
    simp only [ne_eq, not_true_eq_false, if_false, editorMoveCursor.clamp, rowlenAt,
      editorConfig.numrows, editorConfig.rowAt]
    have hm : max (0 : Int) (0 - 1) = 0 := by decide
    rw [hm]
    split_ifs with h1 h2 h3 <;> simp only [editorConfig.mk.injEq, true_and, and_true] <;>
      first | omega | (simp only [] at *; omega)
  · have hm : max 0 (cy - 1) = cy - 1 := by omega
    rw [hm]
    simp only [ne_eq, hc, not_false_eq_true, if_true, editorMoveCursor.clamp, rowlenAt,
      editorConfig.numrows, editorConfig.rowAt]
    split_ifs with h1 h2 h3 <;> simp only [editorConfig.mk.injEq, true_and, and_true] <;>
      first | omega | (simp only [] at *; omega)

theorem editorMoveCursor_down (E : editorConfig) (h1 : E.cy ≤ E.numrows) :
    editorMoveCursor E ARROW_DOWN
      = { E with cy := min E.numrows (E.cy + 1),
                 cx := min E.cx (rowlenAt E (min E.numrows (E.cy + 1))) } := by
  obtain ⟨cx, cy, rx, rowoff, coloff, sr, sc, rows, dirty, fn⟩ := E
  simp only [editorConfig.numrows] at h1
  have hk1 : ¬ (ARROW_DOWN = ARROW_LEFT) := by decide
  have hk2 : ¬ (ARROW_DOWN = ARROW_RIGHT) := by decide
  have hk3 : ¬ (ARROW_DOWN = ARROW_UP) := by decide
  rw [editorMoveCursor_eq]
  simp only [editorMoveCursor.step, if_neg hk1, if_neg hk2, if_neg hk3, if_true,
    editorConfig.numrows]
  by_cases hc : cy < (rows.length : Int)
  · have hm : min (rows.length : Int) (cy + 1) = cy + 1 := by omega
    rw [hm]
    simp only [hc, if_true, editorMoveCursor.clamp, rowlenAt,
      editorConfig.numrows, editorConfig.rowAt]
    split_ifs with h1 h2 h3 <;> simp only [editorConfig.mk.injEq, true_and, and_true] <;>
      first | omega | (simp only [] at *; omega)
  · have hm : min (rows.length : Int) (cy + 1) = cy := by omega
    rw [hm]
    simp only [hc, if_false, editorMoveCursor.clamp, rowlenAt,
      editorConfig.numrows, editorConfig.rowAt]
    split_ifs with h1 h2 h3 <;> simp only [editorConfig.mk.injEq, true_and, and_true] <;>
      first | omega | (simp only [] at *; omega)

theorem rowlenAt_congr (E E1 : editorConfig) (h : E1.row = E.row) (y : Int) :
    rowlenAt E1 y = rowlenAt E y := by
  simp only [rowlenAt, editorConfig.numrows, editorConfig.rowAt, h]

theorem clampAlong_congr (E E1 : editorConfig) (h : E1.row = E.row) (ys : List Int) :
    ∀ cx, clampAlong E1 cx ys = clampAlong E cx ys := by
  induction ys with
  | nil => intro cx; rfl
  | cons y ys ih =>
    intro cx
    rw [clampAlong, clampAlong, rowlenAt_congr E E1 h, ih]

theorem clampAlong_bounds (E : editorConfig) (ys : List Int) :
    ∀ cx, clampAlong E cx ys ≤ cx ∧ (∀ y ∈ ys, clampAlong E cx ys ≤ rowlenAt E y)
      ∧ (clampAlong E cx ys = cx ∨ ∃ y ∈ ys, clampAlong E cx ys = rowlenAt E y) := by
  induction ys with
  | nil => intro cx; simp [clampAlong]
  | cons y ys ih =>
    intro cx
    obtain ⟨h1, h2, h3⟩ := ih (min cx (rowlenAt E y))
    rw [clampAlong]
    refine ⟨by omega, ?_, ?_⟩
    · intro z hz
      rcases List.mem_cons.1 hz with hz | hz
      · rw [hz]; omega
      · exact h2 z hz
    · rcases h3 with h3 | ⟨z, hz, h3⟩
      · by_cases hle : cx ≤ rowlenAt E y
        · left; omega
        · right; exact ⟨y, List.mem_cons_self _ _, by omega⟩
      · right; exact ⟨z, List.mem_cons_of_mem _ hz, h3⟩

theorem editorMoveCursor_times_up (n : Nat) :
    ∀ E : editorConfig, 0 ≤ E.cy →
      editorMoveCursor.times n E ARROW_UP
        = { E with
            cy := max 0 (E.cy - (n : Int))
            cx := clampAlong E E.cx
              ((List.range n).map (fun k : Nat => max 0 (E.cy - ((k : Int) + 1)))) } := by
  induction n with
  | zero =>
    intro E h0
    obtain ⟨cx, cy, rx, rowoff, coloff, sr, sc, rows, dirty, fn⟩ := E
    simp only at h0
    simp only [editorMoveCursor.times, List.range_zero, List.map_nil, clampAlong,
      editorConfig.mk.injEq, true_and, and_true]
    omega
  | succ n ih =>
    intro E h0
    rw [editorMoveCursor.times, editorMoveCursor_up E h0, ih _ (by simp only; omega),
      List.range_succ_eq_map, List.map_cons, clampAlong, List.map_map]
    have hl : (List.range n).map (fun k : Nat => max 0 (max 0 (E.cy - 1) - ((k : Int) + 1)))
        = (List.range n).map
            ((fun k : Nat => max 0 (E.cy - ((k : Int) + 1))) ∘ Nat.succ) := by
      apply List.map_congr_left
      intro k _
      simp only [Function.comp, Nat.succ_eq_add_one]
      push_cast
      omega
    simp only [hl, Nat.cast_zero, zero_add, editorConfig.mk.injEq, true_and, and_true]
    refine ⟨clampAlong_congr E _ (by rfl) _ _, ?_⟩
    push_cast
    omega

theorem editorMoveCursor_times_down (n : Nat) :
    ∀ E : editorConfig, E.cy ≤ E.numrows →
      editorMoveCursor.times n E ARROW_DOWN
        = { E with
            cy := min E.numrows (E.cy + (n : Int))
            cx := clampAlong E E.cx
              ((List.range n).map (fun k : Nat => min E.numrows (E.cy + ((k : Int) + 1)))) } := by
  induction n with
  | zero =>
    intro E h1
    obtain ⟨cx, cy, rx, rowoff, coloff, sr, sc, rows, dirty, fn⟩ := E
    simp only [editorConfig.numrows] at h1
    simp only [editorMoveCursor.times, List.range_zero, List.map_nil, clampAlong,
      editorConfig.mk.injEq, true_and, and_true, editorConfig.numrows]
    omega
  | succ n ih =>
    intro E h1
    have hnum : ∀ (a b : Int), ({ E with cy := a, cx := b } : editorConfig).numrows = E.numrows :=
      fun _ _ => rfl
    rw [editorMoveCursor.times, editorMoveCursor_down E h1, ih _ (by simp only [hnum]; omega),
      List.range_succ_eq_map, List.map_cons, clampAlong, List.map_map]
    simp only [hnum]
    have hl : (List.range n).map
          (fun k : Nat => min E.numrows (min E.numrows (E.cy + 1) + ((k : Int) + 1)))
        = (List.range n).map
            ((fun k : Nat => min E.numrows (E.cy + ((k : Int) + 1))) ∘ Nat.succ) := by
      apply List.map_congr_left
      intro k _
      simp only [Function.comp, Nat.succ_eq_add_one]
      push_cast
      omega
    simp only [hl, Nat.cast_zero, zero_add, editorConfig.mk.injEq, true_and, and_true]
    refine ⟨clampAlong_congr E _ (by rfl) _ _, ?_⟩
    push_cast
    omega

theorem editorMoveCursor_times_iterate (n : Nat) (key : Int) :
    ∀ E : editorConfig,
      editorMoveCursor.times n E key = Nat.iterate (fun S => editorMoveCursor S key) n E := by
  induction n with
  | zero => intro E; rfl
  | succ n ih =>
    intro E
    rw [editorMoveCursor.times, ih, Function.iterate_succ_apply]

theorem processKeypress_page_up (E : editorConfig) (q : Int) (W : World)
    (rest : List Int) (hk : W.keys = PAGE_UP :: rest) :
    editorProcessKeypress E q W
      = Proc.running
          (editorMoveCursor.times E.screenrows.toNat { E with cy := E.rowoff } ARROW_UP)
          EDITOR_QUIT_TIMES { W with keys := rest } := by
  have h1c : ¬ PAGE_UP = ((13 : Nat) : Int) := by decide
  unfold editorProcessKeypress
  rw [hk]
  simp only []
  simp only [CTRL_KEY_q, CTRL_KEY_s, CTRL_KEY_f, CTRL_KEY_h, CTRL_KEY_l, CR, h1c, if_false]
  simp only [BACKSPACE, DEL_KEY, HOME_KEY, END_KEY, PAGE_UP, PAGE_DOWN, ARROW_UP, ARROW_DOWN,
    ARROW_LEFT, ARROW_RIGHT]
  simp

theorem processKeypress_page_down (E : editorConfig) (q : Int) (W : World)
    (rest : List Int) (hk : W.keys = PAGE_DOWN :: rest) :
    editorProcessKeypress E q W
      = Proc.running
          (editorMoveCursor.times E.screenrows.toNat
            { E with cy := min (E.rowoff + E.screenrows - 1) E.numrows } ARROW_DOWN)
          EDITOR_QUIT_TIMES { W with keys := rest } := by
  have h1c : ¬ PAGE_DOWN = ((13 : Nat) : Int) := by decide
  unfold editorProcessKeypress
  rw [hk]
  simp only []
  simp only [CTRL_KEY_q, CTRL_KEY_s, CTRL_KEY_f, CTRL_KEY_h, CTRL_KEY_l, CR, h1c, if_false]
  simp only [BACKSPACE, DEL_KEY, HOME_KEY, END_KEY, PAGE_UP, PAGE_DOWN, ARROW_UP, ARROW_DOWN,
    ARROW_LEFT, ARROW_RIGHT]
  simp only [editorConfig.numrows]
  by_cases h : E.rowoff + E.screenrows - 1 > (E.row.length : Int)
  · rw [min_eq_right (by omega)]
    simp [h]
  · rw [min_eq_left (by omega)]
    simp [h]

/-- C22: with `screenrows >= 1` and `0 <= rowoff <= numrows`, the key PageUp
sets `cy` to `rowoff` and PageDown to `min(rowoff + screenrows - 1, numrows)`,
and then `editorMoveCursor(ARROW_UP)`, resp. `editorMoveCursor(ARROW_DOWN)`, is
applied `screenrows` times.  The result has `cy = max(0, rowoff - screenrows)`,
resp. `cy = min(numrows, rowoff + 2 * screenrows - 1)`, a row of the document
or the virtual row, and its `cx` is the old `cx` clamped to the length of the
row reached after each of the steps in turn (0 on the virtual row): it is at
most the old `cx` and at most each of those lengths, and it is one of these
values.  Nothing else of the state changes. -/
theorem page_keys (E : editorConfig) (q : Int) (W : World) (rest : List Int)
    (hs : 1 ≤ E.screenrows) (hr0 : 0 ≤ E.rowoff) (hr1 : E.rowoff ≤ E.numrows) :
    (W.keys = PAGE_UP :: rest →
      editorProcessKeypress E q W
          = Proc.running
              (Nat.iterate (fun S => editorMoveCursor S ARROW_UP) E.screenrows.toNat
                { E with cy := E.rowoff })
              EDITOR_QUIT_TIMES { W with keys := rest }
        ∧ Nat.iterate (fun S => editorMoveCursor S ARROW_UP) E.screenrows.toNat
              { E with cy := E.rowoff }
            = { E with
                cy := max 0 (E.rowoff - E.screenrows)
                cx := clampAlong E E.cx
                  ((List.range E.screenrows.toNat).map
                    (fun k : Nat => max 0 (E.rowoff - ((k : Int) + 1)))) }
        ∧ max 0 (E.rowoff - E.screenrows) ≤ E.numrows)
    ∧ (W.keys = PAGE_DOWN :: rest →
        editorProcessKeypress E q W
          = Proc.running
              (Nat.iterate (fun S => editorMoveCursor S ARROW_DOWN) E.screenrows.toNat
                { E with cy := min (E.rowoff + E.screenrows - 1) E.numrows })
              EDITOR_QUIT_TIMES { W with keys := rest }
        ∧ Nat.iterate (fun S => editorMoveCursor S ARROW_DOWN) E.screenrows.toNat
              { E with cy := min (E.rowoff + E.screenrows - 1) E.numrows }
            = { E with
                cy := min E.numrows (E.rowoff + 2 * E.screenrows - 1)
                cx := clampAlong E E.cx
                  ((List.range E.screenrows.toNat).map
                    (fun k : Nat => min E.numrows
                      (min (E.rowoff + E.screenrows - 1) E.numrows + ((k : Int) + 1)))) }
        ∧ 0 ≤ min E.numrows (E.rowoff + 2 * E.screenrows - 1))
    ∧ (∀ (cx : Int) (ys : List Int),
        clampAlong E cx ys ≤ cx ∧ (∀ y ∈ ys, clampAlong E cx ys ≤ rowlenAt E y)
          ∧ (clampAlong E cx ys = cx ∨ ∃ y ∈ ys, clampAlong E cx ys = rowlenAt E y))
    ∧ (∀ y : Int, rowlenAt E y = if y ≥ E.numrows then 0 else (E.rowAt y).size) := by
  have hcast : ((E.screenrows.toNat : Nat) : Int) = E.screenrows := by omega
  have hn0 : 0 ≤ E.numrows := by simp only [editorConfig.numrows]; omega
  refine ⟨fun hk => ⟨?_, ?_, by omega⟩, fun hk => ⟨?_, ?_, by omega⟩,
    fun cx ys => clampAlong_bounds E ys cx, fun y => rfl⟩
  · rw [processKeypress_page_up E q W rest hk, editorMoveCursor_times_iterate]
  · rw [← editorMoveCursor_times_iterate,
      editorMoveCursor_times_up _ { E with cy := E.rowoff } hr0, hcast]
    simp only [editorConfig.mk.injEq, true_and, and_true]
    exact clampAlong_congr E _ (by rfl) _ _
  · rw [processKeypress_page_down E q W rest hk, editorMoveCursor_times_iterate]
  · have hle : min (E.rowoff + E.screenrows - 1) E.numrows ≤ E.numrows := by omega
    rw [← editorMoveCursor_times_iterate,
      editorMoveCursor_times_down _ { E with cy := min (E.rowoff + E.screenrows - 1) E.numrows }
        hle, hcast]
    have hnum : ({ E with cy := min (E.rowoff + E.screenrows - 1) E.numrows }
        : editorConfig).numrows = E.numrows := rfl
    simp only [hnum, editorConfig.mk.injEq, true_and, and_true]
    refine ⟨clampAlong_congr E _ (by rfl) _ _, by omega⟩

set_option maxRecDepth 100000 in

/-- C22 on a concrete state: with two text rows on the screen, `rowoff = 2`
and the cursor at column 5 of row 2, PageUp passes the one-byte row 1 and
ends on row 0 at column 1, although row 0 holds six bytes; PageDown ends on the
virtual row at column 0. -/
theorem page_keys_witness :
    editorProcessKeypress
        { docOf [[97, 98, 99, 100, 101, 102], [97], [97, 98, 99, 100, 101, 102],
                 [97, 98, 99, 100, 101, 102]] 5 2 with screenrows := 2, rowoff := 2 }
        3 (keysOnly [PAGE_UP])
      = Proc.running
          { docOf [[97, 98, 99, 100, 101, 102], [97], [97, 98, 99, 100, 101, 102],
                   [97, 98, 99, 100, 101, 102]] 1 0 with screenrows := 2, rowoff := 2 }
          EDITOR_QUIT_TIMES { keysOnly [PAGE_UP] with keys := [] }
    ∧ editorProcessKeypress
        { docOf [[97, 98, 99, 100, 101, 102], [97], [97, 98, 99, 100, 101, 102],
                 [97, 98, 99, 100, 101, 102]] 5 2 with screenrows := 2, rowoff := 2 }
        3 (keysOnly [PAGE_DOWN])
      = Proc.running
          { docOf [[97, 98, 99, 100, 101, 102], [97], [97, 98, 99, 100, 101, 102],
                   [97, 98, 99, 100, 101, 102]] 0 4 with screenrows := 2, rowoff := 2 }
          EDITOR_QUIT_TIMES { keysOnly [PAGE_DOWN] with keys := [] } :=
  ⟨((page_keys
      { docOf [[97, 98, 99, 100, 101, 102], [97], [97, 98, 99, 100, 101, 102],
               [97, 98, 99, 100, 101, 102]] 5 2 with screenrows := 2, rowoff := 2 }
      3 (keysOnly [PAGE_UP]) [] (by decide) (by decide) (by decide)).1 rfl).1.trans (by decide),
   ((page_keys
      { docOf [[97, 98, 99, 100, 101, 102], [97], [97, 98, 99, 100, 101, 102],
               [97, 98, 99, 100, 101, 102]] 5 2 with screenrows := 2, rowoff := 2 }
      3 (keysOnly [PAGE_DOWN]) [] (by decide) (by decide) (by decide)).2.1 rfl).1.trans
        (by decide)⟩

end TextEditor
